import Mathlib

/-!
# Spam-detection pipeline (`02_async/99_hw/spammer/spammer.go`)

A shallow embedding of the four pipeline stages `SelectUsers`, `SelectMessages`,
`CheckSpam` and `CombineResults`.

* Values travelling on the `chan interface{}` queues are a tagged union `Value`.
* A stage that only runs its own goroutine (`CombineResults`) is a function on the
  sequence of received values.
* A stage that spawns goroutines is a state machine: a scheduler choice
  (`0` = the stage goroutine, `i + 1` = the `i`-th spawned goroutine) selects who
  performs its next statement; a run is a fold over a list of choices, so that a
  statement about every list of choices is a statement about every interleaving.
-/

namespace Spammer

/-! ## Data model -/

/-- Modelled from the spec: the declaration of `User` is not part of the stage file;
the stages only read `user.ID` (a `uint64` key of `checkAlias`); the e-mail stands for
the other profile fields. -/
structure User where
  ID : Nat
  Email : String
deriving DecidableEq, Repr

/-- Modelled from the spec: the declaration of `MsgID` is not part of the stage file;
the stages compare ids with `<` and print them with `%d`, an unsigned integer id. -/
abbrev MsgID := Nat

/-- Modelled from the spec: the record built by `MsgData{ID: msgID, HasSpam: isSpam}`. -/
structure MsgData where
  ID : MsgID
  HasSpam : Bool
deriving DecidableEq, Repr

/-- A value of dynamic type on a `chan interface{}`; `other` is any value whose dynamic
type is none of the four the stages assert. -/
inductive Value where
  | str (s : String)
  | user (u : User)
  | msgID (m : MsgID)
  | msgData (d : MsgData)
  | other (tag : Nat)
deriving DecidableEq, Repr

/-- Type assertion `userEmail.(string)`. -/
def asString : Value → Option String
  | .str s => some s
  | _ => none

/-- Type assertion `user.(User)`. -/
def asUser : Value → Option User
  | .user u => some u
  | _ => none

/-- Type assertion `inputData.(MsgID)`. -/
def asMsgID : Value → Option MsgID
  | .msgID m => some m
  | _ => none

/-- Type assertion `msgData.(MsgData)`. -/
def asMsgData : Value → Option MsgData
  | .msgData d => some d
  | _ => none

/-! ## `CombineResults` -/

/-- The comparator closure handed to `slices.SortFunc` (spammer.go:167-179). -/
def cmpMsgData (a b : MsgData) : Int :=
  if a.HasSpam = b.HasSpam then
    if a.ID < b.ID then -1 else 1
  else if a.HasSpam = true then -1
  else 1

/-- The order `slices.SortFunc` sorts by: it only ever tests `cmp(x, y) < 0`, and leaves
`a` before `b` when `cmp(b, a) < 0` does not hold. -/
def cmpLE (cmp : α → α → Int) (a b : α) : Prop := ¬ cmp b a < 0

instance (cmp : α → α → Int) : DecidableRel (cmpLE cmp) :=
  fun a b => inferInstanceAs (Decidable (¬ cmp b a < 0))

/-- Model of the library routine `slices.SortFunc` for a comparator whose ties are equal
elements, as is `cmpMsgData`: an insertion sort driven by the test `cmp(x, y) < 0` (the
library's own routine for slices of at most 12 elements). For longer slices the library
sorts by an unstable quicksort, which may order tying elements otherwise; when only
equal elements tie, every sorted rearrangement is this one list
(`sortFunc_cmpMsgData_any`). -/
def SortFunc (cmp : α → α → Int) (l : List α) : List α :=
  l.insertionSort (cmpLE cmp)

/-- Verb `%t` of `fmt.Sprintf`. -/
def fmtBool (b : Bool) : List Char :=
  if b then ['t', 'r', 'u', 'e'] else ['f', 'a', 'l', 's', 'e']

/-- The character of a decimal digit `d < 10`. -/
def digitChar (d : Nat) : Char := Char.ofNat (48 + d)

/-- Digit loop of the verb `%d`: peel the last digit until one digit is left; `fuel`
bounds the number of rounds. -/
def formatBits : Nat → Nat → List Char → List Char
  | 0, _, acc => acc
  | fuel + 1, n, acc =>
    if n < 10 then digitChar n :: acc
    else formatBits fuel (n / 10) (digitChar (n % 10) :: acc)

/-- Verb `%d` of `fmt.Sprintf` on an unsigned integer. -/
def fmtDecimal (n : Nat) : List Char := formatBits (n + 1) n []

/-- `fmt.Sprintf("%t %d", message.HasSpam, message.ID)` (spammer.go:182). -/
def reportLine (m : MsgData) : String :=
  String.mk (fmtBool m.HasSpam ++ ' ' :: fmtDecimal m.ID)

/-- The slice `messages` after the receive loop (spammer.go:155-165): the received
values that pass the type assertion, in arrival order. -/
def receivedMessages (input : List Value) : List MsgData :=
  input.filterMap asMsgData

/-- The slice `messages` after `slices.SortFunc` (spammer.go:167-179). -/
def sortedMessages (input : List Value) : List MsgData :=
  SortFunc cmpMsgData (receivedMessages input)

/-- `CombineResults` (spammer.go:152-184): the sequence of values sent on `out`, given
the sequence of values received on `in` until it is closed. -/
def CombineResults (input : List Value) : List Value :=
  (sortedMessages input).map (fun m => Value.str (reportLine m))

/-- The value a decimal digit string denotes. -/
def decimalValue (cs : List Char) : Nat :=
  cs.foldl (fun acc c => 10 * acc + (c.toNat - 48)) 0

/-- The order of the report: spam before non-spam, ascending id within equal status. -/
def lineOrder (a b : MsgData) : Prop :=
  (a.HasSpam = true ∧ b.HasSpam = false) ∨ (a.HasSpam = b.HasSpam ∧ a.ID ≤ b.ID)

instance : DecidableRel lineOrder :=
  fun a b => by unfold lineOrder; infer_instance

/-! ## Goroutines and schedules -/

/-- A run of a stage: the scheduler choices of `sched` are performed left to right;
choice `0` lets the stage goroutine perform its next statement, choice `i + 1` the
`i`-th goroutine it spawned. A choice naming a goroutine that is blocked, finished or
not yet spawned leaves the state unchanged. A send on `out` is a statement that
completes (the consumer of `out` is receiving) and appends to the sent sequence. -/
def runSched (step : Nat → σ → σ) (sched : List Nat) (s : σ) : σ :=
  sched.foldl (fun st who => step who st) s

/-! ## `SelectUsers` -/

namespace SelectUsers

/-- Program counter of a lookup goroutine (spammer.go:49-67); a value names the
statement the goroutine performs next, with its local variables. -/
inductive PC where
  /-- before `user := GetUser(email)` -/
  | call
  /-- before `mu.Lock()` -/
  | lock (u : User)
  /-- holding `mu`, before the lookup `_, exist := checkAlias[user.ID]` -/
  | read (u : User)
  /-- holding `mu`, before the branch on `!exist` that stores the key and sets `canSend` -/
  | write (u : User) (exist : Bool)
  /-- holding `mu`, before `mu.Unlock()` -/
  | unlock (u : User) (canSend : Bool)
  /-- before `if canSend { out <- user }` and the deferred `wg.Done()` -/
  | send (u : User) (canSend : Bool)
  /-- after `wg.Done()` -/
  | done
deriving DecidableEq, Repr

/-- A spawned lookup goroutine: `k` is its ordinal among the goroutines of the stage,
`email` its argument. -/
structure Task where
  k : Nat
  email : String
  pc : PC
deriving DecidableEq, Repr

/-- State of the stage. `input` holds the values not yet received from `in`, `out` the
values sent so far, `calls` the `GetUser` calls made so far, `returned` whether
`wg.Wait()` has completed. -/
structure State where
  input : List Value
  tasks : List Task
  mu : Bool
  checkAlias : List Nat
  out : List Value
  calls : List (Nat × String)
  returned : Bool
deriving DecidableEq, Repr

/-- State on entry of `SelectUsers`, `input` being what `in` will deliver. -/
def init (input : List Value) : State :=
  { input := input, tasks := [], mu := false, checkAlias := [], out := [], calls := [],
    returned := false }

/-- One statement of the stage goroutine (spammer.go:40-70): receive a value and spawn
a lookup when it is a string; once `in` is closed and drained, `wg.Wait()` completes
when every spawned goroutine is done. -/
def stepMain (s : State) : State :=
  if s.returned then s
  else
    match s.input with
    | v :: rest =>
      match asString v with
      | some email =>
        { s with input := rest, tasks := s.tasks ++ [⟨s.tasks.length, email, .call⟩] }
      | none => { s with input := rest }
    | [] =>
      if s.tasks.all (fun t => decide (t.pc = .done)) then { s with returned := true }
      else s

/-- Goroutine `i` moves to program counter `pc`. -/
def setPC (s : State) (i : Nat) (t : Task) (pc : PC) : State :=
  { s with tasks := s.tasks.set i { t with pc := pc } }

/-- One statement of the lookup goroutine `t`, the `i`-th spawned (spammer.go:49-67).
`GetUser k email` is what the call of goroutine `k` returns. -/
def stepTask (GetUser : Nat → String → User) (i : Nat) (t : Task) (s : State) : State :=
  match t.pc with
  | .call =>
    { setPC s i t (.lock (GetUser t.k t.email)) with calls := s.calls ++ [(t.k, t.email)] }
  | .lock u => if s.mu then s else { setPC s i t (.read u) with mu := true }
  | .read u => setPC s i t (.write u (decide (u.ID ∈ s.checkAlias)))
  | .write u exist =>
    if exist then setPC s i t (.unlock u false)
    else { setPC s i t (.unlock u true) with checkAlias := u.ID :: s.checkAlias }
  | .unlock u canSend => { setPC s i t (.send u canSend) with mu := false }
  | .send u canSend =>
    if canSend then { setPC s i t .done with out := s.out ++ [Value.user u] }
    else setPC s i t .done
  | .done => s

/-- One scheduler choice. -/
def step (GetUser : Nat → String → User) (who : Nat) (s : State) : State :=
  match who with
  | 0 => stepMain s
  | i + 1 =>
    match s.tasks[i]? with
    | some t => stepTask GetUser i t s
    | none => s

/-- The state `SelectUsers` reaches from its entry under the schedule `sched`. -/
def run (GetUser : Nat → String → User) (sched : List Nat) (input : List Value) : State :=
  runSched (step GetUser) sched (init input)

/-- The program counters at which a goroutine holds `mu`. -/
def holds : PC → Bool
  | .read _ | .write _ _ | .unlock _ _ => true
  | _ => false

/-- The user a goroutine has reserved in `checkAlias` and not yet sent. -/
def claimed : PC → Option User
  | .unlock u true | .send u true => some u
  | _ => none

/-- The local variable `user`, once assigned. -/
def pcUser : PC → Option User
  | .lock u | .read u | .write u _ | .unlock u _ | .send u _ => some u
  | _ => none

/-- The program counters at which the id of `user` is known to be in `checkAlias`. -/
def past : PC → Bool
  | .write _ true | .unlock _ _ | .send _ _ | .done => true
  | _ => false

/-- Whether the goroutine has made its `GetUser` call. -/
def called : PC → Bool
  | .call => false
  | _ => true

/-- Statements a goroutine still has to perform. -/
def remaining : PC → Nat
  | .call => 6
  | .lock _ => 5
  | .read _ => 4
  | .write _ _ => 3
  | .unlock _ _ => 2
  | .send _ _ => 1
  | .done => 0

/-- Statements the stage still has to perform. -/
def measure (s : State) : Nat :=
  7 * s.input.length + (s.tasks.map (fun t => remaining t.pc)).sum + (if s.returned then 0 else 1)

/-- Invariant of the runs of `SelectUsers` on the input `input0`. -/
structure Inv (GetUser : Nat → String → User) (input0 : List Value) (s : State) : Prop where
  idents : s.tasks.map (fun t => (t.k, t.email)) ++
      List.enumFrom s.tasks.length (s.input.filterMap asString) =
    (input0.filterMap asString).enum
  user : ∀ t ∈ s.tasks, ∀ u, pcUser t.pc = some u → u = GetUser t.k t.email
  mutex : s.tasks.countP (fun t => holds t.pc) = if s.mu then 1 else 0
  fresh : ∀ t ∈ s.tasks, ∀ u, t.pc = .write u false → u.ID ∉ s.checkAlias
  known : ∀ t ∈ s.tasks, past t.pc = true → (GetUser t.k t.email).ID ∈ s.checkAlias
  aliasPerm : s.checkAlias.Perm
    ((s.out.filterMap asUser ++ s.tasks.filterMap (fun t => claimed t.pc)).map User.ID)
  nodup : s.checkAlias.Nodup
  outUsers : ∀ v ∈ s.out, ∃ u, v = Value.user u ∧ ∃ t ∈ s.tasks, u = GetUser t.k t.email
  logged : s.calls.Perm
    ((s.tasks.filter (fun t => called t.pc)).map (fun t => (t.k, t.email)))
  ret : s.returned = true → s.input = [] ∧ ∀ t ∈ s.tasks, t.pc = .done

/-- The users the `GetUser` calls of the stage return: one per received string, in
order of receipt. -/
def resolved (GetUser : Nat → String → User) (input : List Value) : List User :=
  (input.filterMap asString).enum.map (fun p => GetUser p.1 p.2)

/-- The state with the values that fail the type assertion `userEmail.(string)` removed
from the pending input. -/
def dropUntyped (s : State) : State :=
  { s with input := s.input.filter (fun v => (asString v).isSome) }

/-- A sample user lookup: `a@x` and `alias@x` resolve to user 1, every other e-mail to
user 2. -/
def sampleGetUser : Nat → String → User :=
  fun _ e => if e = "a@x" ∨ e = "alias@x" then ⟨1, "a@x"⟩ else ⟨2, "b@x"⟩

/-- A sample input of `SelectUsers`: a repeated e-mail, an alias and a stray value. -/
def sampleEmails : List Value :=
  [.str "a@x", .str "b@x", .other 0, .str "alias@x", .str "a@x"]

/-- A sample interleaving of the four lookups of `sampleEmails` that lets the stage
return. -/
def sampleSched : List Nat :=
  [0, 1, 0, 2, 1, 0, 0, 3, 2, 3, 1, 3, 2, 1, 1, 0, 4, 3, 3, 2, 4, 2, 2, 3, 3, 1, 2, 3, 2, 2,
    2, 2, 4, 4, 4, 4, 4, 0]

end SelectUsers

/-! ## `SelectMessages` -/

namespace SelectMessages

/-- Program counter of a `getMessagesWorker` goroutine (spammer.go:80-91). -/
inductive PC where
  /-- before `msgIDs, err := GetMessages(batch...)` -/
  | call
  /-- in `for _, msgID := range msgIDs`, the ids of `rest` still to be sent -/
  | emit (rest : List MsgID)
  /-- after the deferred `wg.Done()` -/
  | done
deriving DecidableEq, Repr

/-- A spawned worker: `k` is its ordinal among the workers of the stage, `batch` its
argument. -/
structure Task where
  k : Nat
  batch : List User
  pc : PC
deriving DecidableEq, Repr

/-- State of the stage. `users` is the buffer slice, `flushed` tells that the statement
after the receive loop (spammer.go:112-115) has been performed, `calls` lists the
`GetMessages` calls made so far. -/
structure State where
  input : List Value
  users : List User
  flushed : Bool
  tasks : List Task
  out : List Value
  calls : List (Nat × List User)
  returned : Bool
deriving DecidableEq, Repr

/-- State on entry of `SelectMessages`. -/
def init (input : List Value) : State :=
  { input := input, users := [], flushed := false, tasks := [], out := [], calls := [],
    returned := false }

/-- One statement of the stage goroutine (spammer.go:93-117), `B` being
`GetMessagesMaxUsersBatch`: receive a value, append a user to the buffer and hand the
buffer to a new worker once it holds `B` users; after the loop hand over a non-empty
remainder; then `wg.Wait()` completes when every worker is done. -/
def stepMain (B : Nat) (s : State) : State :=
  if s.returned then s
  else
    match s.input with
    | v :: rest =>
      match asUser v with
      | some u =>
        if (s.users ++ [u]).length < B then { s with input := rest, users := s.users ++ [u] }
        else
          { s with input := rest, users := [],
                   tasks := s.tasks ++ [⟨s.tasks.length, s.users ++ [u], .call⟩] }
      | none => { s with input := rest }
    | [] =>
      if s.flushed then
        if s.tasks.all (fun t => decide (t.pc = .done)) then { s with returned := true }
        else s
      else if s.users.length > 0 then
        { s with flushed := true, tasks := s.tasks ++ [⟨s.tasks.length, s.users, .call⟩] }
      else { s with flushed := true }

/-- Worker `i` moves to program counter `pc`. -/
def setPC (s : State) (i : Nat) (t : Task) (pc : PC) : State :=
  { s with tasks := s.tasks.set i { t with pc := pc } }

/-- One statement of the worker `t`, the `i`-th spawned (spammer.go:80-91).
`GetMessages k batch` is what the call of worker `k` returns, `none` standing for a
non-nil `err`. -/
def stepTask (GetMessages : Nat → List User → Option (List MsgID)) (i : Nat) (t : Task)
    (s : State) : State :=
  match t.pc with
  | .call =>
    match GetMessages t.k t.batch with
    | some msgIDs => { setPC s i t (.emit msgIDs) with calls := s.calls ++ [(t.k, t.batch)] }
    | none => { setPC s i t .done with calls := s.calls ++ [(t.k, t.batch)] }
  | .emit (msgID :: rest) => { setPC s i t (.emit rest) with out := s.out ++ [Value.msgID msgID] }
  | .emit [] => setPC s i t .done
  | .done => s

/-- One scheduler choice. -/
def step (B : Nat) (GetMessages : Nat → List User → Option (List MsgID)) (who : Nat)
    (s : State) : State :=
  match who with
  | 0 => stepMain B s
  | i + 1 =>
    match s.tasks[i]? with
    | some t => stepTask GetMessages i t s
    | none => s

/-- The state `SelectMessages` reaches from its entry under the schedule `sched`. -/
def run (B : Nat) (GetMessages : Nat → List User → Option (List MsgID)) (sched : List Nat)
    (input : List Value) : State :=
  runSched (step B GetMessages) sched (init input)

/-- The ids a worker still has to send. -/
def pending : PC → List MsgID
  | .emit rest => rest
  | _ => []

/-- Whether the worker has made its `GetMessages` call. -/
def called : PC → Bool
  | .call => false
  | _ => true

/-- The ids the call of a worker has returned so far: those of a successful call that
has been made. -/
def returnedIds (GetMessages : Nat → List User → Option (List MsgID)) (t : Task) :
    List MsgID :=
  if called t.pc then (GetMessages t.k t.batch).getD [] else []

/-- The ids returned by the calls of `calls` that succeeded. -/
def bulkIds (GetMessages : Nat → List User → Option (List MsgID))
    (calls : List (Nat × List User)) : List MsgID :=
  (calls.filterMap (fun c => GetMessages c.1 c.2)).flatten

/-- Statements a worker still has to perform. -/
def remaining (GetMessages : Nat → List User → Option (List MsgID)) (t : Task) : Nat :=
  match t.pc with
  | .call =>
    match GetMessages t.k t.batch with
    | some msgIDs => msgIDs.length + 2
    | none => 1
  | .emit rest => rest.length + 1
  | .done => 0

/-- Invariant of the runs of `SelectMessages` with batch size `B` on the input
`input0`. -/
structure Inv (B : Nat) (GetMessages : Nat → List User → Option (List MsgID))
    (input0 : List Value) (s : State) : Prop where
  batches : (s.tasks.map (fun t => t.batch)).flatten ++ (if s.flushed then [] else s.users) ++
      s.input.filterMap asUser = input0.filterMap asUser
  running : s.flushed = false →
      (∀ t ∈ s.tasks, t.batch.length = max B 1) ∧ s.users.length < max B 1
  drained : s.flushed = true → s.input = [] ∧ ∃ full last,
      s.tasks.map (fun t => t.batch) = full ++ last ∧ (∀ b ∈ full, b.length = max B 1) ∧
      (last = [] ∨ ∃ b, last = [b] ∧ 0 < b.length ∧ b.length < max B 1)
  ks : s.tasks.map (fun t => t.k) = List.range s.tasks.length
  logged : s.calls.Perm
    ((s.tasks.filter (fun t => called t.pc)).map (fun t => (t.k, t.batch)))
  sent : (↑(s.out.filterMap asMsgID) : Multiset MsgID) +
      (s.tasks.map (fun t => (↑(pending t.pc) : Multiset MsgID))).sum =
    (s.tasks.map (fun t => (↑(returnedIds GetMessages t) : Multiset MsgID))).sum
  outIds : ∀ v ∈ s.out, ∃ m, v = Value.msgID m
  ret : s.returned = true → s.flushed = true ∧ ∀ t ∈ s.tasks, t.pc = .done

/-- The state with the values that fail the type assertion `user.(User)` removed from
the pending input. -/
def dropUntyped (s : State) : State :=
  { s with input := s.input.filter (fun v => (asUser v).isSome) }

/-- A sample bulk lookup: the call of the second worker fails, every other call
returns ten times the id of each user of its batch. -/
def sampleGetMessages : Nat → List User → Option (List MsgID) :=
  fun k batch => if k = 1 then none else some (batch.map (fun u => 10 * u.ID))

/-- A sample input of `SelectMessages`: seven users and a stray value. -/
def sampleUsers : List Value :=
  [.user ⟨1, "u1"⟩, .user ⟨2, "u2"⟩, .user ⟨3, "u3"⟩, .str "stray", .user ⟨4, "u4"⟩,
    .user ⟨5, "u5"⟩, .user ⟨6, "u6"⟩, .user ⟨7, "u7"⟩]

/-- A sample interleaving of the stage goroutine and its three workers on
`sampleUsers` with batch size 3 that lets the stage return. -/
def sampleSched : List Nat :=
  [0, 0, 0, 1, 0, 0, 1, 0, 0, 2, 0, 0, 3, 1, 3, 1, 3, 1, 1, 0]

end SelectMessages

/-! ## `CheckSpam` -/

namespace CheckSpam

/-- Program counter of a classification goroutine (spammer.go:135-146). -/
inductive PC where
  /-- before `sem <- struct{}{}` -/
  | acquire
  /-- holding a slot of `sem`, until `isSpam, err := HasSpam(msgID)` has returned -/
  | call
  /-- holding a slot, before `out <- MsgData{ID: msgID, HasSpam: isSpam}` -/
  | send (isSpam : Bool)
  /-- holding a slot, before the deferred `<-sem` and `wg.Done()` -/
  | release
  /-- after `wg.Done()` -/
  | done
deriving DecidableEq, Repr

/-- A spawned classification goroutine: `k` is its ordinal among the goroutines of the
stage, `msgID` its argument. -/
structure Task where
  k : Nat
  msgID : MsgID
  pc : PC
deriving DecidableEq, Repr

/-- State of the stage. `sem` is the number of elements held in the channel `sem`,
`calls` lists the `HasSpam` calls made so far. -/
structure State where
  input : List Value
  tasks : List Task
  sem : Nat
  out : List Value
  calls : List (Nat × MsgID)
  returned : Bool
deriving DecidableEq, Repr

/-- State on entry of `CheckSpam`. -/
def init (input : List Value) : State :=
  { input := input, tasks := [], sem := 0, out := [], calls := [], returned := false }

/-- One statement of the stage goroutine (spammer.go:126-149): receive a value and
spawn a classification when it is a `MsgID`; once `in` is closed and drained,
`wg.Wait()` completes when every spawned goroutine is done. -/
def stepMain (s : State) : State :=
  if s.returned then s
  else
    match s.input with
    | v :: rest =>
      match asMsgID v with
      | some msgID =>
        { s with input := rest, tasks := s.tasks ++ [⟨s.tasks.length, msgID, .acquire⟩] }
      | none => { s with input := rest }
    | [] =>
      if s.tasks.all (fun t => decide (t.pc = .done)) then { s with returned := true }
      else s

/-- Goroutine `i` moves to program counter `pc`. -/
def setPC (s : State) (i : Nat) (t : Task) (pc : PC) : State :=
  { s with tasks := s.tasks.set i { t with pc := pc } }

/-- One statement of the classification goroutine `t`, the `i`-th spawned
(spammer.go:135-146). `K` is `HasSpamMaxAsyncRequests`, the capacity of `sem`: the send
on `sem` blocks while `K` elements are held. `HasSpam k msgID` is what the call of
goroutine `k` returns, `none` standing for a non-nil `err`. -/
def stepTask (K : Nat) (HasSpam : Nat → MsgID → Option Bool) (i : Nat) (t : Task)
    (s : State) : State :=
  match t.pc with
  | .acquire => if s.sem < K then { setPC s i t .call with sem := s.sem + 1 } else s
  | .call =>
    match HasSpam t.k t.msgID with
    | some isSpam => { setPC s i t (.send isSpam) with calls := s.calls ++ [(t.k, t.msgID)] }
    | none => { setPC s i t .release with calls := s.calls ++ [(t.k, t.msgID)] }
  | .send isSpam =>
    { setPC s i t .release with out := s.out ++ [Value.msgData ⟨t.msgID, isSpam⟩] }
  | .release => { setPC s i t .done with sem := s.sem - 1 }
  | .done => s

/-- One scheduler choice. -/
def step (K : Nat) (HasSpam : Nat → MsgID → Option Bool) (who : Nat) (s : State) : State :=
  match who with
  | 0 => stepMain s
  | i + 1 =>
    match s.tasks[i]? with
    | some t => stepTask K HasSpam i t s
    | none => s

/-- The state `CheckSpam` reaches from its entry under the schedule `sched`. -/
def run (K : Nat) (HasSpam : Nat → MsgID → Option Bool) (sched : List Nat)
    (input : List Value) : State :=
  runSched (step K HasSpam) sched (init input)

/-- The program counters at which a goroutine holds a slot of `sem`. -/
def holdsSlot : PC → Bool
  | .call | .send _ | .release => true
  | _ => false

/-- Whether the goroutine has made its `HasSpam` call. -/
def called : PC → Bool
  | .acquire | .call => false
  | _ => true

/-- The record a successful call yields. -/
def verdict (HasSpam : Nat → MsgID → Option Bool) (k : Nat) (msgID : MsgID) : List MsgData :=
  match HasSpam k msgID with
  | some isSpam => [⟨msgID, isSpam⟩]
  | none => []

/-- The records a goroutine has sent so far. -/
def delivered (HasSpam : Nat → MsgID → Option Bool) (t : Task) : List MsgData :=
  match t.pc with
  | .release | .done => verdict HasSpam t.k t.msgID
  | _ => []

/-- The records of the received message ids whose classification succeeds, in order
of receipt. -/
def classified (HasSpam : Nat → MsgID → Option Bool) (input : List Value) : List MsgData :=
  ((input.filterMap asMsgID).enum.map (fun p => verdict HasSpam p.1 p.2)).flatten

/-- Statements a goroutine still has to perform. -/
def remaining : PC → Nat
  | .acquire => 4
  | .call => 3
  | .send _ => 2
  | .release => 1
  | .done => 0

/-- Statements the stage still has to perform. -/
def measure (s : State) : Nat :=
  5 * s.input.length + (s.tasks.map (fun t => remaining t.pc)).sum + (if s.returned then 0 else 1)

/-- Invariant of the runs of `CheckSpam` with semaphore capacity `K` on the input
`input0`. -/
structure Inv (K : Nat) (HasSpam : Nat → MsgID → Option Bool) (input0 : List Value)
    (s : State) : Prop where
  idents : s.tasks.map (fun t => (t.k, t.msgID)) ++
      List.enumFrom s.tasks.length (s.input.filterMap asMsgID) =
    (input0.filterMap asMsgID).enum
  slots : s.sem = s.tasks.countP (fun t => holdsSlot t.pc)
  bound : s.sem ≤ K
  result : ∀ t ∈ s.tasks, ∀ r, t.pc = .send r → HasSpam t.k t.msgID = some r
  logged : s.calls.Perm
    ((s.tasks.filter (fun t => called t.pc)).map (fun t => (t.k, t.msgID)))
  sent : (↑(s.out.filterMap asMsgData) : Multiset MsgData) =
    (s.tasks.map (fun t => (↑(delivered HasSpam t) : Multiset MsgData))).sum
  outRecs : ∀ v ∈ s.out, ∃ d, v = Value.msgData d
  ret : s.returned = true → s.input = [] ∧ ∀ t ∈ s.tasks, t.pc = .done

/-- The goroutines whose `HasSpam` call may be in progress: they have passed the send
on `sem` and their call has not yet returned. -/
def inFlight (s : State) : Nat :=
  s.tasks.countP (fun t => decide (t.pc = PC.call))

/-- The goroutines that have been spawned (spammer.go:135) and have not yet finished. -/
def unfinished (s : State) : Nat :=
  s.tasks.countP (fun t => decide (t.pc ≠ PC.done))

/-- The state with the values that fail the type assertion `inputData.(MsgID)` removed
from the pending input. -/
def dropUntyped (s : State) : State :=
  { s with input := s.input.filter (fun v => (asMsgID v).isSome) }

/-- A sample classifier: message 12 cannot be classified, odd ids are spam. -/
def sampleHasSpam : Nat → MsgID → Option Bool :=
  fun _ m => if m = 12 then none else some (decide (m % 2 = 1))

/-- A sample input of `CheckSpam`: three message ids. -/
def sampleIds : List Value := [.msgID 10, .msgID 12, .msgID 11]

/-- A sample interleaving of the three classifications of `sampleIds` under capacity 2
that lets the stage return. -/
def sampleSched : List Nat :=
  [0, 0, 0, 3, 3, 3, 1, 2, 3, 2, 1, 2, 1, 2, 1, 0]

end CheckSpam

/-! ## The composed stages -/

/-- The external services the stages call; the first argument of each is the ordinal
of the calling goroutine within its stage. -/
structure Services where
  GetUser : Nat → String → User
  GetMessages : Nat → List User → Option (List MsgID)
  HasSpam : Nat → MsgID → Option Bool

/-- The interleavings of the goroutines of `SelectUsers`, `SelectMessages` and
`CheckSpam` in one run of the pipeline. -/
structure Schedules where
  users : List Nat
  msgs : List Nat
  spam : List Nat
deriving DecidableEq, Repr

namespace Pipeline

/-- `SelectUsers` in a run of `RunPipeline` (spammer.go:10-30) on the e-mails
`emails`. The stages share nothing but the queues between them, so each one sees the
sequence its predecessor sent. -/
def usersState (sv : Services) (sc : Schedules) (emails : List Value) : SelectUsers.State :=
  SelectUsers.run sv.GetUser sc.users emails

/-- `SelectMessages` fed by the queue `SelectUsers` writes. -/
def msgsState (sv : Services) (B : Nat) (sc : Schedules) (emails : List Value) :
    SelectMessages.State :=
  SelectMessages.run B sv.GetMessages sc.msgs (usersState sv sc emails).out

/-- `CheckSpam` fed by the queue `SelectMessages` writes. -/
def spamState (sv : Services) (B K : Nat) (sc : Schedules) (emails : List Value) :
    CheckSpam.State :=
  CheckSpam.run K sv.HasSpam sc.spam (msgsState sv B sc emails).out

/-- The report: `CombineResults` fed by the queue `CheckSpam` writes. -/
def report (sv : Services) (B K : Nat) (sc : Schedules) (emails : List Value) : List Value :=
  CombineResults (spamState sv B K sc emails).out

/-- Whether the three concurrent stages have returned. -/
def completed (sv : Services) (B K : Nat) (sc : Schedules) (emails : List Value) : Bool :=
  (usersState sv sc emails).returned && (msgsState sv B sc emails).returned &&
    (spamState sv B K sc emails).returned

/-- The message ids returned by all the bulk lookups of the run. -/
def bulkIds (sv : Services) (B : Nat) (sc : Schedules) (emails : List Value) : List MsgID :=
  SelectMessages.bulkIds sv.GetMessages (msgsState sv B sc emails).calls

/-- Services whose calls all succeed and whose bulk lookup returns message 7 twice. -/
def dupServices : Services :=
  { GetUser := fun _ e => ⟨1, e⟩,
    GetMessages := fun _ _ => some [7, 7],
    HasSpam := fun _ _ => some false }

/-- A run of the pipeline on the single e-mail `a@x`. -/
def dupSchedules : Schedules :=
  { users := [0, 1, 1, 1, 1, 1, 1, 0],
    msgs := [0, 0, 1, 1, 1, 1, 0],
    spam := [0, 0, 1, 2, 1, 2, 1, 1, 2, 2, 2, 2, 0] }

/-- The services of the end-to-end example: `a@x` resolves to user 1 and every other
e-mail to user 2; the bulk lookup returns ids 10 and 11 for user 1 and id 12 for every
other user of the batch; message 11 is spam. -/
def exampleServices : Services :=
  { GetUser := fun _ e => if e = "a@x" then ⟨1, "a@x"⟩ else ⟨2, "b@x"⟩,
    GetMessages := fun _ batch =>
      some (batch.flatMap (fun u => if u = (⟨1, "a@x"⟩ : User) then [10, 11] else [12])),
    HasSpam := fun _ m => some (decide (m = 11)) }

/-- An interleaving of the end-to-end example for batch size 1 in which user 2 is
forwarded before user 1. -/
def exampleSchedules : Schedules :=
  { users := [0, 0, 0, 2, 2, 2, 2, 2, 2, 1, 3, 3, 3, 3, 3, 3, 1, 1, 1, 1, 1, 0],
    msgs := [0, 0, 2, 0, 1, 2, 1, 2, 1, 2, 0],
    spam := [0, 0, 0, 3, 1, 2, 3, 3, 1, 3, 2, 1, 2, 1, 2, 2, 0] }

end Pipeline

/-! ## `CombineResults` as a goroutine -/

namespace CombineStage

/-- Where the goroutine running `CombineResults` (spammer.go:152-184) stands. -/
inductive Phase where
  /-- in the receive loop `for msgData := range in` -/
  | receiving
  /-- after `slices.SortFunc`, in the send loop with the records `rest` still to send -/
  | sending (rest : List MsgData)
  /-- the function has returned -/
  | returned
deriving DecidableEq, Repr

/-- State of the goroutine: the values not yet received, the slice `messages`, the
phase and the values sent on `out`. -/
structure State where
  input : List Value
  messages : List MsgData
  phase : Phase
  out : List Value
deriving DecidableEq, Repr

/-- State on entry of `CombineResults`. -/
def init (input : List Value) : State :=
  { input := input, messages := [], phase := Phase.receiving, out := [] }

/-- One statement of `CombineResults`. The channel `out` is unbuffered: the send
`out <- fmt.Sprintf(...)` completes only when `reader` holds, that is when some
goroutine receives from `out`; otherwise the goroutine stays blocked in the send. -/
def step (reader : Bool) (s : State) : State :=
  match s.phase with
  | .receiving =>
    match s.input with
    | v :: rest =>
      match asMsgData v with
      | some m => { s with input := rest, messages := s.messages ++ [m] }
      | none => { s with input := rest }
    | [] =>
      { s with messages := SortFunc cmpMsgData s.messages,
               phase := Phase.sending (SortFunc cmpMsgData s.messages) }
  | .sending (m :: rest) =>
    if reader then
      { s with phase := Phase.sending rest, out := s.out ++ [Value.str (reportLine m)] }
    else s
  | .sending [] => { s with phase := Phase.returned }
  | .returned => s

/-- The state after `n` statements. -/
def run (reader : Bool) : Nat → List Value → State
  | 0, input => init input
  | n + 1, input => step reader (run reader n input)

/-- The goroutine cannot return: it is receiving and has or will have a record to
send, or it is in the send loop with a record left. -/
def stuck (s : State) : Prop :=
  (s.phase = Phase.receiving ∧ s.messages ++ s.input.filterMap asMsgData ≠ []) ∨
    ∃ m rest, s.phase = Phase.sending (m :: rest)

end CombineStage

/-! ## `RunPipeline` -/

namespace RunPipeline

/-- A channel value: the nil channel (the zero value of `var in chan interface{}`) or
the `k`-th channel created by `make(chan interface{})`. -/
inductive Chan where
  | nil
  | made (k : Nat)
deriving DecidableEq, Repr

/-- The arguments of one call `c(in, out)` launched by `RunPipeline`. -/
structure Binding (α : Type) where
  c : α
  inp : Chan
  out : Chan
deriving DecidableEq, Repr

/-- The loop of `RunPipeline` (spammer.go:17-27) over the remaining stage functions:
`inp` is the variable `in` and `made` the number of channels created so far. Returns
the calls launched and the number of channels created in all. -/
def wireFrom : List α → Chan → Nat → List (Binding α) × Nat
  | [], _, made => ([], made)
  | c :: cmds, inp, made =>
    let rest := wireFrom cmds (Chan.made made) (made + 1)
    (⟨c, inp, Chan.made made⟩ :: rest.1, rest.2)

/-- The calls `RunPipeline(cmds...)` launches and the number of channels it creates:
`in` starts as the nil channel (spammer.go:11). -/
def wire (cmds : List α) : List (Binding α) × Nat :=
  wireFrom cmds Chan.nil 0

/-- Whether some launched stage function receives from the channel `ch`. -/
def hasReader (bs : List (Binding α)) (ch : Chan) : Bool :=
  bs.any (fun b => decide (b.inp = ch))

/-- Program counter of the goroutine launched for one stage (spammer.go:20-24). -/
inductive StagePC where
  /-- inside `c(in, out)` -/
  | running
  /-- `c(in, out)` has returned, before the deferred `close(out)` -/
  | returned
  /-- `out` is closed, before the deferred `wg.Done()` -/
  | closed
  /-- after `wg.Done()` -/
  | done
deriving DecidableEq, Repr

/-- State of `RunPipeline` after `wg.Add(len(cmds))`: `toLaunch` stage functions are
still to be launched, `stages` are the launched goroutines in launch order, `wg` is
the counter of the wait group, `closes` lists the stages whose `out` has been closed,
one entry per `close`, and `returned` tells that `wg.Wait()` has completed. -/
structure State where
  toLaunch : Nat
  stages : List StagePC
  wg : Nat
  closes : List Nat
  returned : Bool
deriving DecidableEq, Repr

/-- State of `RunPipeline` on `n` stage functions before the loop. -/
def init (n : Nat) : State :=
  { toLaunch := n, stages := [], wg := n, closes := [], returned := false }

/-- One statement of the goroutine that called `RunPipeline` (spammer.go:17-29):
launch the next stage function, then `wg.Wait()`, which completes when the counter is
zero. -/
def stepMain (s : State) : State :=
  if s.returned then s
  else
    match s.toLaunch with
    | n + 1 => { s with toLaunch := n, stages := s.stages ++ [StagePC.running] }
    | 0 => if s.wg = 0 then { s with returned := true } else s

/-- One statement of the goroutine of stage `i` (spammer.go:20-24): the stage function
returns (an event of the stage, which may never happen), then the deferred calls run in
reverse order of their `defer` statements: `close(out)`, then `wg.Done()`. -/
def stepStage (i : Nat) (pc : StagePC) (s : State) : State :=
  match pc with
  | .running => { s with stages := s.stages.set i StagePC.returned }
  | .returned => { s with stages := s.stages.set i StagePC.closed, closes := s.closes ++ [i] }
  | .closed => { s with stages := s.stages.set i StagePC.done, wg := s.wg - 1 }
  | .done => s

/-- One scheduler choice: `0` is the caller of `RunPipeline`, `i + 1` the goroutine of
stage `i`. -/
def step (who : Nat) (s : State) : State :=
  match who with
  | 0 => stepMain s
  | i + 1 =>
    match s.stages[i]? with
    | some pc => stepStage i pc s
    | none => s

/-- The state `RunPipeline` reaches on `n` stage functions under the schedule `sched`. -/
def run (n : Nat) (sched : List Nat) : State :=
  runSched step sched (init n)

/-- Whether the stage function of a goroutine has returned. -/
def stageReturned : StagePC → Bool
  | .running => false
  | _ => true

/-- Whether the goroutine has closed its `out`. -/
def hasClosed : StagePC → Bool
  | .closed | .done => true
  | _ => false

/-- Invariant of the runs of `RunPipeline` on `n` stage functions. -/
structure Inv (n : Nat) (s : State) : Prop where
  launched : s.toLaunch + s.stages.length = n
  counter : s.wg = s.toLaunch + s.stages.countP (fun pc => decide (pc ≠ StagePC.done))
  closedOnce : s.closes.Nodup
  closedBy : ∀ i, i ∈ s.closes ↔ ∃ pc, s.stages[i]? = some pc ∧ hasClosed pc = true
  ret : s.returned = true → s.toLaunch = 0 ∧ ∀ pc ∈ s.stages, pc = StagePC.done

/-- The capacity of the channels `RunPipeline` creates: `make(chan interface{})`
(spammer.go:18) has no size argument, so the channel has no buffer. -/
def chanCapacity : Nat := 0

/-- Two adjacent stages around the channel between them. `toSend` are the values the
upstream stage sends, the head being the operand of the send statement it stands at;
`buffer` holds the values sent and not yet received; `receiving` tells that the
downstream stage stands at a receive from the channel; `received` are the values it
has received. -/
structure Handoff where
  toSend : List Value
  buffer : List Value
  receiving : Bool
  received : List Value
deriving DecidableEq, Repr

/-- The stages before the first send: nothing buffered, the downstream stage busy. -/
def handoff (values : List Value) : Handoff :=
  { toSend := values, buffer := [], receiving := false, received := [] }

/-- The send statement `out <- v` of the upstream stage on a channel of capacity `cap`:
the value goes to the goroutine waiting in a receive, or into the buffer while it has
room; otherwise the send blocks and the state is unchanged. -/
def sendStep (cap : Nat) (h : Handoff) : Handoff :=
  match h.toSend with
  | [] => h
  | v :: rest =>
    if h.receiving = true ∧ h.buffer = [] then
      { h with toSend := rest, receiving := false, received := h.received ++ [v] }
    else if h.buffer.length < cap then { h with toSend := rest, buffer := h.buffer ++ [v] }
    else h

/-- The downstream stage arrives at its receive statement: it takes the oldest buffered
value, or waits for a sender. -/
def recvStep (h : Handoff) : Handoff :=
  match h.buffer with
  | v :: rest => { h with buffer := rest, receiving := false, received := h.received ++ [v] }
  | [] => { h with receiving := true }

/-- One scheduler choice on a handoff: `0` is the upstream stage, any other choice the
downstream stage. -/
def handoffStep (cap : Nat) (who : Nat) (h : Handoff) : Handoff :=
  match who with
  | 0 => sendStep cap h
  | _ + 1 => recvStep h

/-- The upstream stage stands at a send that cannot complete. -/
def sendBlocked (cap : Nat) (h : Handoff) : Prop :=
  h.toSend ≠ [] ∧ sendStep cap h = h

end RunPipeline

end Spammer

/-!
# Search server (`03_net1/99_hw/coverage/server.go`)

A shallow embedding of `OrderUsers`, `ApplyQueryToUsers` and `ProccesQueryParams`.
Values of type `int` are integers in the 64-bit two's complement range; an `int`
addition wraps around. A run-time panic of a slice expression is the result `none`.
The library's unstable sorting routine for slices of more than 12 elements is a
parameter `pdqsort` of the functions that sort.
-/

namespace SearchServer

/-- The value of an `int` expression whose mathematical value is `x`: 64-bit two's
complement, overflow wraps around. -/
def wrapInt (x : Int) : Int := (x + 2 ^ 63) % 2 ^ 64 - 2 ^ 63

/-- The largest `int`. -/
def MaxInt : Int := 2 ^ 63 - 1

/-- The smallest `int`. -/
def MinInt : Int := -(2 ^ 63)

/-- `LimitNotSet` (server.go:16). -/
def LimitNotSet : Int := -1

/-- `ID` (server.go:18). -/
def ID : String := "Id"

/-- `Name` (server.go:19). -/
def Name : String := "Name"

/-- `Age` (server.go:20). -/
def Age : String := "Age"

/-- `http.StatusBadRequest`. -/
def StatusBadRequest : Nat := 400

/-- The constants the server file uses and does not declare. -/
structure Consts where
  OrderByAsc : Int
  OrderByAsIs : Int
  OrderByDesc : Int
  ErrorBadOrderField : String
deriving DecidableEq, Repr

/-- `UserXMLData` (server.go:37-44). -/
structure UserXMLData where
  ID : Int
  FirstName : String
  LastName : String
  Age : Int
  About : String
  Gender : String
deriving DecidableEq, Repr

/-- Modelled from the spec: the declaration of `SearchRequest` is not part of the
server file; these are the fields the server reads and writes (server.go:206-212). -/
structure SearchRequest where
  Limit : Int
  Offset : Int
  Query : String
  OrderField : String
  OrderBy : Int
deriving DecidableEq, Repr

/-- The expression `user.FirstName + " " + user.LastName`. -/
def fullName (u : UserXMLData) : String := u.FirstName ++ " " ++ u.LastName

/-- Library function `cmp.Compare` on `int`: -1 if `a < b`, 0 if `a == b`, +1 if
`a > b`. -/
def cmpCompare (a b : Int) : Int := if a < b then -1 else if a = b then 0 else 1

/-- Library function `strings.Compare`: lexicographic comparison of the two texts,
character by character; -1, 0 or +1. -/
def stringsCompare (a b : String) : Int :=
  if a.data < b.data then -1 else if a = b then 0 else 1

/-- Library function `strings.Contains`: `substr` occurs within `s`. -/
def stringsContains (s substr : String) : Bool := decide (substr.data <:+: s.data)

/-- The comparator closure of `OrderUsers` (server.go:77-92). -/
def compareUsers (c : Consts) (orderField : String) (orderBy : Int) (a b : UserXMLData) :
    Int :=
  let result :=
    if orderField = ID then cmpCompare a.ID b.ID
    else if orderField = Age then cmpCompare a.Age b.Age
    else stringsCompare (fullName a) (fullName b)
  if orderBy = c.OrderByDesc then -result else result

/-- The requirement `slices.SortFunc` puts on its comparator: "less", that is
`cmp(a, b) < 0`, is a strict weak ordering: asymmetric and negatively transitive. -/
def StrictWeakOrdering (cmp : α → α → Int) : Prop :=
  (∀ a b, ¬ (cmp a b < 0 ∧ cmp b a < 0)) ∧
  (∀ a b c, cmp a c < 0 → cmp a b < 0 ∨ cmp b c < 0)

/-- What the library documents of a sorting routine: on a strict weak ordering the
result is a rearrangement of the slice in which no element is "less" than an earlier
one. Nothing is said of the order of elements that tie: "this sort is not guaranteed
to be stable". -/
def SortsBy (sort : (α → α → Int) → List α → List α) : Prop :=
  ∀ cmp l, StrictWeakOrdering cmp →
    (sort cmp l).Perm l ∧ (sort cmp l).Pairwise (Spammer.cmpLE cmp)

/-- Library function `slices.SortFunc`. A slice of at most 12 elements is sorted by the
library's insertion sort, which moves an element to the left while `cmp` of it and its
left neighbour is negative. A longer slice is sorted by pattern-defeating quicksort,
which is not stable: the routine is the parameter `pdqsort`, of which only the
documented contract `SortsBy` is used. -/
def slicesSortFunc (pdqsort : (α → α → Int) → List α → List α) (cmp : α → α → Int)
    (l : List α) : List α :=
  if l.length ≤ 12 then l.insertionSort (Spammer.cmpLE cmp) else pdqsort cmp l

/-- `OrderUsers` (server.go:72-93): the slice `*users` after the call. -/
def OrderUsers (c : Consts) (pdqsort : (UserXMLData → UserXMLData → Int) →
    List UserXMLData → List UserXMLData) (users : List UserXMLData) (orderField : String)
    (orderBy : Int) : List UserXMLData :=
  if orderBy = c.OrderByAsIs then users
  else slicesSortFunc pdqsort (compareUsers c orderField orderBy) users

/-- The slice expression `s[lo:hi]`; `none` is the panic "slice bounds out of range",
raised unless `0 <= lo <= hi <= cap(s)`. Both uses below have `hi <= len(s)`, so the
length stands for the capacity. -/
def slice (s : List α) (lo hi : Int) : Option (List α) :=
  if 0 ≤ lo ∧ lo ≤ hi ∧ hi ≤ s.length then some ((s.drop lo.toNat).take (hi - lo).toNat)
  else none

/-- The condition of the filter loop (server.go:100). -/
def matchesQuery (query : String) (user : UserXMLData) : Bool :=
  stringsContains (fullName user) query || stringsContains user.About query

/-- The slice `queryUsers` before it is ordered (server.go:96-106). -/
def queryUsers (request : SearchRequest) (users : List UserXMLData) : List UserXMLData :=
  if request.Query ≠ "" then users.filter (matchesQuery request.Query) else users

/-- The slice `queryUsers` after `OrderUsers` (server.go:112): the filtered and ordered
list. -/
def orderedUsers (c : Consts) (pdqsort : (UserXMLData → UserXMLData → Int) →
    List UserXMLData → List UserXMLData) (request : SearchRequest)
    (users : List UserXMLData) : List UserXMLData :=
  OrderUsers c pdqsort (queryUsers request users) request.OrderField request.OrderBy

/-- `request.Limit` after server.go:108-110. -/
def effectiveLimit (request : SearchRequest) (users : List UserXMLData) : Int :=
  if request.Limit = LimitNotSet then ((queryUsers request users).length : Int)
  else request.Limit

/-- `ApplyQueryToUsers` (server.go:95-123); `none` when a slice expression panics. -/
def ApplyQueryToUsers (c : Consts) (pdqsort : (UserXMLData → UserXMLData → Int) →
    List UserXMLData → List UserXMLData) (request : SearchRequest)
    (users : List UserXMLData) : Option (List UserXMLData) :=
  let ordered := orderedUsers c pdqsort request users
  let limit := effectiveLimit request users
  if request.Offset < ordered.length ∧
      wrapInt (request.Offset + limit) ≤ ordered.length then
    slice ordered request.Offset (wrapInt (request.Offset + limit))
  else if request.Offset < ordered.length then
    slice ordered request.Offset ordered.length
  else some []

/-- The value of a non-empty string of decimal digits. -/
def parseDigits : List Char → Option Nat
  | [] => none
  | cs => if cs.all Char.isDigit then some (cs.foldl (fun n d => 10 * n + (d.toNat - 48)) 0)
          else none

/-- Library function `strconv.Atoi`: an optional sign and decimal digits denoting a
value in the range of `int`; `none` is a non-nil error. -/
def Atoi (s : String) : Option Int :=
  match s.data with
  | '-' :: ds => (parseDigits ds).bind (fun n => if (n : Int) ≤ 2 ^ 63 then some (-(n : Int)) else none)
  | '+' :: ds => (parseDigits ds).bind (fun n => if (n : Int) < 2 ^ 63 then some (n : Int) else none)
  | ds => (parseDigits ds).bind (fun n => if (n : Int) < 2 ^ 63 then some (n : Int) else none)

/-- The query parameters `r.URL.Query().Get(...)` returns: the empty string for an
absent parameter. -/
structure QueryParams where
  order_field : String
  order_by : String
  limit : String
  offset : String
  query : String
deriving DecidableEq, Repr

/-- The errors `ProccesQueryParams` returns: `errQueryError`, or the error of the JSON
encoder writing to `w`. -/
inductive ParamError where
  | errQueryError
  | encodeError
deriving DecidableEq, Repr

/-- What a call of `ProccesQueryParams` does and returns: the status passed to
`w.WriteHeader` when that is called, the `Error` text of the `SearchErrorResponse`
handed to the encoder, and the returned request or error. -/
structure ParamsOutcome where
  status : Option Nat
  errorText : Option String
  result : Except ParamError SearchRequest
deriving Repr

/-- `errInvalidOrder.Error()` (server.go:30). -/
def errInvalidOrder : String := "некорректно задано поле order"

/-- `errInvalidLimit.Error()` (server.go:31). -/
def errInvalidLimit : String := "некорректно задано поле limit"

/-- `errInvalidOffset.Error()` (server.go:32). -/
def errInvalidOffset : String := "некорректно задано поле offset"

/-- The four identical error exits of `ProccesQueryParams`: write status 400, encode
the error response, return the encoder's error if it failed and `errQueryError`
otherwise. -/
def badRequest (encodeOk : Bool) (text : String) : ParamsOutcome :=
  { status := some StatusBadRequest, errorText := some text,
    result := if encodeOk then Except.error ParamError.errQueryError
              else Except.error ParamError.encodeError }

/-- `ProccesQueryParams` (server.go:141-215); `encodeOk` tells whether
`json.NewEncoder(w).Encode` succeeds on the writer `w`. -/
def ProccesQueryParams (c : Consts) (encodeOk : Bool) (q : QueryParams) : ParamsOutcome :=
  let orderField := if q.order_field = "" then Name else q.order_field
  if orderField ≠ Name ∧ orderField ≠ ID ∧ orderField ≠ Age then
    badRequest encodeOk c.ErrorBadOrderField
  else
    let order : Option Int := if q.order_by ≠ "" then Atoi q.order_by else some 0
    match order with
    | none => badRequest encodeOk errInvalidOrder
    | some order =>
      if q.order_by ≠ "" ∧ order ≠ c.OrderByAsc ∧ order ≠ c.OrderByAsIs ∧
          order ≠ c.OrderByDesc then
        badRequest encodeOk errInvalidOrder
      else
        let limit : Option Int := if q.limit ≠ "" then Atoi q.limit else some LimitNotSet
        match limit with
        | none => badRequest encodeOk errInvalidLimit
        | some limit =>
          let offset : Option Int := if q.offset ≠ "" then Atoi q.offset else some 0
          match offset with
          | none => badRequest encodeOk errInvalidOffset
          | some offset =>
            { status := none, errorText := none,
              result := Except.ok
                { Limit := limit, Offset := offset, Query := q.query,
                  OrderField := orderField, OrderBy := order } }

/-- The text `s` is a decimal notation of the integer `n`: an optional sign `+` or `-`
followed by one or more of the digits `0` to `9`, the most significant first. -/
def DecimalOf (s : String) (n : Int) : Prop :=
  ∃ (sign : List Char) (digits : List Nat),
    (sign = [] ∨ sign = ['+'] ∨ sign = ['-']) ∧ digits ≠ [] ∧ (∀ d ∈ digits, d < 10) ∧
    s.data = sign ++ digits.map (fun d => Char.ofNat (48 + d)) ∧
    n = (if sign = ['-'] then -1 else 1) * ((Nat.ofDigits 10 digits.reverse : Nat) : Int)

/-- The text `s` is a decimal notation of the value `n` of type `int`. -/
def IntOf (s : String) (n : Int) : Prop :=
  DecimalOf s n ∧ MinInt ≤ n ∧ n ≤ MaxInt

/-- The order `OrderUsers` is said to sort by: the value of the order field. -/
def fieldLE (orderField : String) (a b : UserXMLData) : Prop :=
  if orderField = ID then a.ID ≤ b.ID
  else if orderField = Age then a.Age ≤ b.Age
  else a.FirstName ++ " " ++ a.LastName ≤ b.FirstName ++ " " ++ b.LastName

/-- A routine that meets the contract `SortsBy`: the insertion sort. -/
def stableSort (cmp : α → α → Int) (l : List α) : List α :=
  l.insertionSort (Spammer.cmpLE cmp)

/-- Sample values of the constants. -/
def sampleConsts : Consts :=
  { OrderByAsc := -1, OrderByAsIs := 0, OrderByDesc := 1,
    ErrorBadOrderField := "OrderField invalid" }

/-- Three sample users. -/
def sampleUsers : List UserXMLData :=
  [⟨0, "Boyd", "Wolf", 22, "Nulla cillum", "male"⟩,
    ⟨1, "Hilda", "Mayer", 21, "Sit commodo", "female"⟩,
    ⟨2, "Brooks", "Aguilar", 25, "Velit ullamco", "male"⟩]

end SearchServer

/-!
# Note store (`10_ci_cd/99_hw/notestore/pkg/note/repo.go`)

A shallow embedding of the in-memory note repository. Every method holds the mutex
`mu` for its whole body, so a run of the repository is a sequence of calls, each an
atomic step on the state `(data, lastID)`. A `*Note` is the note it points to at the
time of the call; `time.Now()` is a clock reading given with the call.
-/

namespace NoteStore

/-- `Note` (note.go:5-10); the times are clock readings. -/
structure Note where
  ID : Int
  Text : String
  CreatedAt : Nat
  UpdatedAt : Nat
deriving DecidableEq, Repr

/-- `NoteMemoryRepository` (repo.go:18-22): the map `data` and the counter `lastID`, an
`int`. -/
structure Repo where
  data : Int → Option Note
  lastID : Int

/-- `NewMemoryRepo` (repo.go:24-29): an empty map, `lastID` the zero value. -/
def NewMemoryRepo : Repo :=
  { data := fun _ => none, lastID := 0 }

/-- `GetNote` (repo.go:31-38); `none` is the nil pointer. -/
def GetNote (repo : Repo) (id : Int) : Option Note :=
  repo.data id

/-- `CreateNote` (repo.go:40-59): the repository after the call and the note returned;
`created` and `updated` are the two readings of `time.Now()`. The increments are `int`
additions. -/
def CreateNote (repo : Repo) (text : String) (created updated : Nat) : Repo × Note :=
  let lastID := if repo.lastID = 0 then SearchServer.wrapInt (repo.lastID + 1) else repo.lastID
  let insertedNote : Note :=
    { ID := lastID, Text := text, CreatedAt := created, UpdatedAt := updated }
  ({ data := fun id => if id = lastID then some insertedNote else repo.data id,
     lastID := SearchServer.wrapInt (lastID + 1) }, insertedNote)

/-- `UpdateNote` (repo.go:61-74): `none` when no note has the id. -/
def UpdateNote (repo : Repo) (id : Int) (text : String) (now : Nat) : Repo × Option Note :=
  match repo.data id with
  | none => (repo, none)
  | some note =>
    let updatedNote : Note := { note with Text := text, UpdatedAt := now }
    ({ repo with data := fun i => if i = id then some updatedNote else repo.data i },
      some updatedNote)

/-- `DeleteNote` (repo.go:76-88): the flag tells that the returned error is nil. -/
def DeleteNote (repo : Repo) (id : Int) : Repo × Bool :=
  match repo.data id with
  | none => (repo, false)
  | some _ => ({ repo with data := fun i => if i = id then none else repo.data i }, true)

/-- A call of a method of the repository. -/
inductive Call where
  | get (id : Int)
  | create (text : String) (created updated : Nat)
  | update (id : Int) (text : String) (now : Nat)
  | delete (id : Int)
deriving DecidableEq, Repr

/-- The repository after a call. -/
def apply (repo : Repo) : Call → Repo
  | .get _ => repo
  | .create text created updated => (CreateNote repo text created updated).1
  | .update id text now => (UpdateNote repo id text now).1
  | .delete id => (DeleteNote repo id).1

/-- The repository `NewMemoryRepo()` returns after the calls of `calls`, in order. -/
def exec (calls : List Call) : Repo :=
  calls.foldl apply NewMemoryRepo

/-- Whether the call is a `CreateNote`. -/
def isCreate : Call → Bool
  | .create _ _ _ => true
  | _ => false

/-- The number of `CreateNote` calls among `calls`. -/
def creates (calls : List Call) : Nat :=
  calls.countP isCreate

end NoteStore

/-!
# Post repository (`05_web_app/99_hw/redditclone/pkg/post/repo.go`)

A shallow embedding of `Add` and `VotePost` of the in-memory post repository; the map
`data` is a function from post ids. `VotePost` releases the read lock before it takes
the write lock, so it is two steps, `lookup` and `update`; `VotePost` itself is the call
with nothing in between. Values of type `int` are in the 64-bit two's complement range
and the additions on `Score` wrap around.
-/

namespace RedditPost

/-- `VoteUp` (post.go:6). -/
def VoteUp : Int := 1

/-- `VoteDown` (post.go:7). -/
def VoteDown : Int := -1

/-- `VoteNone` (post.go:8). -/
def VoteNone : Int := 0

/-- `Author` (post.go:17-20). -/
structure Author where
  Username : String
  ID : String
deriving DecidableEq, Repr

set_option linter.dupNamespace false in
/-- `Vote` (post.go:22-25). -/
structure Vote where
  User : String
  Vote : Int
deriving DecidableEq, Repr

/-- `Comment` (post.go:27-32). -/
structure Comment where
  Created : String
  Author : Author
  Body : String
  ID : String
deriving DecidableEq, Repr

/-- `Post` (post.go:38-52); `PostType` is the field `Type`. -/
structure Post where
  Score : Int
  Views : Int
  PostType : String
  Title : String
  URL : String
  Author : Author
  Category : String
  Text : String
  Votes : List Vote
  Comments : List Comment
  Created : String
  UpvotePercentage : Int
  ID : String
deriving DecidableEq, Repr

/-- `DataPost` (post.go:54-60); `PostType` is the field `Type`. -/
structure DataPost where
  Category : String
  PostType : String
  Title : String
  URL : String
  Text : String
deriving DecidableEq, Repr

/-- The errors `VotePost` returns (post.go:13-14). -/
inductive VoteError where
  | ErrSourceNotFound
  | ErrAlreadyVoted
deriving DecidableEq, Repr

/-- `PostMemoryRepository` (repo.go:28-31): the map `data`. -/
structure Repo where
  data : String → Option Post

/-- `NewMemoryRepo` (repo.go:33-38). -/
def NewMemoryRepo : Repo :=
  { data := fun _ => none }

/-- `Add` (repo.go:79-114). `randID` is the hexadecimal text of the bytes `rand.Read`
delivered, `none` when it failed; `created` is the formatted clock reading. -/
def Add (repo : Repo) (postData : DataPost) (login userID : String) (randID : Option String)
    (created : String) : Repo × Option Post :=
  match randID with
  | none => (repo, none)
  | some id =>
    let post : Post :=
      { Score := 1, Views := 0, PostType := postData.PostType, Title := postData.Title,
        Author := { Username := login, ID := userID }, Category := postData.Category,
        Votes := [{ User := userID, Vote := 1 }], Comments := [], Created := created,
        UpvotePercentage := 100, ID := id, URL := postData.URL, Text := postData.Text }
    ({ data := fun i => if i = post.ID then some post else repo.data i }, some post)

/-- The search loop of `VotePost` (repo.go:214-225): index and value of the first vote
of `userID`, starting at index `i`; `none` stands for `existingIndex == -1`. -/
def findVote (userID : String) : List Vote → Nat → Option (Nat × Int)
  | [], _ => none
  | v :: rest, i => if v.User = userID then some (i, v.Vote) else findVote userID rest (i + 1)

/-- The percentage computed at repo.go:258-269. The counts are lengths of a slice of
24-byte elements held in memory, far below `2 ^ 63 / 100`, so `ups * 100` is exact. -/
def upvotePercentage (votes : List Vote) : Int :=
  if votes.length > 0 then
    ((votes.countP (fun v => decide (v.Vote = VoteUp)) * 100 / votes.length : Nat) : Int)
  else 0

/-- What a call of `VotePost` holds in its local variables when it asks for the write
lock (repo.go:227): the post it read from the map under the read lock, and
`existingIndex` (`none` for -1) and `existingVote` as found by the loop over the votes
of that post. -/
structure Found where
  post : Post
  existingIndex : Option Nat
  existingVote : Int
deriving DecidableEq, Repr

/-- The first part of `VotePost` (repo.go:207-225): the map is read under the read
lock, which is released before the loop over the votes; `none` when no post has the id
and the call returns `ErrSourceNotFound`. -/
def lookup (repo : Repo) (postID userID : String) : Option Found :=
  match repo.data postID with
  | none => none
  | some post =>
    match findVote userID post.Votes 0 with
    | none => some { post := post, existingIndex := none, existingVote := VoteNone }
    | some (i, v) => some { post := post, existingIndex := some i, existingVote := v }

/-- The second part of `VotePost` (repo.go:227-271), performed under the write lock on
the repository as it is then; it is another one than the first part read when another
call came in between. `none` is a run-time panic: the post is no longer in the map, or
`existingIndex` lies beyond its votes. -/
def update (repo : Repo) (postID userID : String) (voteDirection : Int) (found : Found) :
    Option (Repo × Except VoteError Post) :=
  let finish (p : Post) : Option (Repo × Except VoteError Post) :=
    let voted : Post := { p with UpvotePercentage := upvotePercentage p.Votes }
    some ({ data := fun i => if i = postID then some voted else repo.data i }, Except.ok voted)
  match found.existingIndex with
  | none =>
    if voteDirection = VoteNone then
      some (repo, Except.ok ((repo.data postID).getD found.post))
    else
      match repo.data postID with
      | none => none
      | some post =>
        finish { post with
          Votes := post.Votes ++ [{ User := userID, Vote := voteDirection }],
          Score := SearchServer.wrapInt (post.Score + voteDirection) }
  | some existingIndex =>
    if voteDirection = VoteNone then
      match repo.data postID with
      | none => none
      | some post =>
        if existingIndex < post.Votes.length then
          finish { post with
            Score := SearchServer.wrapInt (post.Score - found.existingVote),
            Votes := post.Votes.eraseIdx existingIndex }
        else none
    else if voteDirection = found.existingVote then
      some (repo, Except.error VoteError.ErrAlreadyVoted)
    else
      match repo.data postID with
      | none => none
      | some post =>
        if existingIndex < post.Votes.length then
          finish { post with
            Score := SearchServer.wrapInt
              (post.Score + SearchServer.wrapInt (voteDirection - found.existingVote)),
            Votes := post.Votes.modify (fun v => { v with Vote := voteDirection })
              existingIndex }
        else none

/-- `VotePost` (repo.go:206-272) when no other call of the repository comes between
its two parts: the repository after the call and the returned post or error. -/
def VotePost (repo : Repo) (postID userID : String) (voteDirection : Int) :
    Option (Repo × Except VoteError Post) :=
  match lookup repo postID userID with
  | none => some (repo, Except.error VoteError.ErrSourceNotFound)
  | some found => update repo postID userID voteDirection found

/-- A call `VotePost(postID, userID, voteDirection)`. -/
structure VoteCall where
  postID : String
  userID : String
  voteDirection : Int
deriving DecidableEq, Repr

/-- The repository after the `VotePost` calls of `calls`, one after the other: each
call returns before the next one begins. -/
def votes (repo : Repo) : List VoteCall → Option Repo
  | [] => some repo
  | c :: rest =>
    match VotePost repo c.postID c.userID c.voteDirection with
    | none => none
    | some out => votes out.1 rest

/-- Two overlapping calls `VotePost(postID, userID, voteDirection)` of one user: both
perform their first part before either performs its second part. -/
def votesOverlapping (repo : Repo) (postID userID : String) (voteDirection : Int) :
    Option Repo :=
  match lookup repo postID userID, lookup repo postID userID with
  | some found1, some found2 =>
    match update repo postID userID voteDirection found1 with
    | none => none
    | some out1 =>
      match update out1.1 postID userID voteDirection found2 with
      | none => none
      | some out2 => some out2.1
  | _, _ => none

/-- The sum of the `Vote` values of the votes. -/
def voteSum (vs : List Vote) : Int :=
  (vs.map (fun v => v.Vote)).sum

/-- The properties claimed of a post: the score is the sum of the votes reduced to the
range of `int`, at most one vote per user, no vote `VoteNone`, and the percentage of
`VoteUp` votes. -/
def Consistent (p : Post) : Prop :=
  p.Score = SearchServer.wrapInt (voteSum p.Votes) ∧
  (p.Votes.map (fun v => v.User)).Nodup ∧
  (∀ v ∈ p.Votes, v.Vote ≠ VoteNone) ∧
  p.UpvotePercentage =
    (if p.Votes = [] then 0
      else ((p.Votes.countP (fun v => decide (v.Vote = VoteUp)) * 100 / p.Votes.length : Nat) :
        Int))

end RedditPost

namespace Spammer

/-! ## Theorems: `CombineResults` -/

theorem cmpLE_cmpMsgData_iff (a b : MsgData) : cmpLE cmpMsgData a b ↔ lineOrder a b := by
  obtain ⟨ia, sa⟩ := a
  obtain ⟨ib, sb⟩ := b
  cases sa <;> cases sb <;> simp [cmpLE, cmpMsgData, lineOrder] <;>
    by_cases h : ib < ia <;> simp [h] <;> unfold MsgID at * <;> omega

instance : IsTotal MsgData (cmpLE cmpMsgData) where
  total a b := by
    simp only [cmpLE_cmpMsgData_iff, lineOrder]
    obtain ⟨ia, sa⟩ := a
    obtain ⟨ib, sb⟩ := b
    cases sa <;> cases sb <;> simp <;> unfold MsgID at * <;> omega

instance : IsTrans MsgData (cmpLE cmpMsgData) where
  trans a b c := by
    simp only [cmpLE_cmpMsgData_iff, lineOrder]
    obtain ⟨ia, sa⟩ := a
    obtain ⟨ib, sb⟩ := b
    obtain ⟨ic, sc⟩ := c
    cases sa <;> cases sb <;> cases sc <;> simp <;> unfold MsgID at * <;> omega

instance : IsAntisymm MsgData (cmpLE cmpMsgData) where
  antisymm a b := by
    simp only [cmpLE_cmpMsgData_iff, lineOrder]
    obtain ⟨ia, sa⟩ := a
    obtain ⟨ib, sb⟩ := b
    cases sa <;> cases sb <;> simp <;> unfold MsgID at * <;> omega

theorem sortedMessages_sorted (input : List Value) :
    (sortedMessages input).Sorted (cmpLE cmpMsgData) :=
  List.sorted_insertionSort _ _

theorem sortedMessages_perm (input : List Value) :
    (sortedMessages input).Perm (receivedMessages input) :=
  List.perm_insertionSort _ _

/-- Whatever routine sorts `messages`, a sorted arrangement of the received records is
the one `sortedMessages` computes: the insertion sort stands for any correct sort. -/
theorem sortedMessages_unique (input : List Value) (l : List MsgData)
    (hp : l.Perm (receivedMessages input)) (hs : l.Sorted (cmpLE cmpMsgData)) :
    l = sortedMessages input :=
  List.eq_of_perm_of_sorted (hp.trans (sortedMessages_perm input).symm) hs
    (sortedMessages_sorted input)

theorem receivedMessages_map_msgData (ds : List MsgData) :
    receivedMessages (ds.map Value.msgData) = ds := by
  induction ds with
  | nil => rfl
  | cons d ds ih =>
    simp only [receivedMessages] at ih
    simp [receivedMessages, asMsgData, ih]

theorem digitChar_toNat (d : Nat) (h : d < 10) : (digitChar d).toNat = 48 + d := by
  interval_cases d <;> rfl

theorem digitChar_isDigit (d : Nat) (h : d < 10) : (digitChar d).isDigit = true := by
  interval_cases d <;> rfl

theorem foldl_formatBits (fuel n : Nat) (acc : List Char) (h : n < fuel) :
    List.foldl (fun a c => 10 * a + (c.toNat - 48)) 0 (formatBits fuel n acc)
      = List.foldl (fun a c => 10 * a + (c.toNat - 48)) n acc := by
  induction fuel generalizing n acc with
  | zero => omega
  | succ fuel ih =>
    unfold formatBits
    split
    · rename_i h10
      simp [digitChar_toNat n h10]
    · rw [ih (n / 10) _ (by omega)]
      simp only [List.foldl_cons]
      rw [digitChar_toNat _ (Nat.mod_lt _ (by decide))]
      congr 1
      omega

theorem decimalValue_fmtDecimal (n : Nat) : decimalValue (fmtDecimal n) = n := by
  simp [decimalValue, fmtDecimal, foldl_formatBits (n + 1) n [] (by omega)]

theorem formatBits_isDigit (fuel n : Nat) (acc : List Char)
    (hacc : ∀ c ∈ acc, c.isDigit = true) :
    ∀ c ∈ formatBits fuel n acc, c.isDigit = true := by
  induction fuel generalizing n acc with
  | zero => simpa [formatBits] using hacc
  | succ fuel ih =>
    unfold formatBits
    split
    · rename_i h10
      intro c hc
      rcases List.mem_cons.1 hc with rfl | hc
      · exact digitChar_isDigit n h10
      · exact hacc c hc
    · apply ih
      intro c hc
      rcases List.mem_cons.1 hc with rfl | hc
      · exact digitChar_isDigit _ (Nat.mod_lt _ (by decide))
      · exact hacc c hc

theorem formatBits_head (fuel n : Nat) (acc : List Char) (h : n < fuel) (hn : 0 < n) :
    ∃ d rest, formatBits fuel n acc = digitChar d :: rest ∧ 0 < d ∧ d < 10 := by
  induction fuel generalizing n acc with
  | zero => omega
  | succ fuel ih =>
    unfold formatBits
    split
    · rename_i h10
      exact ⟨n, acc, rfl, hn, h10⟩
    · exact ih (n / 10) _ (by omega) (by omega)

theorem fmtDecimal_zero : fmtDecimal 0 = ['0'] := by decide

theorem fmtDecimal_ne_nil (n : Nat) : fmtDecimal n ≠ [] := by
  rcases Nat.eq_zero_or_pos n with rfl | hn
  · decide
  · obtain ⟨d, rest, hd, -, -⟩ := formatBits_head (n + 1) n [] (by omega) hn
    simp [fmtDecimal, hd]

theorem fmtDecimal_no_leading_zero (n : Nat) (hn : 0 < n) :
    (fmtDecimal n).head? ≠ some '0' := by
  obtain ⟨d, rest, hd, h0, h10⟩ := formatBits_head (n + 1) n [] (by omega) hn
  simp only [fmtDecimal, hd, List.head?_cons, ne_eq, Option.some.injEq]
  intro hc
  have := congrArg Char.toNat hc
  rw [digitChar_toNat d h10] at this
  have h48 : ('0' : Char).toNat = 48 := rfl
  omega

theorem fmtDecimal_injective : Function.Injective fmtDecimal := by
  intro a b h
  rw [← decimalValue_fmtDecimal a, ← decimalValue_fmtDecimal b, h]

theorem reportLine_injective : Function.Injective reportLine := by
  intro a b h
  obtain ⟨ia, sa⟩ := a
  obtain ⟨ib, sb⟩ := b
  have h := congrArg String.data h
  simp only [reportLine] at h
  cases sa <;> cases sb <;> simp [fmtBool] at h
  · rw [fmtDecimal_injective h]
  · rw [fmtDecimal_injective h]

theorem sortedMessages_pairwise (input : List Value) :
    (sortedMessages input).Pairwise lineOrder :=
  (sortedMessages_sorted input).imp (fun h => (cmpLE_cmpMsgData_iff _ _).1 h)

theorem combineResults_getElem? (input : List Value) (i : Nat) :
    (CombineResults input)[i]? =
      (sortedMessages input)[i]?.map (fun m => Value.str (reportLine m)) := by
  simp [CombineResults]

theorem combineResults_line_eq (input : List Value) (i : Nat) (a : MsgData)
    (h : (CombineResults input)[i]? = some (Value.str (reportLine a))) :
    (sortedMessages input)[i]? = some a := by
  rw [combineResults_getElem?] at h
  cases hs : (sortedMessages input)[i]? with
  | none => simp [hs] at h
  | some m =>
    simp only [hs, Option.map_some', Option.some.injEq, Value.str.injEq] at h
    rw [reportLine_injective h]

theorem combineResults_lines_order (input : List Value) (i j : Nat) (a b : MsgData)
    (hij : i < j)
    (ha : (CombineResults input)[i]? = some (Value.str (reportLine a)))
    (hb : (CombineResults input)[j]? = some (Value.str (reportLine b))) :
    lineOrder a b := by
  have ha := combineResults_line_eq input i a ha
  have hb := combineResults_line_eq input j b hb
  obtain ⟨hi, rfl⟩ := List.getElem?_eq_some.1 ha
  obtain ⟨hj, rfl⟩ := List.getElem?_eq_some.1 hb
  exact List.pairwise_iff_getElem.1 (sortedMessages_pairwise input) i j hi hj hij

theorem combineResults_congr (in1 in2 : List Value)
    (h : (receivedMessages in1).Perm (receivedMessages in2)) :
    CombineResults in1 = CombineResults in2 := by
  have : sortedMessages in1 = sortedMessages in2 :=
    sortedMessages_unique in2 _ ((sortedMessages_perm in1).trans h) (sortedMessages_sorted in1)
  simp [CombineResults, this]

theorem reportLine_text (m : MsgData) :
    reportLine m =
      (if m.HasSpam = true then "true" else "false") ++ " " ++ String.mk (fmtDecimal m.ID) := by
  obtain ⟨i, s⟩ := m
  cases s <;> rfl

/-- C1: the report `CombineResults` emits is ordered. Every emitted value is the line of
a received record; for every adjacent pair of emitted lines either the first is spam
and the second is not, or both have the same `HasSpam` and the first id is at most the
second; and no spam line follows a non-spam line anywhere in the report. -/
theorem combineResults_ordered (input : List Value) :
    (∀ v ∈ CombineResults input,
        ∃ m ∈ receivedMessages input, v = Value.str (reportLine m)) ∧
    (∀ (i : Nat) (a b : MsgData),
        (CombineResults input)[i]? = some (Value.str (reportLine a)) →
        (CombineResults input)[i + 1]? = some (Value.str (reportLine b)) →
        (a.HasSpam = true ∧ b.HasSpam = false) ∨ (a.HasSpam = b.HasSpam ∧ a.ID ≤ b.ID)) ∧
    (∀ (i j : Nat) (a b : MsgData), i < j →
        (CombineResults input)[i]? = some (Value.str (reportLine a)) →
        (CombineResults input)[j]? = some (Value.str (reportLine b)) →
        b.HasSpam = true → a.HasSpam = true) := by
  refine ⟨?_, ?_, ?_⟩
  · intro v hv
    obtain ⟨m, hm, rfl⟩ := List.mem_map.1 hv
    exact ⟨m, (sortedMessages_perm input).mem_iff.1 hm, rfl⟩
  · intro i a b ha hb
    exact combineResults_lines_order input i (i + 1) a b (by omega) ha hb
  · intro i j a b hij ha hb hspam
    have := combineResults_lines_order input i j a b hij ha hb
    rcases this with ⟨h1, _⟩ | ⟨h1, _⟩
    · exact h1
    · rw [h1, hspam]

/-- Witness of C1 on a report of three lines. -/
theorem combineResults_ordered_witness :
    (CombineResults [.msgData ⟨12, false⟩, .msgData ⟨11, true⟩, .msgData ⟨10, false⟩])[0]?
        = some (Value.str (reportLine ⟨11, true⟩)) ∧
    (CombineResults [.msgData ⟨12, false⟩, .msgData ⟨11, true⟩, .msgData ⟨10, false⟩])[1]?
        = some (Value.str (reportLine ⟨10, false⟩)) ∧
    (((⟨11, true⟩ : MsgData).HasSpam = true ∧ (⟨10, false⟩ : MsgData).HasSpam = false) ∨
      ((⟨11, true⟩ : MsgData).HasSpam = (⟨10, false⟩ : MsgData).HasSpam ∧
        (⟨11, true⟩ : MsgData).ID ≤ (⟨10, false⟩ : MsgData).ID)) :=
  ⟨by decide, by decide,
    (combineResults_ordered
      [.msgData ⟨12, false⟩, .msgData ⟨11, true⟩, .msgData ⟨10, false⟩]).2.1 0
      ⟨11, true⟩ ⟨10, false⟩ (by decide) (by decide)⟩

/-- C2: `CombineResults` emits exactly one report line per received record: the emitted
lines are the formatted images of a permutation of the received records, so the report
has as many lines as records were received; on a queue carrying only `MsgData` values
the received records are the whole input. -/
theorem combineResults_perm (input : List Value) (ds : List MsgData) :
    (∃ recs : List MsgData, recs.Perm (receivedMessages input) ∧
        CombineResults input = recs.map (fun m => Value.str (reportLine m))) ∧
    (CombineResults input).length = (receivedMessages input).length ∧
    receivedMessages (ds.map Value.msgData) = ds ∧
    (∃ recs : List MsgData, recs.Perm ds ∧
        CombineResults (ds.map Value.msgData) = recs.map (fun m => Value.str (reportLine m))) ∧
    (CombineResults (ds.map Value.msgData)).length = ds.length := by
  refine ⟨⟨sortedMessages input, sortedMessages_perm input, rfl⟩, ?_,
    receivedMessages_map_msgData ds, ⟨sortedMessages (ds.map Value.msgData), ?_, rfl⟩, ?_⟩
  · simp [CombineResults, (sortedMessages_perm input).length_eq]
  · simpa [receivedMessages_map_msgData] using sortedMessages_perm (ds.map Value.msgData)
  · simp [CombineResults, (sortedMessages_perm (ds.map Value.msgData)).length_eq,
      receivedMessages_map_msgData]

/-- C3: the report line emitted for a record `m` is the text `true` or `false`
(according to `m.HasSpam`), one space, and the decimal representation of `m.ID`: a
non-empty string of decimal digits denoting `m.ID`, without a leading zero unless
`m.ID = 0`. -/
theorem combineResults_line_format (input : List Value) :
    CombineResults input = (sortedMessages input).map (fun m => Value.str
      ((if m.HasSpam = true then "true" else "false") ++ " " ++ String.mk (fmtDecimal m.ID))) ∧
    ∀ n : Nat, (∀ c ∈ fmtDecimal n, c.isDigit = true) ∧ decimalValue (fmtDecimal n) = n ∧
      fmtDecimal n ≠ [] ∧ (fmtDecimal n = ['0'] ∨ (fmtDecimal n).head? ≠ some '0') := by
  refine ⟨?_, fun n => ⟨?_, decimalValue_fmtDecimal n, fmtDecimal_ne_nil n, ?_⟩⟩
  · simp only [CombineResults]
    exact List.map_congr_left (fun m _ => by rw [reportLine_text])
  · exact formatBits_isDigit _ _ _ (by simp)
  · rcases Nat.eq_zero_or_pos n with rfl | hn
    · exact Or.inl fmtDecimal_zero
    · exact Or.inr (fmtDecimal_no_leading_zero n hn)

/-- C4: the report does not depend on arrival order: two input sequences that are
permutations of each other yield identical sequences of report lines. -/
theorem combineResults_deterministic (in1 in2 : List Value) (h : in1.Perm in2) :
    CombineResults in1 = CombineResults in2 :=
  combineResults_congr in1 in2 (h.filterMap asMsgData)

/-- Witness of C4: the same three records in two arrival orders. -/
theorem combineResults_deterministic_witness :
    List.Perm [Value.msgData ⟨12, false⟩, .msgData ⟨11, true⟩, .msgData ⟨10, false⟩]
        [Value.msgData ⟨10, false⟩, .msgData ⟨12, false⟩, .msgData ⟨11, true⟩] ∧
    CombineResults [.msgData ⟨12, false⟩, .msgData ⟨11, true⟩, .msgData ⟨10, false⟩]
      = CombineResults [.msgData ⟨10, false⟩, .msgData ⟨12, false⟩, .msgData ⟨11, true⟩] :=
  ⟨by decide, combineResults_deterministic _ _ (by decide)⟩

/-! ## Theorems: schedules -/

theorem runSched_append (step : Nat → σ → σ) (a b : List Nat) (s : σ) :
    runSched step (a ++ b) s = runSched step b (runSched step a s) := by
  simp [runSched]

theorem runSched_invariant (step : Nat → σ → σ) (P : σ → Prop)
    (hstep : ∀ who s, P s → P (step who s)) (sched : List Nat) (s : σ) (h : P s) :
    P (runSched step sched s) := by
  induction sched generalizing s with
  | nil => exact h
  | cons who sched ih => exact ih _ (hstep who s h)

/-- When every unfinished state satisfying the invariant has a choice that lowers the
measure, every such state has a schedule that finishes the stage. -/
theorem exists_sched_of_measure (step : Nat → σ → σ) (P fin : σ → Prop) (μ : σ → Nat)
    (hstep : ∀ who s, P s → P (step who s))
    (hprog : ∀ s, P s → ¬ fin s → ∃ who, μ (step who s) < μ s) :
    ∀ (n : Nat) (s : σ), μ s ≤ n → P s → ∃ sched, fin (runSched step sched s) := by
  intro n
  induction n with
  | zero =>
    intro s hn hP
    by_cases hf : fin s
    · exact ⟨[], hf⟩
    · obtain ⟨who, hlt⟩ := hprog s hP hf
      omega
  | succ n ih =>
    intro s hn hP
    by_cases hf : fin s
    · exact ⟨[], hf⟩
    · obtain ⟨who, hlt⟩ := hprog s hP hf
      obtain ⟨sched, hs⟩ := ih (step who s) (by omega) (hstep who s hP)
      exact ⟨who :: sched, hs⟩

theorem getElem?_split {l : List α} {i : Nat} {t : α} (h : l[i]? = some t) :
    ∃ pre post, l = pre ++ t :: post ∧ pre.length = i ∧
      ∀ t', l.set i t' = pre ++ t' :: post := by
  induction l generalizing i with
  | nil => simp at h
  | cons a l ih =>
    cases i with
    | zero =>
      simp only [List.getElem?_cons_zero, Option.some.injEq] at h
      subst h
      exact ⟨[], l, rfl, rfl, fun _ => rfl⟩
    | succ i =>
      simp only [List.getElem?_cons_succ] at h
      obtain ⟨pre, post, h1, h2, h3⟩ := ih h
      refine ⟨a :: pre, post, by simp [h1], by simp [h2], fun t' => ?_⟩
      simp [h3 t']

theorem sum_coe_eq_coe_flatten (l : List β) (g : β → List α) :
    (l.map (fun x => (↑(g x) : Multiset α))).sum = ↑((l.map g).flatten) := by
  induction l with
  | nil => rfl
  | cons a l ih => simp [ih]

theorem filterMap_flatten_eq (l : List β) (f : β → Option (List α)) :
    (l.filterMap f).flatten = (l.map (fun x => (f x).getD [])).flatten := by
  induction l with
  | nil => rfl
  | cons a l ih =>
    cases h : f a <;> simp [List.filterMap_cons, h, ih]

theorem div_of_full_batches (q B r : Nat) (hB : 1 ≤ B) (hr : r < B) :
    (q * B + r) / B = q ∧ (q * B + r) % B = r ∧
    (q * B + r + B - 1) / B = q + (if r = 0 then 0 else 1) := by
  have h1 : (q + 1) * B = q * B + B := Nat.succ_mul q B
  have h2 : (q + 1 + 1) * B = q * B + B + B := by rw [Nat.succ_mul, h1]
  refine ⟨Nat.div_eq_of_lt_le (by omega) (by omega), ?_, ?_⟩
  · rw [Nat.add_comm, Nat.add_mul_mod_self_right]
    exact Nat.mod_eq_of_lt hr
  · by_cases hr0 : r = 0
    · simp only [hr0, if_true, Nat.add_zero]
      exact Nat.div_eq_of_lt_le (by omega) (by omega)
    · simp only [hr0, if_false]
      exact Nat.div_eq_of_lt_le (by omega) (by omega)

/-! ## Theorems: `SelectUsers` -/

namespace SelectUsers

theorem selectUsers_inv_init (GetUser : Nat → String → User) (input : List Value) :
    Inv GetUser input (init input) := by
  constructor <;> simp [init, List.enum]

theorem selectUsers_inv_stepMain (GetUser : Nat → String → User) (input0 : List Value)
    (s : State) (h : Inv GetUser input0 s) : Inv GetUser input0 (stepMain s) := by
  unfold stepMain
  split
  · exact h
  · rename_i hret
    split
    · rename_i v rest hin
      split
      · rename_i email hv
        have hid := h.idents
        simp only [hin, List.filterMap_cons, hv] at hid
        constructor
        · simpa [List.enumFrom_cons] using hid
        · intro t ht u hu
          rcases List.mem_append.1 ht with ht | ht
          · exact h.user t ht u hu
          · simp only [List.mem_singleton] at ht
            subst ht
            simp [pcUser] at hu
        · simpa [List.countP_append, holds] using h.mutex
        · intro t ht u hu
          rcases List.mem_append.1 ht with ht | ht
          · exact h.fresh t ht u hu
          · simp only [List.mem_singleton] at ht
            subst ht
            simp at hu
        · intro t ht hp
          rcases List.mem_append.1 ht with ht | ht
          · exact h.known t ht hp
          · simp only [List.mem_singleton] at ht
            subst ht
            simp [past] at hp
        · simpa [List.filterMap_append, claimed] using h.aliasPerm
        · exact h.nodup
        · intro v hv
          obtain ⟨u, hu, t, ht, hut⟩ := h.outUsers v hv
          exact ⟨u, hu, t, List.mem_append_left _ ht, hut⟩
        · simpa [List.filter_append, called] using h.logged
        · intro hr
          simp [hret] at hr
      · rename_i hv
        have hid := h.idents
        simp only [hin, List.filterMap_cons, hv] at hid
        exact ⟨hid, h.user, h.mutex, h.fresh, h.known, h.aliasPerm, h.nodup, h.outUsers,
          h.logged, fun hr => by simp [hret] at hr⟩
    · rename_i hin
      split
      · rename_i hall
        refine ⟨h.idents, h.user, h.mutex, h.fresh, h.known, h.aliasPerm, h.nodup, h.outUsers,
          h.logged, fun _ => ⟨hin, ?_⟩⟩
        simpa using hall
      · exact h

theorem selectUsers_inv_stepTask (GetUser : Nat → String → User) (input0 : List Value)
    (s : State) (i : Nat) (t : Task) (h : Inv GetUser input0 s) (ht : s.tasks[i]? = some t) :
    Inv GetUser input0 (stepTask GetUser i t s) := by
  obtain ⟨pre, post, hsplit, hlen, hset⟩ := getElem?_split ht
  obtain ⟨k, email, pc⟩ := t
  obtain ⟨hid, hus, hmu, hfr, hkn, hal, hnd, hou, hlg, hrt⟩ := h
  obtain ⟨input, tasks, mu, checkAlias, out, calls, returned⟩ := s
  simp only at hsplit hset hid hus hmu hfr hkn hal hnd hou hlg hrt
  subst hsplit
  have hret : pc ≠ .done → returned = false := by
    intro hpc
    cases returned
    · rfl
    · exact absurd ((hrt rfl).2 ⟨k, email, pc⟩ (by simp)) hpc
  have hmem : ∀ (pc' : PC) (x : Task), x ∈ pre ++ ⟨k, email, pc'⟩ :: post →
      x = ⟨k, email, pc'⟩ ∨ x ∈ pre ++ ⟨k, email, pc⟩ :: post := by
    intro pc' x hx
    simp only [List.mem_append, List.mem_cons] at hx ⊢
    tauto
  have hou' : ∀ (pc' : PC) (extra : List Value),
      (∀ v ∈ extra, v = Value.user (GetUser k email)) → ∀ v ∈ out ++ extra,
      ∃ u, v = Value.user u ∧ ∃ x ∈ pre ++ ⟨k, email, pc'⟩ :: post, u = GetUser x.k x.email := by
    intro pc' extra hextra v hv
    rcases List.mem_append.1 hv with hv | hv
    · obtain ⟨u, hu, x, hx, hux⟩ := hou v hv
      refine ⟨u, hu, ?_⟩
      simp only [List.mem_append, List.mem_cons] at hx ⊢
      rcases hx with hx | rfl | hx
      · exact ⟨x, Or.inl hx, hux⟩
      · exact ⟨_, Or.inr (Or.inl rfl), hux⟩
      · exact ⟨x, Or.inr (Or.inr hx), hux⟩
    · exact ⟨_, hextra v hv, ⟨k, email, pc'⟩, by simp, rfl⟩
  have hou0 : ∀ (pc' : PC), ∀ v ∈ out,
      ∃ u, v = Value.user u ∧ ∃ x ∈ pre ++ ⟨k, email, pc'⟩ :: post, u = GetUser x.k x.email := by
    intro pc' v hv
    exact hou' pc' [] (by simp) v (by simpa using hv)
  have hid' : ∀ (pc' : PC), List.map (fun t => (t.k, t.email)) (pre ++ ⟨k, email, pc'⟩ :: post) ++
      List.enumFrom (pre ++ (⟨k, email, pc'⟩ : Task) :: post).length (List.filterMap asString input) =
      (List.filterMap asString input0).enum := by
    intro pc'
    simpa using hid
  have hholder : holds pc = true → (∀ x ∈ pre, holds x.pc = false) ∧ (∀ x ∈ post, holds x.pc = false)
      ∧ mu = true := by
    intro hp
    simp only [List.countP_append, List.countP_cons, hp, if_true] at hmu
    cases mu
    · simp at hmu
    · simp only [if_true] at hmu
      have h1 : List.countP (fun t => holds t.pc) pre = 0 := by omega
      have h2 : List.countP (fun t => holds t.pc) post = 0 := by omega
      rw [List.countP_eq_zero] at h1 h2
      exact ⟨fun x hx => by simpa using h1 x hx, fun x hx => by simpa using h2 x hx, rfl⟩
  have hme := hus ⟨k, email, pc⟩ (by simp)
  have hc : ∀ (pc' : PC), List.countP (fun t => holds t.pc) (pre ++ (⟨k, email, pc'⟩ : Task) :: post)
      = List.countP (fun t => holds t.pc) pre + List.countP (fun t => holds t.pc) post
        + (if holds pc' = true then 1 else 0) := by
    intro pc'
    simp only [List.countP_append, List.countP_cons]
    omega
  have hmu0 := hmu
  rw [hc] at hmu
  cases pc with
  | call =>
    have hret := hret (by simp)
    subst hret
    simp only [stepTask, setPC, hset]
    refine ⟨hid' _, ?_, ?_, ?_, ?_, ?_, hnd, hou0 _, ?_, by simp⟩
    · intro x hx u hu
      rcases hmem _ x hx with rfl | hx
      · simp only [pcUser, Option.some.injEq] at hu
        exact hu.symm
      · exact hus x hx u hu
    · rw [hc]
      exact hmu
    · intro x hx u hu
      rcases hmem _ x hx with rfl | hx
      · simp at hu
      · exact hfr x hx u hu
    · intro x hx hp
      rcases hmem _ x hx with rfl | hx
      · simp [past] at hp
      · exact hkn x hx hp
    · simpa [List.filterMap_append, List.filterMap_cons, claimed] using hal
    · simp only [List.filter_append, List.filter_cons, called, List.map_append] at hlg ⊢
      refine (hlg.append_right [(k, email)]).trans ?_
      simp only [Bool.false_eq_true, if_false, if_true, List.map_cons, List.append_assoc]
      exact List.Perm.append_left _ (List.perm_append_singleton _ _)
  | lock u =>
    have hret := hret (by simp)
    subst hret
    simp only [stepTask]
    cases mu with
    | true =>
      simp only [if_true]
      exact ⟨hid, hus, hmu0, hfr, hkn, hal, hnd, hou, hlg, hrt⟩
    | false =>
      simp only [setPC, hset, Bool.false_eq_true, if_false]
      refine ⟨hid' _, ?_, ?_, ?_, ?_, ?_, hnd, hou0 _, ?_, by simp⟩
      · intro x hx u' hu
        rcases hmem _ x hx with rfl | hx
        · exact hme u' (by simpa [pcUser] using hu)
        · exact hus x hx u' hu
      · rw [hc]
        have h1 : holds (PC.lock u) = false := rfl
        have h2 : holds (PC.read u) = true := rfl
        simp only [h1, h2] at hmu ⊢
        simpa using hmu
      · intro x hx u' hu
        rcases hmem _ x hx with rfl | hx
        · simp at hu
        · exact hfr x hx u' hu
      · intro x hx hp
        rcases hmem _ x hx with rfl | hx
        · simp [past] at hp
        · exact hkn x hx hp
      · simpa [List.filterMap_append, List.filterMap_cons, claimed] using hal
      · simpa [List.filter_append, List.filter_cons, called] using hlg
  | read u =>
    have hret := hret (by simp)
    subst hret
    simp only [stepTask, setPC, hset]
    have hu0 : u = GetUser k email := hme u rfl
    refine ⟨hid' _, ?_, ?_, ?_, ?_, ?_, hnd, hou0 _, ?_, by simp⟩
    · intro x hx u' hu
      rcases hmem _ x hx with rfl | hx
      · exact hme u' (by simpa [pcUser] using hu)
      · exact hus x hx u' hu
    · rw [hc]
      exact hmu
    · intro x hx u' hu
      rcases hmem _ x hx with rfl | hx
      · simp only [PC.write.injEq, decide_eq_false_iff_not] at hu
        rw [← hu.1]
        exact hu.2
      · exact hfr x hx u' hu
    · intro x hx hp
      rcases hmem _ x hx with rfl | hx
      · by_cases hin : u.ID ∈ checkAlias
        · rw [← hu0]
          exact hin
        · simp [past, hin] at hp
      · exact hkn x hx hp
    · simpa [List.filterMap_append, List.filterMap_cons, claimed] using hal
    · simpa [List.filter_append, List.filter_cons, called] using hlg
  | write u exist =>
    have hret := hret (by simp)
    subst hret
    have hu0 : u = GetUser k email := hme u rfl
    obtain ⟨hpre, hpost, hmut⟩ := hholder rfl
    subst hmut
    cases exist with
    | true =>
      simp only [stepTask, setPC, hset, if_true]
      refine ⟨hid' _, ?_, ?_, ?_, ?_, ?_, hnd, hou0 _, ?_, by simp⟩
      · intro x hx u' hu
        rcases hmem _ x hx with rfl | hx
        · exact hme u' (by simpa [pcUser] using hu)
        · exact hus x hx u' hu
      · rw [hc]
        exact hmu
      · intro x hx u' hu
        rcases hmem _ x hx with rfl | hx
        · simp at hu
        · exact hfr x hx u' hu
      · intro x hx hp
        rcases hmem _ x hx with rfl | hx
        · exact hkn ⟨k, email, .write u true⟩ (by simp) rfl
        · exact hkn x hx hp
      · simpa [List.filterMap_append, List.filterMap_cons, claimed] using hal
      · simpa [List.filter_append, List.filter_cons, called] using hlg
    | false =>
      simp only [stepTask, setPC, hset, Bool.false_eq_true, if_false]
      have hnew : u.ID ∉ checkAlias := hfr ⟨k, email, .write u false⟩ (by simp) u rfl
      refine ⟨hid' _, ?_, ?_, ?_, ?_, ?_, List.nodup_cons.2 ⟨hnew, hnd⟩, hou0 _, ?_, by simp⟩
      · intro x hx u' hu
        rcases hmem _ x hx with rfl | hx
        · exact hme u' (by simpa [pcUser] using hu)
        · exact hus x hx u' hu
      · rw [hc]
        exact hmu
      · intro x hx u' hu
        exfalso
        simp only [List.mem_append, List.mem_cons] at hx
        rcases hx with hx | rfl | hx
        · have := hpre x hx
          rw [hu] at this
          simp [holds] at this
        · simp at hu
        · have := hpost x hx
          rw [hu] at this
          simp [holds] at this
      · intro x hx hp
        rcases hmem _ x hx with rfl | hx
        · rw [← hu0]
          exact List.mem_cons_self _ _
        · exact List.mem_cons_of_mem _ (hkn x hx hp)
      · simp only [List.filterMap_append, List.filterMap_cons, claimed, List.map_append,
          List.map_cons] at hal ⊢
        exact ((List.Perm.cons u.ID hal).trans
          (by rw [← List.append_assoc, ← List.append_assoc]; exact List.perm_middle.symm))
      · simpa [List.filter_append, List.filter_cons, called] using hlg
  | unlock u canSend =>
    have hret := hret (by simp)
    subst hret
    obtain ⟨hpre, hpost, hmut⟩ := hholder rfl
    subst hmut
    simp only [stepTask, setPC, hset]
    refine ⟨hid' _, ?_, ?_, ?_, ?_, ?_, hnd, hou0 _, ?_, by simp⟩
    · intro x hx u' hu
      rcases hmem _ x hx with rfl | hx
      · exact hme u' (by simpa [pcUser] using hu)
      · exact hus x hx u' hu
    · rw [hc]
      have h1 : holds (PC.unlock u canSend) = true := rfl
      have h2 : holds (PC.send u canSend) = false := rfl
      simp only [h1, h2] at hmu ⊢
      simpa using hmu
    · intro x hx u' hu
      rcases hmem _ x hx with rfl | hx
      · simp at hu
      · exact hfr x hx u' hu
    · intro x hx hp
      rcases hmem _ x hx with rfl | hx
      · exact hkn ⟨k, email, .unlock u canSend⟩ (by simp) rfl
      · exact hkn x hx hp
    · cases canSend <;>
        simpa [List.filterMap_append, List.filterMap_cons, claimed] using hal
    · simpa [List.filter_append, List.filter_cons, called] using hlg
  | send u canSend =>
    have hret := hret (by simp)
    subst hret
    have hu0 : u = GetUser k email := hme u rfl
    have hrest : (∀ x ∈ pre ++ (⟨k, email, .done⟩ : Task) :: post, ∀ u', pcUser x.pc = some u' →
        u' = GetUser x.k x.email) ∧
        (∀ x ∈ pre ++ (⟨k, email, .done⟩ : Task) :: post, ∀ u', x.pc = .write u' false →
          u'.ID ∉ checkAlias) ∧
        (∀ x ∈ pre ++ (⟨k, email, .done⟩ : Task) :: post, past x.pc = true →
          (GetUser x.k x.email).ID ∈ checkAlias) := by
      refine ⟨?_, ?_, ?_⟩
      · intro x hx u' hu
        rcases hmem _ x hx with rfl | hx
        · simp [pcUser] at hu
        · exact hus x hx u' hu
      · intro x hx u' hu
        rcases hmem _ x hx with rfl | hx
        · simp at hu
        · exact hfr x hx u' hu
      · intro x hx hp
        rcases hmem _ x hx with rfl | hx
        · exact hkn ⟨k, email, .send u canSend⟩ (by simp) rfl
        · exact hkn x hx hp
    have hmu' : List.countP (fun t => holds t.pc) (pre ++ (⟨k, email, .done⟩ : Task) :: post)
        = if mu = true then 1 else 0 := by
      rw [hc]
      exact hmu
    have hlg' : calls.Perm (List.map (fun t => (t.k, t.email))
        (List.filter (fun t => called t.pc) (pre ++ (⟨k, email, .done⟩ : Task) :: post))) := by
      simpa [List.filter_append, List.filter_cons, called] using hlg
    cases canSend with
    | true =>
      simp only [stepTask, setPC, hset, if_true]
      refine ⟨hid' _, hrest.1, hmu', hrest.2.1, hrest.2.2, ?_, hnd, ?_, hlg', by simp⟩
      · simp only [List.filterMap_append, List.filterMap_cons, claimed, List.map_append,
          List.map_cons, asUser, List.filterMap_nil, List.map_nil, List.append_assoc,
          List.singleton_append] at hal ⊢
        refine hal.trans (List.Perm.append_left _ ?_)
        exact List.perm_middle
      · exact hou' _ [Value.user u] (by simp [hu0])
    | false =>
      simp only [stepTask, setPC, hset, Bool.false_eq_true, if_false]
      refine ⟨hid' _, hrest.1, hmu', hrest.2.1, hrest.2.2, ?_, hnd, hou0 _, hlg', by simp⟩
      simpa [List.filterMap_append, List.filterMap_cons, claimed] using hal
  | done =>
    simp only [stepTask]
    exact ⟨hid, hus, hmu0, hfr, hkn, hal, hnd, hou, hlg, hrt⟩

theorem selectUsers_inv_step (GetUser : Nat → String → User) (input0 : List Value)
    (who : Nat) (s : State) (h : Inv GetUser input0 s) : Inv GetUser input0 (step GetUser who s) := by
  cases who with
  | zero => exact selectUsers_inv_stepMain GetUser input0 s h
  | succ i =>
    simp only [step]
    cases ht : s.tasks[i]? with
    | none => exact h
    | some t => exact selectUsers_inv_stepTask GetUser input0 s i t h ht

theorem selectUsers_inv_run (GetUser : Nat → String → User) (sched : List Nat)
    (input : List Value) : Inv GetUser input (run GetUser sched input) :=
  runSched_invariant (step GetUser) (Inv GetUser input)
    (fun who s h => selectUsers_inv_step GetUser input who s h) sched _
    (selectUsers_inv_init GetUser input)

theorem selectUsers_stepTask_measure (GetUser : Nat → String → User) (s : State) (i : Nat)
    (t : Task) (ht : s.tasks[i]? = some t) (hpc : t.pc ≠ .done)
    (hlock : ∀ u, t.pc = .lock u → s.mu = false) :
    measure (stepTask GetUser i t s) < measure s := by
  obtain ⟨pre, post, hsplit, -, hset⟩ := getElem?_split ht
  obtain ⟨k, email, pc⟩ := t
  obtain ⟨input, tasks, mu, checkAlias, out, calls, returned⟩ := s
  simp only at hsplit hset hlock hpc
  subst hsplit
  cases pc with
  | done => exact absurd rfl hpc
  | lock u =>
    have := hlock u rfl
    subst this
    simp [stepTask, setPC, hset, measure, remaining]
  | write u exist =>
    cases exist <;> simp [stepTask, setPC, hset, measure, remaining]
  | send u canSend =>
    cases canSend <;> simp [stepTask, setPC, hset, measure, remaining]
  | _ => simp [stepTask, setPC, hset, measure, remaining]

theorem selectUsers_progress (GetUser : Nat → String → User) (input0 : List Value)
    (s : State) (h : Inv GetUser input0 s) (hret : ¬ s.returned = true) :
    ∃ who, measure (step GetUser who s) < measure s := by
  have hret : s.returned = false := by simpa using hret
  cases hin : s.input with
  | cons v rest =>
    refine ⟨0, ?_⟩
    simp only [step, stepMain, hret, hin, Bool.false_eq_true, if_false]
    have hl : s.input.length = rest.length + 1 := by simp [hin]
    cases asString v <;> simp only [measure, hret, hl, List.map_append, List.sum_append,
      List.map_cons, List.map_nil, List.sum_cons, List.sum_nil, remaining] <;> omega
  | nil =>
    by_cases hall : ∀ t ∈ s.tasks, t.pc = .done
    · refine ⟨0, ?_⟩
      have : s.tasks.all (fun t => decide (t.pc = .done)) = true := by simpa using hall
      simp [step, stepMain, hret, hin, this, measure]
    · simp only [not_forall] at hall
      obtain ⟨t, ht, hpc⟩ := hall
      cases hmu : s.mu with
      | false =>
        obtain ⟨i, hi⟩ := List.mem_iff_getElem?.1 ht
        refine ⟨i + 1, ?_⟩
        simp only [step, hi]
        exact selectUsers_stepTask_measure GetUser s i t hi hpc (fun _ _ => hmu)
      | true =>
        have hc := h.mutex
        simp only [hmu, if_true] at hc
        have hpos : 0 < s.tasks.countP (fun t => holds t.pc) := by omega
        obtain ⟨x, hx, hxh⟩ := List.countP_pos_iff.1 hpos
        obtain ⟨i, hi⟩ := List.mem_iff_getElem?.1 hx
        refine ⟨i + 1, ?_⟩
        simp only [step, hi]
        refine selectUsers_stepTask_measure GetUser s i x hi ?_ ?_
        · intro hd
          rw [hd] at hxh
          simp [holds] at hxh
        · intro u hu
          rw [hu] at hxh
          simp [holds] at hxh

/-- Every partial run of `SelectUsers` can be continued to one in which the stage returns. -/
theorem selectUsers_can_return (GetUser : Nat → String → User) (input : List Value)
    (sched : List Nat) :
    ∃ more, (run GetUser (sched ++ more) input).returned = true := by
  obtain ⟨more, hm⟩ := exists_sched_of_measure (step GetUser) (Inv GetUser input)
    (fun s => s.returned = true) measure
    (fun who s h => selectUsers_inv_step GetUser input who s h)
    (fun s h hf => selectUsers_progress GetUser input s h hf)
    _ (run GetUser sched input) le_rfl (selectUsers_inv_run GetUser sched input)
  exact ⟨more, by simpa [run, runSched_append] using hm⟩

theorem map_user_filterMap_asUser (out : List Value) (h : ∀ v ∈ out, ∃ u, v = Value.user u) :
    out = (out.filterMap asUser).map Value.user := by
  induction out with
  | nil => rfl
  | cons v out ih =>
    obtain ⟨u, rfl⟩ := h v (by simp)
    simp only [List.filterMap_cons, asUser, List.map_cons]
    rw [← ih (fun v hv => h v (List.mem_cons_of_mem _ hv))]

theorem selectUsers_out_nodup (GetUser : Nat → String → User) (input0 : List Value)
    (s : State) (h : Inv GetUser input0 s) :
    ((s.out.filterMap asUser).map User.ID).Nodup := by
  have := h.aliasPerm.nodup_iff.1 h.nodup
  rw [List.map_append] at this
  exact (List.nodup_append.1 this).1

theorem selectUsers_final (GetUser : Nat → String → User) (input0 : List Value)
    (s : State) (h : Inv GetUser input0 s) (hret : s.returned = true) :
    s.out = (s.out.filterMap asUser).map Value.user ∧
    (∀ id, id ∈ (s.out.filterMap asUser).map User.ID ↔
      id ∈ (resolved GetUser input0).map User.ID) ∧
    (∀ u ∈ s.out.filterMap asUser, u ∈ resolved GetUser input0) := by
  obtain ⟨hin, hdone⟩ := h.ret hret
  have hres : resolved GetUser input0 = s.tasks.map (fun t => GetUser t.k t.email) := by
    have := h.idents
    simp only [hin, List.filterMap_nil, List.enumFrom_nil, List.append_nil] at this
    simp only [resolved, ← this, List.map_map]
    rfl
  have hcl : s.tasks.filterMap (fun t => claimed t.pc) = [] := by
    rw [List.filterMap_eq_nil_iff]
    intro t ht
    rw [hdone t ht]
    rfl
  have hal := h.aliasPerm
  rw [hcl, List.append_nil] at hal
  have hmemout : ∀ u ∈ s.out.filterMap asUser, u ∈ resolved GetUser input0 := by
    intro u hu
    obtain ⟨v, hv, hvu⟩ := List.mem_filterMap.1 hu
    obtain ⟨u', rfl, t, ht, hut⟩ := h.outUsers v hv
    simp only [asUser, Option.some.injEq] at hvu
    subst hvu
    rw [hres, hut]
    exact List.mem_map_of_mem _ ht
  refine ⟨map_user_filterMap_asUser _ (fun v hv => ?_), fun id => ⟨?_, ?_⟩, hmemout⟩
  · obtain ⟨u, hu, -⟩ := h.outUsers v hv
    exact ⟨u, hu⟩
  · intro hid
    obtain ⟨u, hu, rfl⟩ := List.mem_map.1 hid
    exact List.mem_map_of_mem _ (hmemout u hu)
  · intro hid
    rw [hres, List.map_map] at hid
    obtain ⟨t, ht, rfl⟩ := List.mem_map.1 hid
    exact hal.mem_iff.1 (h.known t ht (by rw [hdone t ht]; rfl))

/-- C5: for every input sequence, every lookup function and every interleaving,
`SelectUsers` emits exactly one `User` per distinct id among the users `GetUser`
returns for the received e-mails. Every partial run can be continued until the stage
returns; at no point of a run has an id been emitted twice; and when the stage has
returned, only users have been emitted, the emitted ids are exactly the resolved ids,
and every emitted user is one that `GetUser` returned. -/
theorem selectUsers_dedup (GetUser : Nat → String → User) (input : List Value)
    (sched : List Nat) :
    (∃ more, (run GetUser (sched ++ more) input).returned = true) ∧
    (((run GetUser sched input).out.filterMap asUser).map User.ID).Nodup ∧
    ((run GetUser sched input).returned = true →
      (run GetUser sched input).out
        = ((run GetUser sched input).out.filterMap asUser).map Value.user ∧
      (∀ id, id ∈ ((run GetUser sched input).out.filterMap asUser).map User.ID ↔
        id ∈ (resolved GetUser input).map User.ID) ∧
      (∀ u ∈ (run GetUser sched input).out.filterMap asUser, u ∈ resolved GetUser input)) :=
  ⟨selectUsers_can_return GetUser input sched,
    selectUsers_out_nodup GetUser input _ (selectUsers_inv_run GetUser sched input),
    selectUsers_final GetUser input _ (selectUsers_inv_run GetUser sched input)⟩

set_option maxRecDepth 100000 in
/-- Witness of C5: four lookups, three of them resolving to user 1, interleaved. -/
theorem selectUsers_dedup_witness :
    (run sampleGetUser sampleSched sampleEmails).returned = true ∧
    (run sampleGetUser sampleSched sampleEmails).out
      = [Value.user ⟨1, "a@x"⟩, Value.user ⟨2, "b@x"⟩] ∧
    (∀ id, id ∈ ((run sampleGetUser sampleSched sampleEmails).out.filterMap asUser).map User.ID ↔
        id ∈ (resolved sampleGetUser sampleEmails).map User.ID) :=
  ⟨by decide, by decide,
    ((selectUsers_dedup sampleGetUser sampleEmails sampleSched).2.2 (by decide)).2.1⟩

end SelectUsers

/-! ## Theorems: `SelectMessages` -/

namespace SelectMessages

theorem selectMessages_inv_init (B : Nat) (GetMessages : Nat → List User → Option (List MsgID))
    (input : List Value) : Inv B GetMessages input (init input) := by
  constructor <;> simp [init]

theorem selectMessages_inv_spawn (B : Nat)
    (GetMessages : Nat → List User → Option (List MsgID)) (input0 : List Value)
    (s : State) (h : Inv B GetMessages input0 s) (batch : List User) (s' : State)
    (htasks : s'.tasks = s.tasks ++ [⟨s.tasks.length, batch, .call⟩])
    (hout : s'.out = s.out) (hcalls : s'.calls = s.calls) :
    s'.tasks.map (fun t => t.k) = List.range s'.tasks.length ∧
    s'.calls.Perm ((s'.tasks.filter (fun t => called t.pc)).map (fun t => (t.k, t.batch))) ∧
    ((↑(s'.out.filterMap asMsgID) : Multiset MsgID) +
        (s'.tasks.map (fun t => (↑(pending t.pc) : Multiset MsgID))).sum =
      (s'.tasks.map (fun t => (↑(returnedIds GetMessages t) : Multiset MsgID))).sum) ∧
    (∀ v ∈ s'.out, ∃ m, v = Value.msgID m) := by
  rw [htasks, hout, hcalls]
  refine ⟨?_, ?_, ?_, h.outIds⟩
  · simp [List.range_succ, h.ks]
  · simpa [List.filter_append, called] using h.logged
  · simpa [pending, returnedIds, called] using h.sent

theorem selectMessages_inv_stepMain (B : Nat)
    (GetMessages : Nat → List User → Option (List MsgID)) (input0 : List Value)
    (s : State) (h : Inv B GetMessages input0 s) : Inv B GetMessages input0 (stepMain B s) := by
  unfold stepMain
  split
  · exact h
  · rename_i hret
    have hret : s.returned = false := by simpa using hret
    split
    · rename_i v rest hin
      have hfl : s.flushed = false := by
        cases hf : s.flushed
        · rfl
        · have := (h.drained hf).1
          simp [hin] at this
      obtain ⟨hfull, hbuf⟩ := h.running hfl
      have hb := h.batches
      simp only [hin, hfl, Bool.false_eq_true, if_false, List.filterMap_cons] at hb
      split
      · rename_i u hv
        simp only [hv] at hb
        split
        · rename_i hlt
          refine ⟨?_, ?_, ?_, h.ks, h.logged, h.sent, h.outIds, ?_⟩
          · simpa [hfl] using hb
          · intro _
            refine ⟨hfull, ?_⟩
            simp only [List.length_append, List.length_singleton] at hlt ⊢
            omega
          · intro hf
            simp [hfl] at hf
          · intro hr
            simp [hret] at hr
        · rename_i hge
          obtain ⟨h1, h2, h3, h4⟩ := selectMessages_inv_spawn B GetMessages input0 s h
            (s.users ++ [u])
            { s with input := rest, users := [],
                     tasks := s.tasks ++ [⟨s.tasks.length, s.users ++ [u], .call⟩] } rfl rfl rfl
          refine ⟨?_, ?_, ?_, h1, h2, h3, h4, ?_⟩
          · simpa [hfl] using hb
          · intro _
            refine ⟨?_, by simp⟩
            intro t ht
            rcases List.mem_append.1 ht with ht | ht
            · exact hfull t ht
            · simp only [List.mem_singleton] at ht
              subst ht
              simp only [List.length_append, List.length_singleton] at hge ⊢
              omega
          · intro hf
            simp [hfl] at hf
          · intro hr
            simp [hret] at hr
      · rename_i hv
        simp only [hv] at hb
        refine ⟨?_, ?_, ?_, h.ks, h.logged, h.sent, h.outIds, ?_⟩
        · simpa [hfl] using hb
        · intro _
          exact ⟨hfull, hbuf⟩
        · intro hf
          simp [hfl] at hf
        · intro hr
          simp [hret] at hr
    · rename_i hin
      split
      · rename_i hfl
        split
        · rename_i hall
          refine ⟨h.batches, h.running, h.drained, h.ks, h.logged, h.sent, h.outIds,
            fun _ => ⟨hfl, ?_⟩⟩
          simpa using hall
        · exact h
      · rename_i hfl
        have hfl : s.flushed = false := by simpa using hfl
        obtain ⟨hfull, hbuf⟩ := h.running hfl
        have hb := h.batches
        simp only [hin, hfl, Bool.false_eq_true, if_false, List.filterMap_nil,
          List.append_nil] at hb
        split
        · rename_i hpos
          obtain ⟨h1, h2, h3, h4⟩ := selectMessages_inv_spawn B GetMessages input0 s h
            s.users
            { s with flushed := true,
                     tasks := s.tasks ++ [⟨s.tasks.length, s.users, .call⟩] } rfl rfl rfl
          refine ⟨?_, ?_, ?_, h1, h2, h3, h4, ?_⟩
          · simpa [hin] using hb
          · intro hf
            simp at hf
          · intro _
            refine ⟨hin, s.tasks.map (fun t => t.batch), [s.users], by simp, ?_, ?_⟩
            · intro b hb'
              obtain ⟨t, ht, rfl⟩ := List.mem_map.1 hb'
              exact hfull t ht
            · exact Or.inr ⟨s.users, rfl, hpos, hbuf⟩
          · intro hr
            simp [hret] at hr
        · rename_i hpos
          have hnil : s.users = [] := by
            cases hu : s.users with
            | nil => rfl
            | cons a l => simp [hu] at hpos
          refine ⟨?_, ?_, ?_, h.ks, h.logged, h.sent, h.outIds, ?_⟩
          · simpa [hin, hnil] using hb
          · intro hf
            simp at hf
          · intro _
            refine ⟨hin, s.tasks.map (fun t => t.batch), [], by simp, ?_, Or.inl rfl⟩
            intro b hb'
            obtain ⟨t, ht, rfl⟩ := List.mem_map.1 hb'
            exact hfull t ht
          · intro hr
            simp [hret] at hr

theorem selectMessages_inv_stepTask (B : Nat)
    (GetMessages : Nat → List User → Option (List MsgID)) (input0 : List Value)
    (s : State) (i : Nat) (t : Task) (h : Inv B GetMessages input0 s)
    (ht : s.tasks[i]? = some t) : Inv B GetMessages input0 (stepTask GetMessages i t s) := by
  obtain ⟨pre, post, hsplit, -, hset⟩ := getElem?_split ht
  obtain ⟨k, batch, pc⟩ := t
  obtain ⟨hba, hru, hdr, hks, hlg, hse, hou, hrt⟩ := h
  obtain ⟨input, users, flushed, tasks, out, calls, returned⟩ := s
  simp only at hsplit hset hba hru hdr hks hlg hse hou hrt
  subst hsplit
  have hret : pc ≠ .done → returned = false := by
    intro hpc
    cases returned
    · rfl
    · exact absurd ((hrt rfl).2 ⟨k, batch, pc⟩ (by simp)) hpc
  have hmapb : ∀ (pc' : PC), (pre ++ (⟨k, batch, pc'⟩ : Task) :: post).map (fun t => t.batch)
      = (pre ++ (⟨k, batch, pc⟩ : Task) :: post).map (fun t => t.batch) := by
    intro pc'
    simp
  have hba' : ∀ (pc' : PC), ((pre ++ (⟨k, batch, pc'⟩ : Task) :: post).map
      (fun t => t.batch)).flatten ++ (if flushed = true then [] else users) ++
      input.filterMap asUser = input0.filterMap asUser := by
    intro pc'
    rw [hmapb]
    exact hba
  have hru' : ∀ (pc' : PC), flushed = false →
      (∀ x ∈ pre ++ (⟨k, batch, pc'⟩ : Task) :: post, x.batch.length = max B 1) ∧
      users.length < max B 1 := by
    intro pc' hf
    refine ⟨fun x hx => ?_, (hru hf).2⟩
    simp only [List.mem_append, List.mem_cons] at hx
    rcases hx with hx | rfl | hx
    · exact (hru hf).1 x (by simp [hx])
    · exact (hru hf).1 ⟨k, batch, pc⟩ (by simp)
    · exact (hru hf).1 x (by simp [hx])
  have hdr' : ∀ (pc' : PC), flushed = true → input = [] ∧ ∃ full last,
      (pre ++ (⟨k, batch, pc'⟩ : Task) :: post).map (fun t => t.batch) = full ++ last ∧
      (∀ b ∈ full, b.length = max B 1) ∧
      (last = [] ∨ ∃ b, last = [b] ∧ 0 < b.length ∧ b.length < max B 1) := by
    intro pc' hf
    rw [hmapb]
    exact hdr hf
  have hks' : ∀ (pc' : PC), (pre ++ (⟨k, batch, pc'⟩ : Task) :: post).map (fun t => t.k)
      = List.range (pre ++ (⟨k, batch, pc'⟩ : Task) :: post).length := by
    intro pc'
    simpa using hks
  have hou' : ∀ m, ∀ v ∈ out ++ [Value.msgID m], ∃ m', v = Value.msgID m' := by
    intro m v hv
    rcases List.mem_append.1 hv with hv | hv
    · exact hou v hv
    · exact ⟨m, by simpa using hv⟩
  have hsumP : ∀ (pc' : PC), ((pre ++ (⟨k, batch, pc'⟩ : Task) :: post).map
      (fun t => (↑(pending t.pc) : Multiset MsgID))).sum
      = (pre.map (fun t => (↑(pending t.pc) : Multiset MsgID))).sum
        + (post.map (fun t => (↑(pending t.pc) : Multiset MsgID))).sum + ↑(pending pc') := by
    intro pc'
    simp only [List.map_append, List.map_cons, List.sum_append, List.sum_cons]
    abel
  have hsumR : ∀ (pc' : PC), ((pre ++ (⟨k, batch, pc'⟩ : Task) :: post).map
      (fun t => (↑(returnedIds GetMessages t) : Multiset MsgID))).sum
      = (pre.map (fun t => (↑(returnedIds GetMessages t) : Multiset MsgID))).sum
        + (post.map (fun t => (↑(returnedIds GetMessages t) : Multiset MsgID))).sum
        + ↑(returnedIds GetMessages ⟨k, batch, pc'⟩) := by
    intro pc'
    simp only [List.map_append, List.map_cons, List.sum_append, List.sum_cons]
    abel
  rw [hsumP, hsumR] at hse
  generalize (pre.map (fun t => (↑(pending t.pc) : Multiset MsgID))).sum
    + (post.map (fun t => (↑(pending t.pc) : Multiset MsgID))).sum = P at hse hsumP
  generalize (pre.map (fun t => (↑(returnedIds GetMessages t) : Multiset MsgID))).sum
    + (post.map (fun t => (↑(returnedIds GetMessages t) : Multiset MsgID))).sum = R
    at hse hsumR
  cases pc with
  | call =>
    have hret := hret (by simp)
    subst hret
    have hlg' : ∀ (pc' : PC), called pc' = true → (calls ++ [(k, batch)]).Perm
        (List.map (fun t => (t.k, t.batch))
          (List.filter (fun t => called t.pc) (pre ++ (⟨k, batch, pc'⟩ : Task) :: post))) := by
      intro pc' hpc'
      simp only [List.filter_append, List.filter_cons, called, List.map_append] at hlg
      simp only [List.filter_append, List.filter_cons, hpc', List.map_append]
      refine (hlg.append_right [(k, batch)]).trans ?_
      simp only [Bool.false_eq_true, if_false, if_true, List.map_cons, List.append_assoc]
      exact List.Perm.append_left _ (List.perm_append_singleton _ _)
    have hse0 : (↑(List.filterMap asMsgID out) : Multiset MsgID) + P = R := by
      simpa [pending, returnedIds, called] using hse
    simp only [stepTask]
    cases hg : GetMessages k batch with
    | some msgIDs =>
      simp only [setPC, hset]
      refine ⟨hba' _, hru' _, hdr' _, hks' _, hlg' _ rfl, ?_, hou, by simp⟩
      rw [hsumP, hsumR, ← hse0]
      simp only [pending, returnedIds, called, hg, Option.getD_some, if_true]
      abel
    | none =>
      simp only [setPC, hset]
      refine ⟨hba' _, hru' _, hdr' _, hks' _, hlg' _ rfl, ?_, hou, by simp⟩
      rw [hsumP, hsumR, ← hse0]
      simp [pending, returnedIds, called, hg]
  | emit rest =>
    have hret := hret (by simp)
    subst hret
    cases rest with
    | nil =>
      simp only [stepTask, setPC, hset]
      refine ⟨hba' _, hru' _, hdr' _, hks' _, ?_, ?_, hou, by simp⟩
      · simpa [List.filter_append, List.filter_cons, called] using hlg
      · rw [hsumP, hsumR]
        simpa [pending, returnedIds, called] using hse
    | cons m rest =>
      simp only [stepTask, setPC, hset]
      refine ⟨hba' _, hru' _, hdr' _, hks' _, ?_, ?_, hou' m, by simp⟩
      · simpa [List.filter_append, List.filter_cons, called] using hlg
      · rw [hsumP, hsumR]
        have hR : returnedIds GetMessages ⟨k, batch, PC.emit rest⟩
            = returnedIds GetMessages ⟨k, batch, PC.emit (m :: rest)⟩ := rfl
        rw [hR, ← hse]
        simp only [pending, List.filterMap_append, List.filterMap_cons, asMsgID,
          List.filterMap_nil, ← Multiset.coe_add, ← Multiset.cons_coe,
          ← Multiset.singleton_add, Multiset.coe_nil, zero_add]
        abel
  | done =>
    simp only [stepTask]
    refine ⟨hba, hru, hdr, hks, hlg, ?_, hou, hrt⟩
    rw [hsumP, hsumR]
    exact hse

theorem selectMessages_inv_step (B : Nat)
    (GetMessages : Nat → List User → Option (List MsgID)) (input0 : List Value)
    (who : Nat) (s : State) (h : Inv B GetMessages input0 s) :
    Inv B GetMessages input0 (step B GetMessages who s) := by
  cases who with
  | zero => exact selectMessages_inv_stepMain B GetMessages input0 s h
  | succ i =>
    simp only [step]
    cases ht : s.tasks[i]? with
    | none => exact h
    | some t => exact selectMessages_inv_stepTask B GetMessages input0 s i t h ht

theorem selectMessages_inv_run (B : Nat)
    (GetMessages : Nat → List User → Option (List MsgID)) (sched : List Nat)
    (input : List Value) : Inv B GetMessages input (run B GetMessages sched input) :=
  runSched_invariant (step B GetMessages) (Inv B GetMessages input)
    (fun who s h => selectMessages_inv_step B GetMessages input who s h) sched _
    (selectMessages_inv_init B GetMessages input)

theorem selectMessages_flushed_step (B : Nat)
    (GetMessages : Nat → List User → Option (List MsgID)) (who : Nat) (s : State)
    (hf : s.flushed = true) : (step B GetMessages who s).flushed = true := by
  cases who with
  | zero =>
    simp only [step, stepMain]
    repeat' split
    all_goals exact hf
  | succ i =>
    simp only [step]
    cases ht : s.tasks[i]? with
    | none => exact hf
    | some t =>
      obtain ⟨k, batch, pc⟩ := t
      simp only [stepTask]
      repeat' split
      all_goals exact hf

/-- A statement of a worker that is not done lowers the number of statements the
workers still have to perform, and leaves `returned` alone. -/
theorem selectMessages_stepTask_measure
    (GetMessages : Nat → List User → Option (List MsgID)) (s : State) (i : Nat)
    (t : Task) (ht : s.tasks[i]? = some t) (hpc : t.pc ≠ .done) :
    ((stepTask GetMessages i t s).tasks.map (remaining GetMessages)).sum
        < (s.tasks.map (remaining GetMessages)).sum ∧
    (stepTask GetMessages i t s).returned = s.returned := by
  obtain ⟨pre, post, hsplit, -, hset⟩ := getElem?_split ht
  obtain ⟨k, batch, pc⟩ := t
  obtain ⟨input, users, flushed, tasks, out, calls, returned⟩ := s
  simp only at hsplit hset hpc
  subst hsplit
  cases pc with
  | done => exact absurd rfl hpc
  | call =>
    simp only [stepTask]
    cases hg : GetMessages k batch <;> simp [setPC, hset, remaining, hg]
  | emit rest =>
    cases rest <;> simp [stepTask, setPC, hset, remaining]

/-- Every partial run of `SelectMessages` can be continued to one in which the stage
returns. -/
theorem selectMessages_can_return (B : Nat)
    (GetMessages : Nat → List User → Option (List MsgID)) (input : List Value)
    (sched : List Nat) :
    ∃ more, (run B GetMessages (sched ++ more) input).returned = true := by
  obtain ⟨m1, hm1⟩ := exists_sched_of_measure (step B GetMessages) (Inv B GetMessages input)
    (fun s => s.flushed = true) (fun s => s.input.length + (if s.flushed then 0 else 1))
    (fun who s h => selectMessages_inv_step B GetMessages input who s h)
    (fun s h hf => by
      have hf : s.flushed = false := by simpa using hf
      have hret : s.returned = false := by
        cases hr : s.returned
        · rfl
        · have := (h.ret hr).1
          simp [hf] at this
      refine ⟨0, ?_⟩
      cases hin : s.input with
      | nil =>
        simp only [step, stepMain, hret, hin, hf, Bool.false_eq_true, if_false]
        split <;> simp
      | cons v rest =>
        simp only [step, stepMain, hret, hin, hf, Bool.false_eq_true, if_false]
        cases asUser v with
        | none => simp [hf]
        | some u => by_cases hlt : s.users.length + 1 < B <;> simp [hlt, hf])
    _ (run B GetMessages sched input) le_rfl (selectMessages_inv_run B GetMessages sched input)
  obtain ⟨m2, hm2⟩ := exists_sched_of_measure (step B GetMessages)
    (fun s => Inv B GetMessages input s ∧ s.flushed = true)
    (fun s => s.returned = true)
    (fun s => (s.tasks.map (remaining GetMessages)).sum + (if s.returned then 0 else 1))
    (fun who s h => ⟨selectMessages_inv_step B GetMessages input who s h.1,
      selectMessages_flushed_step B GetMessages who s h.2⟩)
    (fun s h hr => by
      have hr : s.returned = false := by simpa using hr
      have hin : s.input = [] := (h.1.drained h.2).1
      by_cases hall : ∀ t ∈ s.tasks, t.pc = .done
      · refine ⟨0, ?_⟩
        have : s.tasks.all (fun t => decide (t.pc = .done)) = true := by simpa using hall
        simp [step, stepMain, hr, hin, h.2, this]
      · simp only [not_forall] at hall
        obtain ⟨t, ht, hpc⟩ := hall
        obtain ⟨i, hi⟩ := List.mem_iff_getElem?.1 ht
        refine ⟨i + 1, ?_⟩
        simp only [step, hi]
        obtain ⟨h1, h2⟩ := selectMessages_stepTask_measure GetMessages s i t hi hpc
        rw [h2]
        omega)
    _ (run B GetMessages (sched ++ m1) input) le_rfl
    ⟨selectMessages_inv_run B GetMessages (sched ++ m1) input,
      by simpa [run, runSched_append] using hm1⟩
  exact ⟨m1 ++ m2, by simpa [run, runSched_append] using hm2⟩

theorem selectMessages_final_ids (B : Nat)
    (GetMessages : Nat → List User → Option (List MsgID)) (input0 : List Value)
    (s : State) (h : Inv B GetMessages input0 s) (hret : s.returned = true) :
    s.out = (s.out.filterMap asMsgID).map Value.msgID ∧
    (s.out.filterMap asMsgID).Perm (bulkIds GetMessages s.calls) ∧
    s.calls.Perm (s.tasks.map (fun t => (t.k, t.batch))) := by
  obtain ⟨-, hdone⟩ := h.ret hret
  have hlg : s.calls.Perm (s.tasks.map (fun t => (t.k, t.batch))) := by
    have := h.logged
    rwa [List.filter_eq_self.2 (fun t ht => by rw [hdone t ht]; rfl)] at this
  refine ⟨?_, ?_, hlg⟩
  · have hout := h.outIds
    generalize s.out = out at hout
    induction out with
    | nil => rfl
    | cons v out ih =>
      obtain ⟨m, rfl⟩ := hout v (by simp)
      simp only [List.filterMap_cons, asMsgID, List.map_cons]
      rw [← ih (fun v hv => hout v (List.mem_cons_of_mem _ hv))]
  · have hse := h.sent
    have hp : s.tasks.map (fun t => (↑(pending t.pc) : Multiset MsgID))
        = s.tasks.map (fun _ => (0 : Multiset MsgID)) :=
      List.map_congr_left (fun t ht => by rw [hdone t ht]; rfl)
    have hr : s.tasks.map (fun t => (↑(returnedIds GetMessages t) : Multiset MsgID))
        = s.tasks.map (fun t => (↑((GetMessages t.k t.batch).getD []) : Multiset MsgID)) :=
      List.map_congr_left (fun t ht => by simp [returnedIds, hdone t ht, called])
    rw [hp, hr, sum_coe_eq_coe_flatten] at hse
    simp only [List.map_const', List.sum_replicate, smul_zero, add_zero,
      Multiset.coe_eq_coe] at hse
    refine hse.trans ?_
    unfold bulkIds
    rw [filterMap_flatten_eq]
    refine List.Perm.flatten ?_
    have := (hlg.map (fun c => (GetMessages c.1 c.2).getD [])).symm
    simpa [List.map_map, Function.comp_def] using this

theorem selectMessages_final_sizes (B : Nat)
    (GetMessages : Nat → List User → Option (List MsgID)) (input0 : List Value)
    (s : State) (h : Inv B GetMessages input0 s) (hret : s.returned = true) (hB : 1 ≤ B) :
    s.tasks.map (fun t => t.batch.length) =
        List.replicate ((input0.filterMap asUser).length / B) B ++
          (if (input0.filterMap asUser).length % B = 0 then []
            else [(input0.filterMap asUser).length % B]) ∧
    s.tasks.length = ((input0.filterMap asUser).length + B - 1) / B ∧
    (s.tasks.map (fun t => t.batch)).flatten = input0.filterMap asUser := by
  obtain ⟨hfl, -⟩ := h.ret hret
  obtain ⟨hin, full, last, hsplit, hfull, hlast⟩ := h.drained hfl
  have hmax : max B 1 = B := max_eq_left hB
  rw [hmax] at hfull hlast
  have hb := h.batches
  simp only [hin, hfl, if_true, List.filterMap_nil, List.append_nil] at hb
  have hmap : s.tasks.map (fun t => t.batch.length) = (full ++ last).map List.length := by
    rw [← hsplit, List.map_map]
    rfl
  have hlen : s.tasks.length = full.length + last.length := by
    have := congrArg List.length hsplit
    simpa using this
  have hfullmap : full.map List.length = List.replicate full.length B := by
    rw [List.eq_replicate_iff]
    refine ⟨by simp, fun b hb => ?_⟩
    obtain ⟨x, hx, rfl⟩ := List.mem_map.1 hb
    exact hfull x hx
  have hn : (input0.filterMap asUser).length = full.length * B + (last.map List.length).sum := by
    rw [← hb, hsplit, List.length_flatten, List.map_append, List.sum_append, hfullmap,
      List.sum_replicate, smul_eq_mul]
  refine ⟨?_, ?_, hb⟩
  · rw [hmap, List.map_append, hfullmap, hn]
    rcases hlast with rfl | ⟨b, rfl, hpos, hlt⟩
    · obtain ⟨h1, h2, -⟩ := div_of_full_batches full.length B 0 hB (by omega)
      simp only [List.map_nil, List.sum_nil]
      rw [h1, h2]
      simp
    · obtain ⟨h1, h2, -⟩ := div_of_full_batches full.length B b.length hB hlt
      simp only [List.map_cons, List.map_nil, List.sum_cons, List.sum_nil, Nat.add_zero]
      rw [h1, h2]
      simp [Nat.pos_iff_ne_zero.1 hpos]
  · rw [hlen, hn]
    rcases hlast with rfl | ⟨b, rfl, hpos, hlt⟩
    · obtain ⟨-, -, h3⟩ := div_of_full_batches full.length B 0 hB (by omega)
      simp only [List.map_nil, List.sum_nil, List.length_nil]
      rw [h3]
      simp
    · obtain ⟨-, -, h3⟩ := div_of_full_batches full.length B b.length hB hlt
      simp only [List.map_cons, List.map_nil, List.sum_cons, List.sum_nil, Nat.add_zero,
        List.length_singleton]
      rw [h3]
      simp [Nat.pos_iff_ne_zero.1 hpos]

/-- C6: with batch size `B ≥ 1` and `n` users received, `SelectMessages` issues exactly
`⌈n / B⌉` bulk `GetMessages` calls: `n / B` calls with exactly `B` users each and, when
`n % B ≠ 0`, one more with `n % B` users; no call receives more than `B` users or an
empty batch. Every partial run can be continued until the stage returns, and this
holds of the calls made by the time it has returned, under every interleaving; the
workers, in the order they were spawned, received the full batches first and the
remainder last. -/
theorem selectMessages_batch_calls (B : Nat)
    (GetMessages : Nat → List User → Option (List MsgID)) (input : List Value)
    (sched : List Nat) (hB : 1 ≤ B) :
    (∃ more, (run B GetMessages (sched ++ more) input).returned = true) ∧
    ((run B GetMessages sched input).returned = true →
      ((run B GetMessages sched input).calls.map (fun c => c.2.length)).Perm
        (List.replicate ((input.filterMap asUser).length / B) B ++
          (if (input.filterMap asUser).length % B = 0 then []
            else [(input.filterMap asUser).length % B])) ∧
      (run B GetMessages sched input).calls.length
        = ((input.filterMap asUser).length + B - 1) / B ∧
      (∀ c ∈ (run B GetMessages sched input).calls, 0 < c.2.length ∧ c.2.length ≤ B) ∧
      (run B GetMessages sched input).tasks.map (fun t => t.batch.length)
        = List.replicate ((input.filterMap asUser).length / B) B ++
          (if (input.filterMap asUser).length % B = 0 then []
            else [(input.filterMap asUser).length % B])) := by
  refine ⟨selectMessages_can_return B GetMessages input sched, fun hret => ?_⟩
  have hinv := selectMessages_inv_run B GetMessages sched input
  obtain ⟨-, -, hlg⟩ := selectMessages_final_ids B GetMessages input _ hinv hret
  obtain ⟨hsz, hlen, -⟩ := selectMessages_final_sizes B GetMessages input _ hinv hret hB
  have hperm : ((run B GetMessages sched input).calls.map (fun c => c.2.length)).Perm
      ((run B GetMessages sched input).tasks.map (fun t => t.batch.length)) := by
    have := hlg.map (fun c => c.2.length)
    simpa [List.map_map, Function.comp_def] using this
  refine ⟨hsz ▸ hperm, by rw [hlg.length_eq, List.length_map, hlen], fun c hc => ?_, hsz⟩
  have hmem : c.2.length ∈ List.replicate ((input.filterMap asUser).length / B) B ++
      (if (input.filterMap asUser).length % B = 0 then []
        else [(input.filterMap asUser).length % B]) :=
    (hsz ▸ hperm).mem_iff.1
      (List.mem_map_of_mem (fun (c : Nat × List User) => c.2.length) hc)
  rcases List.mem_append.1 hmem with hm | hm
  · rw [(List.mem_replicate.1 hm).2]
    omega
  · split at hm
    · simp at hm
    · rename_i hne
      simp only [List.mem_singleton] at hm
      rw [hm]
      exact ⟨Nat.pos_of_ne_zero hne, (Nat.mod_lt _ (by omega)).le⟩

set_option maxRecDepth 100000 in
/-- Witness of C6: `B = 3` and seven users give three calls of sizes 3, 3 and 1. -/
theorem selectMessages_batch_calls_witness :
    1 ≤ 3 ∧ (run 3 sampleGetMessages sampleSched sampleUsers).returned = true ∧
    (sampleUsers.filterMap asUser).length = 7 ∧
    (run 3 sampleGetMessages sampleSched sampleUsers).calls.map (fun c => c.2.length)
      = [3, 3, 1] ∧
    (run 3 sampleGetMessages sampleSched sampleUsers).calls.length
      = ((sampleUsers.filterMap asUser).length + 3 - 1) / 3 :=
  ⟨by decide, by decide, by decide, by decide,
    ((selectMessages_batch_calls 3 sampleGetMessages sampleUsers sampleSched
      (by decide)).2 (by decide)).2.1⟩

/-- C7: under every interleaving and every outcome of the bulk lookups, the message ids
`SelectMessages` has emitted when it returns are, as a multiset, exactly the ids
returned by the `GetMessages` calls that succeeded; a call that returns an error
contributes none. Only message ids are emitted, and every partial run can be continued
until the stage returns. -/
theorem selectMessages_emits_bulk_ids (B : Nat)
    (GetMessages : Nat → List User → Option (List MsgID)) (input : List Value)
    (sched : List Nat) :
    (∃ more, (run B GetMessages (sched ++ more) input).returned = true) ∧
    ((run B GetMessages sched input).returned = true →
      (run B GetMessages sched input).out
        = ((run B GetMessages sched input).out.filterMap asMsgID).map Value.msgID ∧
      ((run B GetMessages sched input).out.filterMap asMsgID).Perm
        (((run B GetMessages sched input).calls.filterMap
          (fun c => GetMessages c.1 c.2)).flatten)) := by
  refine ⟨selectMessages_can_return B GetMessages input sched, fun hret => ?_⟩
  obtain ⟨h1, h2, -⟩ := selectMessages_final_ids B GetMessages input _
    (selectMessages_inv_run B GetMessages sched input) hret
  exact ⟨h1, h2⟩

set_option maxRecDepth 100000 in
/-- Witness of C7: the second of three calls fails and its batch yields no id. -/
theorem selectMessages_emits_bulk_ids_witness :
    (run 3 sampleGetMessages sampleSched sampleUsers).returned = true ∧
    (run 3 sampleGetMessages sampleSched sampleUsers).out
      = [Value.msgID 10, Value.msgID 20, Value.msgID 70, Value.msgID 30] ∧
    (run 3 sampleGetMessages sampleSched sampleUsers).calls.map
      (fun c => sampleGetMessages c.1 c.2) = [some [10, 20, 30], none, some [70]] ∧
    ((run 3 sampleGetMessages sampleSched sampleUsers).out.filterMap asMsgID).Perm
        (((run 3 sampleGetMessages sampleSched sampleUsers).calls.filterMap
          (fun c => sampleGetMessages c.1 c.2)).flatten) :=
  ⟨by decide, by decide, by decide,
    ((selectMessages_emits_bulk_ids 3 sampleGetMessages sampleUsers sampleSched).2
      (by decide)).2⟩

end SelectMessages

/-! ## Theorems: `CheckSpam` -/

namespace CheckSpam

theorem checkSpam_inv_init (K : Nat) (HasSpam : Nat → MsgID → Option Bool)
    (input : List Value) : Inv K HasSpam input (init input) := by
  constructor <;> simp [init, List.enum]

theorem checkSpam_inv_stepMain (K : Nat) (HasSpam : Nat → MsgID → Option Bool)
    (input0 : List Value) (s : State) (h : Inv K HasSpam input0 s) :
    Inv K HasSpam input0 (stepMain s) := by
  unfold stepMain
  split
  · exact h
  · rename_i hret
    split
    · rename_i v rest hin
      have hid := h.idents
      split
      · rename_i m hv
        simp only [hin, List.filterMap_cons, hv] at hid
        refine ⟨?_, ?_, h.bound, ?_, ?_, ?_, h.outRecs, fun hr => by simp [hret] at hr⟩
        · simpa [List.enumFrom_cons] using hid
        · simpa [List.countP_append, holdsSlot] using h.slots
        · intro t ht r hr
          rcases List.mem_append.1 ht with ht | ht
          · exact h.result t ht r hr
          · simp only [List.mem_singleton] at ht
            subst ht
            simp at hr
        · simpa [List.filter_append, called] using h.logged
        · simpa [delivered] using h.sent
      · rename_i hv
        simp only [hin, List.filterMap_cons, hv] at hid
        exact ⟨hid, h.slots, h.bound, h.result, h.logged, h.sent, h.outRecs,
          fun hr => by simp [hret] at hr⟩
    · rename_i hin
      split
      · rename_i hall
        refine ⟨h.idents, h.slots, h.bound, h.result, h.logged, h.sent, h.outRecs,
          fun _ => ⟨hin, ?_⟩⟩
        simpa using hall
      · exact h

theorem checkSpam_inv_stepTask (K : Nat) (HasSpam : Nat → MsgID → Option Bool)
    (input0 : List Value) (s : State) (i : Nat) (t : Task) (h : Inv K HasSpam input0 s)
    (ht : s.tasks[i]? = some t) : Inv K HasSpam input0 (stepTask K HasSpam i t s) := by
  obtain ⟨pre, post, hsplit, -, hset⟩ := getElem?_split ht
  obtain ⟨k, msgID, pc⟩ := t
  obtain ⟨hid, hsl, hbd, hrs, hlg, hse, hou, hrt⟩ := h
  obtain ⟨input, tasks, sem, out, calls, returned⟩ := s
  simp only at hsplit hset hid hsl hbd hrs hlg hse hou hrt
  subst hsplit
  have hret : pc ≠ .done → returned = false := by
    intro hpc
    cases returned
    · rfl
    · exact absurd ((hrt rfl).2 ⟨k, msgID, pc⟩ (by simp)) hpc
  have hid' : ∀ (pc' : PC),
      List.map (fun t => (t.k, t.msgID)) (pre ++ (⟨k, msgID, pc'⟩ : Task) :: post) ++
        List.enumFrom (pre ++ (⟨k, msgID, pc'⟩ : Task) :: post).length
          (List.filterMap asMsgID input) = (List.filterMap asMsgID input0).enum := by
    intro pc'
    simpa using hid
  have hrs' : ∀ (pc' : PC), (∀ r, pc' = .send r → HasSpam k msgID = some r) →
      ∀ x ∈ pre ++ (⟨k, msgID, pc'⟩ : Task) :: post, ∀ r, x.pc = .send r →
        HasSpam x.k x.msgID = some r := by
    intro pc' hpc' x hx r hr
    simp only [List.mem_append, List.mem_cons] at hx
    rcases hx with hx | rfl | hx
    · exact hrs x (by simp [hx]) r hr
    · exact hpc' r hr
    · exact hrs x (by simp [hx]) r hr
  have hc : ∀ (pc' : PC),
      List.countP (fun t => holdsSlot t.pc) (pre ++ (⟨k, msgID, pc'⟩ : Task) :: post)
      = List.countP (fun t => holdsSlot t.pc) pre + List.countP (fun t => holdsSlot t.pc) post
        + (if holdsSlot pc' = true then 1 else 0) := by
    intro pc'
    simp only [List.countP_append, List.countP_cons]
    omega
  have hsl0 := hsl
  rw [hc] at hsl
  have hlgsame : ∀ (pc' : PC), called pc' = called pc → calls.Perm
      (List.map (fun t => (t.k, t.msgID))
        (List.filter (fun t => called t.pc) (pre ++ (⟨k, msgID, pc'⟩ : Task) :: post))) := by
    intro pc' hpc'
    cases hcp : called pc <;>
      simp only [List.filter_append, List.filter_cons, List.map_append, hpc', hcp,
        Bool.false_eq_true, if_false, if_true, List.map_cons] at hlg ⊢ <;>
      exact hlg
  have hsum : ∀ (pc' : PC), ((pre ++ (⟨k, msgID, pc'⟩ : Task) :: post).map
      (fun t => (↑(delivered HasSpam t) : Multiset MsgData))).sum
      = (pre.map (fun t => (↑(delivered HasSpam t) : Multiset MsgData))).sum
        + (post.map (fun t => (↑(delivered HasSpam t) : Multiset MsgData))).sum
        + ↑(delivered HasSpam ⟨k, msgID, pc'⟩) := by
    intro pc'
    simp only [List.map_append, List.map_cons, List.sum_append, List.sum_cons]
    abel
  have hse0 := hse
  rw [hsum] at hse
  generalize (pre.map (fun t => (↑(delivered HasSpam t) : Multiset MsgData))).sum
    + (post.map (fun t => (↑(delivered HasSpam t) : Multiset MsgData))).sum = D at hse hsum
  cases pc with
  | acquire =>
    have hret := hret (by simp)
    subst hret
    simp only [stepTask]
    split
    · rename_i hlt
      simp only [setPC, hset]
      refine ⟨hid' _, ?_, ?_, hrs' _ (by simp), hlgsame _ rfl, ?_, hou, by simp⟩
      · rw [hc]
        have h1 : holdsSlot PC.acquire = false := rfl
        have h2 : holdsSlot PC.call = true := rfl
        simp only [h1, h2] at hsl ⊢
        simp only [Bool.false_eq_true, if_false, if_true] at hsl ⊢
        omega
      · show sem + 1 ≤ K
        omega
      · rw [hsum]
        simpa [delivered] using hse
    · exact ⟨hid, hsl0, hbd, hrs, hlg, hse0, hou, hrt⟩
  | call =>
    have hret := hret (by simp)
    subst hret
    have hlg' : ∀ (pc' : PC), called pc' = true → (calls ++ [(k, msgID)]).Perm
        (List.map (fun t => (t.k, t.msgID))
          (List.filter (fun t => called t.pc) (pre ++ (⟨k, msgID, pc'⟩ : Task) :: post))) := by
      intro pc' hpc'
      simp only [List.filter_append, List.filter_cons, called, List.map_append] at hlg
      simp only [List.filter_append, List.filter_cons, hpc', List.map_append]
      refine (hlg.append_right [(k, msgID)]).trans ?_
      simp only [Bool.false_eq_true, if_false, if_true, List.map_cons, List.append_assoc]
      exact List.Perm.append_left _ (List.perm_append_singleton _ _)
    simp only [stepTask]
    cases hg : HasSpam k msgID with
    | some r =>
      simp only [setPC, hset]
      refine ⟨hid' _, ?_, hbd, hrs' _ ?_, hlg' _ rfl, ?_, hou, by simp⟩
      · rw [hc]
        exact hsl
      · intro r' hr'
        simp only [PC.send.injEq] at hr'
        rw [hg, hr']
      · rw [hsum]
        simpa [delivered] using hse
    | none =>
      simp only [setPC, hset]
      refine ⟨hid' _, ?_, hbd, hrs' _ (by simp), hlg' _ rfl, ?_, hou, by simp⟩
      · rw [hc]
        exact hsl
      · rw [hsum]
        simpa [delivered, verdict, hg] using hse
  | send r =>
    have hret := hret (by simp)
    subst hret
    have hres : HasSpam k msgID = some r := hrs ⟨k, msgID, .send r⟩ (by simp) r rfl
    simp only [stepTask, setPC, hset]
    refine ⟨hid' _, ?_, hbd, hrs' _ (by simp), hlgsame _ rfl, ?_, ?_, by simp⟩
    · rw [hc]
      exact hsl
    · rw [hsum]
      simp only [delivered, verdict, hres, List.filterMap_append, List.filterMap_cons,
        asMsgData, List.filterMap_nil, ← Multiset.coe_add] at hse ⊢
      rw [hse]
      simp
    · intro v hv
      rcases List.mem_append.1 hv with hv | hv
      · exact hou v hv
      · exact ⟨_, by simpa using hv⟩
  | release =>
    have hret := hret (by simp)
    subst hret
    simp only [stepTask, setPC, hset]
    refine ⟨hid' _, ?_, ?_, hrs' _ (by simp), hlgsame _ rfl, ?_, hou, by simp⟩
    · rw [hc]
      have h1 : holdsSlot PC.release = true := rfl
      have h2 : holdsSlot PC.done = false := rfl
      simp only [h1, h2] at hsl ⊢
      simp only [Bool.false_eq_true, if_false, if_true] at hsl ⊢
      omega
    · show sem - 1 ≤ K
      omega
    · rw [hsum]
      simpa [delivered] using hse
  | done =>
    simp only [stepTask]
    exact ⟨hid, hsl0, hbd, hrs, hlg, hse0, hou, hrt⟩

theorem checkSpam_inv_step (K : Nat) (HasSpam : Nat → MsgID → Option Bool)
    (input0 : List Value) (who : Nat) (s : State) (h : Inv K HasSpam input0 s) :
    Inv K HasSpam input0 (step K HasSpam who s) := by
  cases who with
  | zero => exact checkSpam_inv_stepMain K HasSpam input0 s h
  | succ i =>
    simp only [step]
    cases ht : s.tasks[i]? with
    | none => exact h
    | some t => exact checkSpam_inv_stepTask K HasSpam input0 s i t h ht

theorem checkSpam_inv_run (K : Nat) (HasSpam : Nat → MsgID → Option Bool)
    (sched : List Nat) (input : List Value) :
    Inv K HasSpam input (run K HasSpam sched input) :=
  runSched_invariant (step K HasSpam) (Inv K HasSpam input)
    (fun who s h => checkSpam_inv_step K HasSpam input who s h) sched _
    (checkSpam_inv_init K HasSpam input)

theorem checkSpam_stepTask_measure (K : Nat) (HasSpam : Nat → MsgID → Option Bool)
    (s : State) (i : Nat) (t : Task) (ht : s.tasks[i]? = some t) (hpc : t.pc ≠ .done)
    (hacq : t.pc = .acquire → s.sem < K) :
    measure (stepTask K HasSpam i t s) < measure s := by
  obtain ⟨pre, post, hsplit, -, hset⟩ := getElem?_split ht
  obtain ⟨k, msgID, pc⟩ := t
  obtain ⟨input, tasks, sem, out, calls, returned⟩ := s
  simp only at hsplit hset hacq hpc
  subst hsplit
  cases pc with
  | done => exact absurd rfl hpc
  | acquire =>
    have := hacq rfl
    simp [stepTask, setPC, hset, measure, remaining, this]
  | call =>
    simp only [stepTask]
    cases HasSpam k msgID <;> simp [setPC, hset, measure, remaining]
  | _ => simp [stepTask, setPC, hset, measure, remaining]

theorem checkSpam_progress (K : Nat) (HasSpam : Nat → MsgID → Option Bool)
    (input0 : List Value) (hK : 1 ≤ K) (s : State) (h : Inv K HasSpam input0 s)
    (hret : ¬ s.returned = true) :
    ∃ who, measure (step K HasSpam who s) < measure s := by
  have hret : s.returned = false := by simpa using hret
  cases hin : s.input with
  | cons v rest =>
    refine ⟨0, ?_⟩
    simp only [step, stepMain, hret, hin, Bool.false_eq_true, if_false]
    have hl : s.input.length = rest.length + 1 := by simp [hin]
    cases asMsgID v <;> simp only [measure, hret, hl, List.map_append, List.sum_append,
      List.map_cons, List.map_nil, List.sum_cons, List.sum_nil, remaining] <;> omega
  | nil =>
    by_cases hall : ∀ t ∈ s.tasks, t.pc = .done
    · refine ⟨0, ?_⟩
      have : s.tasks.all (fun t => decide (t.pc = .done)) = true := by simpa using hall
      simp [step, stepMain, hret, hin, this, measure]
    · simp only [not_forall] at hall
      obtain ⟨t, ht, hpc⟩ := hall
      by_cases hpos : 0 < s.tasks.countP (fun t => holdsSlot t.pc)
      · obtain ⟨x, hx, hxh⟩ := List.countP_pos_iff.1 hpos
        obtain ⟨i, hi⟩ := List.mem_iff_getElem?.1 hx
        refine ⟨i + 1, ?_⟩
        simp only [step, hi]
        refine checkSpam_stepTask_measure K HasSpam s i x hi ?_ ?_
        · intro hd
          rw [hd] at hxh
          simp [holdsSlot] at hxh
        · intro hu
          rw [hu] at hxh
          simp [holdsSlot] at hxh
      · obtain ⟨i, hi⟩ := List.mem_iff_getElem?.1 ht
        refine ⟨i + 1, ?_⟩
        simp only [step, hi]
        refine checkSpam_stepTask_measure K HasSpam s i t hi hpc (fun _ => ?_)
        have := h.slots
        omega

/-- Every partial run of `CheckSpam` with a semaphore of capacity at least one can be
continued to one in which the stage returns. -/
theorem checkSpam_can_return (K : Nat) (HasSpam : Nat → MsgID → Option Bool)
    (input : List Value) (hK : 1 ≤ K) (sched : List Nat) :
    ∃ more, (run K HasSpam (sched ++ more) input).returned = true := by
  obtain ⟨more, hm⟩ := exists_sched_of_measure (step K HasSpam) (Inv K HasSpam input)
    (fun s => s.returned = true) measure
    (fun who s h => checkSpam_inv_step K HasSpam input who s h)
    (fun s h hf => checkSpam_progress K HasSpam input hK s h hf)
    _ (run K HasSpam sched input) le_rfl (checkSpam_inv_run K HasSpam sched input)
  exact ⟨more, by simpa [run, runSched_append] using hm⟩

theorem classified_eq_filterMap (HasSpam : Nat → MsgID → Option Bool) (input : List Value) :
    classified HasSpam input = (input.filterMap asMsgID).enum.filterMap
      (fun p => (HasSpam p.1 p.2).map (fun r => (⟨p.2, r⟩ : MsgData))) := by
  unfold classified
  generalize (input.filterMap asMsgID).enum = l
  induction l with
  | nil => rfl
  | cons p l ih =>
    simp only [List.map_cons, List.flatten_cons, List.filterMap_cons, ih]
    cases hp : HasSpam p.1 p.2 <;> simp [verdict, hp]

theorem checkSpam_final (K : Nat) (HasSpam : Nat → MsgID → Option Bool)
    (input0 : List Value) (s : State) (h : Inv K HasSpam input0 s)
    (hret : s.returned = true) :
    s.out = (s.out.filterMap asMsgData).map Value.msgData ∧
    (s.out.filterMap asMsgData).Perm (classified HasSpam input0) ∧
    s.calls.Perm (input0.filterMap asMsgID).enum := by
  obtain ⟨hin, hdone⟩ := h.ret hret
  have hid := h.idents
  simp only [hin, List.filterMap_nil, List.enumFrom_nil, List.append_nil] at hid
  refine ⟨?_, ?_, ?_⟩
  · have hout := h.outRecs
    generalize s.out = out at hout
    induction out with
    | nil => rfl
    | cons v out ih =>
      obtain ⟨m, rfl⟩ := hout v (by simp)
      simp only [List.filterMap_cons, asMsgData, List.map_cons]
      rw [← ih (fun v hv => hout v (List.mem_cons_of_mem _ hv))]
  · have hse := h.sent
    have hd : s.tasks.map (fun t => (↑(delivered HasSpam t) : Multiset MsgData))
        = s.tasks.map (fun t => (↑(verdict HasSpam t.k t.msgID) : Multiset MsgData)) :=
      List.map_congr_left (fun t ht => by simp [delivered, hdone t ht])
    rw [hd, sum_coe_eq_coe_flatten, Multiset.coe_eq_coe] at hse
    refine hse.trans (List.Perm.of_eq ?_)
    simp only [classified, ← hid, List.map_map]
    rfl
  · have := h.logged
    rw [List.filter_eq_self.2 (fun t ht => by rw [hdone t ht]; rfl), hid] at this
    exact this

/-- C8: under every interleaving and every outcome of the classifier, the records
`CheckSpam` has emitted when it returns are, as a multiset, exactly the records
`MsgData{ID: id, HasSpam: r}` of the received ids whose `HasSpam` call succeeded with
result `r`: one record per successful classification, none for a failed one. Only
records are emitted, and with a semaphore of capacity at least one every partial run
can be continued until the stage returns. -/
theorem checkSpam_emits_verdicts (K : Nat) (HasSpam : Nat → MsgID → Option Bool)
    (input : List Value) (sched : List Nat) :
    (1 ≤ K → ∃ more, (run K HasSpam (sched ++ more) input).returned = true) ∧
    ((run K HasSpam sched input).returned = true →
      (run K HasSpam sched input).out
        = ((run K HasSpam sched input).out.filterMap asMsgData).map Value.msgData ∧
      ((run K HasSpam sched input).out.filterMap asMsgData).Perm
        ((input.filterMap asMsgID).enum.filterMap
          (fun p => (HasSpam p.1 p.2).map (fun r => (⟨p.2, r⟩ : MsgData))))) := by
  refine ⟨fun hK => checkSpam_can_return K HasSpam input hK sched, fun hret => ?_⟩
  obtain ⟨h1, h2, -⟩ := checkSpam_final K HasSpam input _
    (checkSpam_inv_run K HasSpam sched input) hret
  exact ⟨h1, classified_eq_filterMap HasSpam input ▸ h2⟩

set_option maxRecDepth 100000 in
/-- Witness of C8: three ids, the classification of one of them fails. -/
theorem checkSpam_emits_verdicts_witness :
    1 ≤ 2 ∧ (run 2 sampleHasSpam sampleSched sampleIds).returned = true ∧
    (run 2 sampleHasSpam sampleSched sampleIds).out
      = [Value.msgData ⟨11, true⟩, Value.msgData ⟨10, false⟩] ∧
    ((run 2 sampleHasSpam sampleSched sampleIds).out.filterMap asMsgData).Perm
        ((sampleIds.filterMap asMsgID).enum.filterMap
          (fun p => (sampleHasSpam p.1 p.2).map (fun r => (⟨p.2, r⟩ : MsgData)))) :=
  ⟨by decide, by decide, by decide,
    ((checkSpam_emits_verdicts 2 sampleHasSpam sampleIds sampleSched).2 (by decide)).2⟩

/-- C12: at every point of every interleaving of `CheckSpam`, the number of `HasSpam`
calls that have started and not yet returned is at most the capacity `K` of `sem`:
every goroutine inside the call holds a slot, the held slots are exactly the
elements of `sem`, and `sem` never holds more than `K`. -/
theorem checkSpam_inflight_bound (K : Nat) (HasSpam : Nat → MsgID → Option Bool)
    (input : List Value) (sched : List Nat) :
    inFlight (run K HasSpam sched input) ≤ K ∧
    inFlight (run K HasSpam sched input)
      ≤ (run K HasSpam sched input).tasks.countP (fun t => holdsSlot t.pc) ∧
    (run K HasSpam sched input).tasks.countP (fun t => holdsSlot t.pc)
      = (run K HasSpam sched input).sem ∧
    (run K HasSpam sched input).sem ≤ K := by
  have h := checkSpam_inv_run K HasSpam sched input
  have hle : inFlight (run K HasSpam sched input)
      ≤ (run K HasSpam sched input).tasks.countP (fun t => holdsSlot t.pc) := by
    unfold inFlight
    refine List.countP_mono_left (fun t _ ht => ?_) 
    simp only [decide_eq_true_eq] at ht
    rw [ht]
    rfl
  have hs := h.slots
  have hb := h.bound
  exact ⟨by omega, hle, hs.symm, hb⟩

end CheckSpam

/-! ## Theorems: `CombineResults` as a goroutine -/

namespace CombineStage

theorem combineStage_run_eq_iterate (reader : Bool) (n : Nat) (input : List Value) :
    run reader n input = (step reader)^[n] (init input) := by
  induction n with
  | zero => rfl
  | succ n ih => rw [Function.iterate_succ_apply', ← ih]; rfl

theorem combineStage_receive (reader : Bool) (input : List Value) (messages : List MsgData)
    (out : List Value) :
    ∃ n, (step reader)^[n] ⟨input, messages, Phase.receiving, out⟩
      = ⟨[], SortFunc cmpMsgData (messages ++ input.filterMap asMsgData),
          Phase.sending (SortFunc cmpMsgData (messages ++ input.filterMap asMsgData)), out⟩ := by
  induction input generalizing messages with
  | nil => exact ⟨1, by simp [step]⟩
  | cons v rest ih =>
    cases hv : asMsgData v with
    | none =>
      obtain ⟨n, hn⟩ := ih messages
      refine ⟨n + 1, ?_⟩
      rw [Function.iterate_succ_apply]
      simpa [step, hv] using hn
    | some m =>
      obtain ⟨n, hn⟩ := ih (messages ++ [m])
      refine ⟨n + 1, ?_⟩
      rw [Function.iterate_succ_apply]
      simpa [step, hv] using hn

theorem combineStage_send (l messages : List MsgData) (out : List Value) :
    ∃ n, (step true)^[n] ⟨[], messages, Phase.sending l, out⟩
      = ⟨[], messages, Phase.returned, out ++ l.map (fun m => Value.str (reportLine m))⟩ := by
  induction l generalizing out with
  | nil => exact ⟨1, by simp [step]⟩
  | cons m rest ih =>
    obtain ⟨n, hn⟩ := ih (out ++ [Value.str (reportLine m)])
    refine ⟨n + 1, ?_⟩
    rw [Function.iterate_succ_apply]
    simpa [step] using hn

/-- When its sends are received, the goroutine returns after sending exactly what the
function `CombineResults` computes. -/
theorem combineStage_completes (input : List Value) :
    ∃ n, (run true n input).phase = Phase.returned ∧
      (run true n input).out = CombineResults input := by
  obtain ⟨n1, h1⟩ := combineStage_receive true input [] []
  obtain ⟨n2, h2⟩ := combineStage_send (SortFunc cmpMsgData ([] ++ input.filterMap asMsgData))
    (SortFunc cmpMsgData ([] ++ input.filterMap asMsgData)) []
  refine ⟨n1 + n2, ?_⟩
  rw [combineStage_run_eq_iterate, Nat.add_comm, Function.iterate_add_apply]
  simp only [init]
  rw [h1, h2]
  exact ⟨rfl, rfl⟩

theorem combineStage_returned_fixed (reader : Bool) (s : State)
    (h : s.phase = Phase.returned) : step reader s = s := by
  unfold step
  rw [h]

theorem combineStage_stuck_step (s : State) (h : stuck s) : stuck (step false s) := by
  obtain ⟨input, messages, phase, out⟩ := s
  rcases h with ⟨hp, hne⟩ | ⟨m, rest, hp⟩
  · simp only at hp hne
    subst hp
    cases input with
    | nil =>
      right
      simp only [List.filterMap_nil, List.append_nil] at hne
      have hlen : (SortFunc cmpMsgData messages).length = messages.length :=
        List.length_insertionSort _ _
      cases hs : SortFunc cmpMsgData messages with
      | nil =>
        rw [hs] at hlen
        exact absurd (List.length_eq_zero.1 hlen.symm) hne
      | cons m rest => exact ⟨m, rest, by simp [step, hs]⟩
    | cons v rest =>
      left
      cases hv : asMsgData v with
      | none => simpa [step, hv] using hne
      | some m => simp [step, hv]
  · simp only at hp
    subst hp
    right
    exact ⟨m, rest, by simp [step]⟩

/-- When nobody receives from `out` and at least one record was received, the
goroutine never returns. -/
theorem combineStage_blocked (input : List Value) (hne : receivedMessages input ≠ [])
    (n : Nat) : (run false n input).phase ≠ Phase.returned := by
  have hs : stuck (run false n input) := by
    induction n with
    | zero =>
      refine Or.inl ⟨rfl, ?_⟩
      show [] ++ input.filterMap asMsgData ≠ []
      exact hne
    | succ n ih => exact combineStage_stuck_step _ ih
  rcases hs with ⟨hp, -⟩ | ⟨m, rest, hp⟩ <;> rw [hp] <;> simp

end CombineStage

/-! ## Theorems: `RunPipeline` -/

namespace RunPipeline

theorem wireFrom_made (cmds : List α) (inp : Chan) (m : Nat) :
    (wireFrom cmds inp m).2 = m + cmds.length ∧
    (wireFrom cmds inp m).1.length = cmds.length := by
  induction cmds generalizing inp m with
  | nil => simp [wireFrom]
  | cons c cmds ih =>
    obtain ⟨h1, h2⟩ := ih (Chan.made m) (m + 1)
    refine ⟨?_, ?_⟩
    · simp only [wireFrom, h1, List.length_cons]
      omega
    · simp only [wireFrom, h2, List.length_cons]

theorem wireFrom_getElem (cmds : List α) (inp : Chan) (m i : Nat) (b : Binding α)
    (h : (wireFrom cmds inp m).1[i]? = some b) :
    cmds[i]? = some b.c ∧ b.out = Chan.made (m + i) ∧
    b.inp = (if i = 0 then inp else Chan.made (m + i - 1)) := by
  induction cmds generalizing inp m i with
  | nil => simp [wireFrom] at h
  | cons c cmds ih =>
    cases i with
    | zero =>
      simp only [wireFrom, List.getElem?_cons_zero, Option.some.injEq] at h
      subst h
      simp
    | succ i =>
      simp only [wireFrom, List.getElem?_cons_succ] at h
      obtain ⟨h1, h2, h3⟩ := ih (Chan.made m) (m + 1) i h
      refine ⟨by simpa using h1, by rw [h2]; congr 1; omega, ?_⟩
      rw [h3]
      cases i with
      | zero => simp
      | succ i =>
        simp only [Nat.add_one_ne_zero, if_false]
        congr 1
        omega

/-- Counterexample to C14 as stated: for a single stage function `RunPipeline` creates
one channel, not two, and the stage receives the nil channel as its input. -/
theorem wire_counterexample :
    (wire [()]).2 = 1 ∧ (wire [()]).2 ≠ 1 + 1 ∧
    (wire [()]).1 = [⟨(), Chan.nil, Chan.made 0⟩] := by
  decide

/-- C14, amended: for every list of `n` stage functions `RunPipeline` creates `n`
channels, one per stage, and binds them as a chain: stage `i` sends on the `i`-th
channel created, the first stage receives the nil channel (no queue is created for
its input), every later stage receives the channel its predecessor sends on, and for
`n ≥ 1` no stage receives from the channel of the last stage. -/
theorem wire_chain (cmds : List α) :
    (wire cmds).2 = cmds.length ∧
    (wire cmds).1.length = cmds.length ∧
    (∀ (i : Nat) (b : Binding α), (wire cmds).1[i]? = some b →
      cmds[i]? = some b.c ∧ b.out = Chan.made i ∧
      b.inp = (if i = 0 then Chan.nil else Chan.made (i - 1))) ∧
    (∀ (i : Nat) (b b' : Binding α), (wire cmds).1[i]? = some b →
      (wire cmds).1[i + 1]? = some b' → b'.inp = b.out) ∧
    hasReader (wire cmds).1 (Chan.made (cmds.length - 1)) = false := by
  have hget : ∀ (i : Nat) (b : Binding α), (wire cmds).1[i]? = some b →
      cmds[i]? = some b.c ∧ b.out = Chan.made i ∧
      b.inp = (if i = 0 then Chan.nil else Chan.made (i - 1)) := by
    intro i b h
    have := wireFrom_getElem cmds Chan.nil 0 i b h
    simpa using this
  have hlen : (wire cmds).1.length = cmds.length := (wireFrom_made cmds Chan.nil 0).2
  refine ⟨by simpa using (wireFrom_made cmds Chan.nil 0).1, hlen, hget, ?_, ?_⟩
  · intro i b b' h h'
    rw [(hget i b h).2.1, (hget (i + 1) b' h').2.2]
    simp
  · unfold hasReader
    rw [List.any_eq_false]
    intro b hb
    obtain ⟨i, hi⟩ := List.mem_iff_getElem?.1 hb
    have hlt : i < cmds.length := by
      have := (List.getElem?_eq_some.1 hi).1
      rw [hlen] at this
      exact this
    rw [(hget i b hi).2.2]
    split
    · simp
    · simp only [decide_eq_true_eq, Chan.made.injEq]
      omega

/-- Witness of the amended C14 on three stage functions. -/
theorem wire_chain_witness :
    (wire ["SelectUsers", "SelectMessages", "CheckSpam"]).2 = 3 ∧
    (wire ["SelectUsers", "SelectMessages", "CheckSpam"]).1
      = [⟨"SelectUsers", Chan.nil, Chan.made 0⟩, ⟨"SelectMessages", Chan.made 0, Chan.made 1⟩,
          ⟨"CheckSpam", Chan.made 1, Chan.made 2⟩] ∧
    hasReader (wire ["SelectUsers", "SelectMessages", "CheckSpam"]).1 (Chan.made 2) = false :=
  ⟨(wire_chain ["SelectUsers", "SelectMessages", "CheckSpam"]).1, by decide,
    (wire_chain ["SelectUsers", "SelectMessages", "CheckSpam"]).2.2.2.2⟩

theorem runPipeline_inv_init (n : Nat) : Inv n (init n) := by
  constructor <;> simp [init]

theorem runPipeline_inv_stepMain (n : Nat) (s : State) (h : Inv n s) :
    Inv n (stepMain s) := by
  unfold stepMain
  split
  · exact h
  · rename_i hret
    split
    · rename_i m hm
      refine ⟨?_, ?_, h.closedOnce, ?_, fun hr => by simp [hret] at hr⟩
      · have := h.launched
        simp only [List.length_append, List.length_singleton]
        omega
      · have := h.counter
        simp only [hm] at this
        have e : (s.stages ++ [StagePC.running]).countP (fun pc => decide (pc ≠ StagePC.done))
            = s.stages.countP (fun pc => decide (pc ≠ StagePC.done)) + 1 := by
          rw [List.countP_append]
          rfl
        simp only [e]
        omega
      · intro i
        rw [h.closedBy i]
        constructor
        · rintro ⟨pc, hpc, hc⟩
          refine ⟨pc, ?_, hc⟩
          rw [List.getElem?_append_left (List.getElem?_eq_some.1 hpc).1]
          exact hpc
        · rintro ⟨pc, hpc, hc⟩
          by_cases hi : i < s.stages.length
          · rw [List.getElem?_append_left hi] at hpc
            exact ⟨pc, hpc, hc⟩
          · rw [List.getElem?_append_right (by omega)] at hpc
            cases hk : i - s.stages.length with
            | zero =>
              simp only [hk, List.getElem?_cons_zero, Option.some.injEq] at hpc
              subst hpc
              simp [hasClosed] at hc
            | succ k => simp [hk] at hpc
    · rename_i hm
      split
      · rename_i hwg
        refine ⟨h.launched, h.counter, h.closedOnce, h.closedBy, fun _ => ⟨hm, ?_⟩⟩
        have := h.counter
        rw [hwg, hm] at this
        have hz : s.stages.countP (fun pc => decide (pc ≠ StagePC.done)) = 0 := by omega
        rw [List.countP_eq_zero] at hz
        intro pc hpc
        simpa using hz pc hpc
      · exact h

theorem runPipeline_inv_stepStage (n : Nat) (s : State) (i : Nat) (pc : StagePC)
    (h : Inv n s) (hi : s.stages[i]? = some pc) : Inv n (stepStage i pc s) := by
  obtain ⟨pre, post, hsplit, hlen, hset⟩ := getElem?_split hi
  have hret : pc ≠ .done → s.returned = false := by
    intro hpc
    cases hr : s.returned
    · rfl
    · exact absurd ((h.ret hr).2 pc (by rw [hsplit]; simp)) hpc
  have hcount : ∀ (pc' : StagePC),
      (pre ++ pc' :: post).countP (fun pc => decide (pc ≠ StagePC.done))
        = pre.countP (fun pc => decide (pc ≠ StagePC.done))
          + post.countP (fun pc => decide (pc ≠ StagePC.done))
          + (if pc' = StagePC.done then 0 else 1) := by
    intro pc'
    simp only [List.countP_append, List.countP_cons]
    by_cases hd : pc' = StagePC.done
    · simp [hd]
    · simp [hd]
      omega
  have hcnt := h.counter
  rw [hsplit, hcount] at hcnt
  have hlaunched : ∀ (pc' : StagePC), s.toLaunch + (s.stages.set i pc').length = n := by
    intro pc'
    simpa using h.launched
  have hget : ∀ (pc' : StagePC) (j : Nat),
      (s.stages.set i pc')[j]? = if i = j then some pc' else s.stages[j]? := by
    intro pc' j
    rw [List.getElem?_set]
    by_cases hij : i = j
    · subst hij
      simp [(List.getElem?_eq_some.1 hi).1]
    · simp [hij]
  have hclosedBy : ∀ (pc' : StagePC), hasClosed pc' = hasClosed pc →
      ∀ j, j ∈ s.closes ↔ ∃ q, (s.stages.set i pc')[j]? = some q ∧ hasClosed q = true := by
    intro pc' hpc' j
    rw [h.closedBy j, hget]
    by_cases hij : i = j
    · subst hij
      simp [hi, hpc']
    · simp [hij]
  cases pc with
  | running =>
    have hret := hret (by simp)
    simp only [stepStage]
    refine ⟨hlaunched _, ?_, h.closedOnce, hclosedBy _ rfl, fun hr => by simp [hret] at hr⟩
    simp only [hset, hcount]
    simpa using hcnt
  | returned =>
    have hret := hret (by simp)
    have hnot : i ∉ s.closes := by
      rw [h.closedBy i, hi]
      simp [hasClosed]
    simp only [stepStage]
    refine ⟨hlaunched _, ?_, ?_, ?_, fun hr => by simp [hret] at hr⟩
    · simp only [hset, hcount]
      simpa using hcnt
    · exact List.nodup_append.2 ⟨h.closedOnce, by simp, by simpa using hnot⟩
    · intro j
      rw [hget, List.mem_append, h.closedBy j]
      by_cases hij : i = j
      · subst hij
        simp [hasClosed]
      · simp [hij, Ne.symm hij]
  | closed =>
    have hret := hret (by simp)
    simp only [stepStage]
    refine ⟨hlaunched _, ?_, h.closedOnce, hclosedBy _ rfl, fun hr => by simp [hret] at hr⟩
    simp only [hset, hcount]
    simp only [reduceCtorEq, if_false, if_true] at hcnt ⊢
    omega
  | done =>
    simp only [stepStage]
    exact h

theorem runPipeline_inv_run (n : Nat) (sched : List Nat) : Inv n (run n sched) :=
  runSched_invariant step (Inv n)
    (fun who s h => by
      cases who with
      | zero => exact runPipeline_inv_stepMain n s h
      | succ i =>
        simp only [step]
        cases hi : s.stages[i]? with
        | none => exact h
        | some pc => exact runPipeline_inv_stepStage n s i pc h hi)
    sched _ (runPipeline_inv_init n)

/-- C15: `RunPipeline` is synchronous for its caller: in every execution, when it has
returned, every stage function has been launched and every launched goroutine, the one
of the terminal stage included, has run its stage function to its return, closed its
`out` and called `wg.Done()`. -/
theorem runPipeline_synchronous (n : Nat) (sched : List Nat)
    (hret : (run n sched).returned = true) :
    (run n sched).stages.length = n ∧
    (∀ pc ∈ (run n sched).stages, pc = StagePC.done) ∧
    (∀ pc ∈ (run n sched).stages, stageReturned pc = true) := by
  have h := runPipeline_inv_run n sched
  obtain ⟨h0, hdone⟩ := h.ret hret
  have hl := h.launched
  refine ⟨by omega, hdone, fun pc hpc => ?_⟩
  rw [hdone pc hpc]
  rfl

/-- Witness of C15: two stages whose goroutines interleave before `wg.Wait()`
completes. -/
theorem runPipeline_synchronous_witness :
    (run 2 [0, 0, 0, 2, 1, 2, 0, 1, 1, 2, 0]).returned = true ∧
    (run 2 [0, 0, 0, 2, 1, 2, 0, 1, 1, 2, 0]).stages = [StagePC.done, StagePC.done] ∧
    (run 2 [0, 0, 0, 2, 1, 2, 0, 1, 1, 2]).returned = false ∧
    (∀ pc ∈ (run 2 [0, 0, 0, 2, 1, 2, 0, 1, 1, 2, 0]).stages, stageReturned pc = true) :=
  ⟨by decide, by decide, by decide,
    (runPipeline_synchronous 2 [0, 0, 0, 2, 1, 2, 0, 1, 1, 2, 0] (by decide)).2.2⟩

end RunPipeline

/-! ## Theorems: return, close and quiescence -/

theorem runSched_fixed (step : Nat → σ → σ) (s : σ) (h : ∀ who, step who s = s)
    (sched : List Nat) : runSched step sched s = s := by
  induction sched with
  | nil => rfl
  | cons who sched ih =>
    show runSched step sched (step who s) = s
    rw [h who, ih]

theorem selectUsers_returned_fixed (GetUser : Nat → String → User) (input0 : List Value)
    (s : SelectUsers.State) (h : SelectUsers.Inv GetUser input0 s)
    (hret : s.returned = true) (who : Nat) : SelectUsers.step GetUser who s = s := by
  cases who with
  | zero => simp [SelectUsers.step, SelectUsers.stepMain, hret]
  | succ i =>
    simp only [SelectUsers.step]
    cases ht : s.tasks[i]? with
    | none => rfl
    | some t =>
      have := (h.ret hret).2 t (List.mem_iff_getElem?.2 ⟨i, ht⟩)
      simp [SelectUsers.stepTask, this]

theorem selectMessages_returned_fixed (B : Nat)
    (GetMessages : Nat → List User → Option (List MsgID)) (input0 : List Value)
    (s : SelectMessages.State) (h : SelectMessages.Inv B GetMessages input0 s)
    (hret : s.returned = true) (who : Nat) : SelectMessages.step B GetMessages who s = s := by
  cases who with
  | zero => simp [SelectMessages.step, SelectMessages.stepMain, hret]
  | succ i =>
    simp only [SelectMessages.step]
    cases ht : s.tasks[i]? with
    | none => rfl
    | some t =>
      have := (h.ret hret).2 t (List.mem_iff_getElem?.2 ⟨i, ht⟩)
      simp [SelectMessages.stepTask, this]

theorem checkSpam_returned_fixed (K : Nat) (HasSpam : Nat → MsgID → Option Bool)
    (input0 : List Value) (s : CheckSpam.State) (h : CheckSpam.Inv K HasSpam input0 s)
    (hret : s.returned = true) (who : Nat) : CheckSpam.step K HasSpam who s = s := by
  cases who with
  | zero => simp [CheckSpam.step, CheckSpam.stepMain, hret]
  | succ i =>
    simp only [CheckSpam.step]
    cases ht : s.tasks[i]? with
    | none => rfl
    | some t =>
      have := (h.ret hret).2 t (List.mem_iff_getElem?.2 ⟨i, ht⟩)
      simp [CheckSpam.stepTask, this]

theorem runPipeline_closes_perm (n : Nat) (sched : List Nat)
    (hret : (RunPipeline.run n sched).returned = true) :
    (RunPipeline.run n sched).closes.Perm (List.range n) := by
  have h := RunPipeline.runPipeline_inv_run n sched
  obtain ⟨h0, hdone⟩ := h.ret hret
  have hl := h.launched
  refine (List.perm_ext_iff_of_nodup h.closedOnce (List.nodup_range n)).2 (fun i => ?_)
  rw [h.closedBy i, List.mem_range]
  constructor
  · rintro ⟨pc, hpc, -⟩
    have := (List.getElem?_eq_some.1 hpc).1
    omega
  · intro hi
    have hlt : i < (RunPipeline.run n sched).stages.length := by omega
    refine ⟨(RunPipeline.run n sched).stages[i], List.getElem?_eq_getElem hlt, ?_⟩
    rw [hdone _ (List.getElem_mem hlt)]
    rfl

/-- C16: in every run of `RunPipeline` on `n` stage functions, at every point no
stage's `out` has been closed twice and a closed `out` belongs to a stage whose function
has returned; when `RunPipeline` has returned, every stage's `out` has been closed
exactly once. A stage function returns only after all the goroutines it spawned are
done, and once it has returned no statement of the stage is left to run, so nothing is
sent on `out` after the return, hence after the close. -/
theorem close_once_after_return (n : Nat) (sched : List Nat)
    (GetUser : Nat → String → User) (B : Nat)
    (GetMessages : Nat → List User → Option (List MsgID)) (K : Nat)
    (HasSpam : Nat → MsgID → Option Bool) (input : List Value) (stage more : List Nat) :
    (RunPipeline.run n sched).closes.Nodup ∧
    (∀ i ∈ (RunPipeline.run n sched).closes, ∃ pc,
      (RunPipeline.run n sched).stages[i]? = some pc ∧ RunPipeline.stageReturned pc = true) ∧
    ((RunPipeline.run n sched).returned = true →
      (RunPipeline.run n sched).closes.Perm (List.range n)) ∧
    ((SelectUsers.run GetUser stage input).returned = true →
      (∀ t ∈ (SelectUsers.run GetUser stage input).tasks, t.pc = SelectUsers.PC.done) ∧
      SelectUsers.run GetUser (stage ++ more) input = SelectUsers.run GetUser stage input) ∧
    ((SelectMessages.run B GetMessages stage input).returned = true →
      (∀ t ∈ (SelectMessages.run B GetMessages stage input).tasks,
        t.pc = SelectMessages.PC.done) ∧
      SelectMessages.run B GetMessages (stage ++ more) input
        = SelectMessages.run B GetMessages stage input) ∧
    ((CheckSpam.run K HasSpam stage input).returned = true →
      (∀ t ∈ (CheckSpam.run K HasSpam stage input).tasks, t.pc = CheckSpam.PC.done) ∧
      CheckSpam.run K HasSpam (stage ++ more) input = CheckSpam.run K HasSpam stage input) ∧
    (∀ reader k, (CombineStage.run reader k input).phase = CombineStage.Phase.returned →
      CombineStage.run reader (k + 1) input = CombineStage.run reader k input) := by
  have hd := RunPipeline.runPipeline_inv_run n sched
  refine ⟨hd.closedOnce, ?_, runPipeline_closes_perm n sched, ?_, ?_, ?_, ?_⟩
  · intro i hi
    obtain ⟨pc, hpc, hc⟩ := (hd.closedBy i).1 hi
    refine ⟨pc, hpc, ?_⟩
    cases pc <;> simp_all [RunPipeline.hasClosed, RunPipeline.stageReturned]
  · intro hret
    have h := SelectUsers.selectUsers_inv_run GetUser stage input
    refine ⟨(h.ret hret).2, ?_⟩
    simp only [SelectUsers.run, runSched_append]
    exact runSched_fixed _ _ (selectUsers_returned_fixed GetUser input _ h hret) more
  · intro hret
    have h := SelectMessages.selectMessages_inv_run B GetMessages stage input
    refine ⟨(h.ret hret).2, ?_⟩
    simp only [SelectMessages.run, runSched_append]
    exact runSched_fixed _ _ (selectMessages_returned_fixed B GetMessages input _ h hret) more
  · intro hret
    have h := CheckSpam.checkSpam_inv_run K HasSpam stage input
    refine ⟨(h.ret hret).2, ?_⟩
    simp only [CheckSpam.run, runSched_append]
    exact runSched_fixed _ _ (checkSpam_returned_fixed K HasSpam input _ h hret) more
  · intro reader k hk
    exact CombineStage.combineStage_returned_fixed reader _ hk

set_option maxRecDepth 100000 in
/-- Witness of C16: a run of two stages closes channel 1 and then channel 0, and the
sample run of `SelectUsers` does nothing more once it has returned. -/
theorem close_once_after_return_witness :
    (RunPipeline.run 2 [0, 0, 0, 2, 1, 2, 0, 1, 1, 2, 0]).returned = true ∧
    (RunPipeline.run 2 [0, 0, 0, 2, 1, 2, 0, 1, 1, 2, 0]).closes = [1, 0] ∧
    (SelectUsers.run SelectUsers.sampleGetUser SelectUsers.sampleSched
      SelectUsers.sampleEmails).returned = true ∧
    SelectUsers.run SelectUsers.sampleGetUser (SelectUsers.sampleSched ++ [1, 0, 2])
        SelectUsers.sampleEmails
      = SelectUsers.run SelectUsers.sampleGetUser SelectUsers.sampleSched
        SelectUsers.sampleEmails :=
  ⟨by decide, by decide, by decide,
    ((close_once_after_return 2 [0, 0, 0, 2, 1, 2, 0, 1, 1, 2, 0]
      SelectUsers.sampleGetUser 3 SelectMessages.sampleGetMessages 2 CheckSpam.sampleHasSpam
      SelectUsers.sampleEmails SelectUsers.sampleSched [1, 0, 2]).2.2.2.1 (by decide)).2⟩

/-! ## Theorems: values of the wrong dynamic type -/

theorem sim_forward (step : Nat → σ → σ) (π : σ → σ)
    (h : ∀ who s, π (step who s) = π s ∨ π (step who s) = step who (π s))
    (sched : List Nat) (s : σ) :
    ∃ sched', runSched step sched' (π s) = π (runSched step sched s) := by
  induction sched generalizing s with
  | nil => exact ⟨[], rfl⟩
  | cons who sched ih =>
    obtain ⟨rest, hrest⟩ := ih (step who s)
    rcases h who s with hs | hs
    · exact ⟨rest, by rw [← hs]; exact hrest⟩
    · refine ⟨who :: rest, ?_⟩
      show runSched step rest (step who (π s)) = _
      rw [← hs]
      exact hrest

theorem sim_backward (step : Nat → σ → σ) (π : σ → σ)
    (h : ∀ who s, ∃ pre, π (runSched step pre s) = step who (π s))
    (sched' : List Nat) (s : σ) :
    ∃ sched, π (runSched step sched s) = runSched step sched' (π s) := by
  induction sched' generalizing s with
  | nil => exact ⟨[], rfl⟩
  | cons who sched' ih =>
    obtain ⟨pre, hpre⟩ := h who s
    obtain ⟨rest, hrest⟩ := ih (runSched step pre s)
    refine ⟨pre ++ rest, ?_⟩
    rw [runSched_append, hrest, hpre]
    rfl

theorem selectUsers_dropUntyped_stepTask (GetUser : Nat → String → User) (i : Nat)
    (t : SelectUsers.Task) (s : SelectUsers.State) :
    SelectUsers.dropUntyped (SelectUsers.stepTask GetUser i t s)
      = SelectUsers.stepTask GetUser i t (SelectUsers.dropUntyped s) := by
  obtain ⟨k, email, pc⟩ := t
  cases pc <;> simp only [SelectUsers.stepTask, SelectUsers.setPC, SelectUsers.dropUntyped] <;>
    (try split) <;> rfl

theorem sim_backward_step (step : Nat → σ → σ) (π : σ → σ) (μ : σ → Nat)
    (h : ∀ who s, (π (step who s) = π s ∧ μ (step who s) < μ s) ∨
      π (step who s) = step who (π s))
    (who : Nat) (n : Nat) (s : σ) (hn : μ s ≤ n) :
    ∃ pre, π (runSched step pre s) = step who (π s) := by
  induction n generalizing s with
  | zero =>
    rcases h who s with ⟨-, hlt⟩ | hs
    · omega
    · exact ⟨[who], hs⟩
  | succ n ih =>
    rcases h who s with ⟨hs, hlt⟩ | hs
    · obtain ⟨pre, hpre⟩ := ih (step who s) (by omega)
      exact ⟨who :: pre, by rw [← hs]; exact hpre⟩
    · exact ⟨[who], hs⟩

theorem selectUsers_dropUntyped_forward (GetUser : Nat → String → User) (who : Nat)
    (s : SelectUsers.State) :
    (SelectUsers.dropUntyped (SelectUsers.step GetUser who s) = SelectUsers.dropUntyped s ∧
      (SelectUsers.step GetUser who s).input.length < s.input.length) ∨
    SelectUsers.dropUntyped (SelectUsers.step GetUser who s)
      = SelectUsers.step GetUser who (SelectUsers.dropUntyped s) := by
  cases who with
  | succ i =>
    right
    simp only [SelectUsers.step]
    have : (SelectUsers.dropUntyped s).tasks = s.tasks := rfl
    rw [this]
    cases s.tasks[i]? with
    | none => rfl
    | some t => exact selectUsers_dropUntyped_stepTask GetUser i t s
  | zero =>
    obtain ⟨input, tasks, mu, checkAlias, out, calls, returned⟩ := s
    cases returned with
    | true => right; rfl
    | false =>
      cases input with
      | nil =>
        right
        by_cases hall : (tasks.all fun t => decide (t.pc = SelectUsers.PC.done)) = true <;>
          simp [SelectUsers.step, SelectUsers.stepMain, SelectUsers.dropUntyped, hall]
      | cons v rest =>
        cases hv : asString v with
        | none =>
          left
          simp [SelectUsers.step, SelectUsers.stepMain, SelectUsers.dropUntyped, hv]
        | some e =>
          right
          simp [SelectUsers.step, SelectUsers.stepMain, SelectUsers.dropUntyped, hv]

theorem selectMessages_dropUntyped_stepTask
    (GetMessages : Nat → List User → Option (List MsgID)) (i : Nat)
    (t : SelectMessages.Task) (s : SelectMessages.State) :
    SelectMessages.dropUntyped (SelectMessages.stepTask GetMessages i t s)
      = SelectMessages.stepTask GetMessages i t (SelectMessages.dropUntyped s) := by
  obtain ⟨k, batch, pc⟩ := t
  cases pc with
  | call =>
    simp only [SelectMessages.stepTask]
    cases GetMessages k batch <;> rfl
  | emit rest => cases rest <;> rfl
  | done => rfl

theorem selectMessages_dropUntyped_forward (B : Nat)
    (GetMessages : Nat → List User → Option (List MsgID)) (who : Nat)
    (s : SelectMessages.State) :
    (SelectMessages.dropUntyped (SelectMessages.step B GetMessages who s)
        = SelectMessages.dropUntyped s ∧
      (SelectMessages.step B GetMessages who s).input.length < s.input.length) ∨
    SelectMessages.dropUntyped (SelectMessages.step B GetMessages who s)
      = SelectMessages.step B GetMessages who (SelectMessages.dropUntyped s) := by
  cases who with
  | succ i =>
    right
    simp only [SelectMessages.step]
    have : (SelectMessages.dropUntyped s).tasks = s.tasks := rfl
    rw [this]
    cases s.tasks[i]? with
    | none => rfl
    | some t => exact selectMessages_dropUntyped_stepTask GetMessages i t s
  | zero =>
    obtain ⟨input, users, flushed, tasks, out, calls, returned⟩ := s
    cases returned with
    | true => right; rfl
    | false =>
      cases input with
      | nil =>
        right
        cases flushed with
        | true =>
          by_cases hall :
              (tasks.all fun t => decide (t.pc = SelectMessages.PC.done)) = true <;>
            simp [SelectMessages.step, SelectMessages.stepMain, SelectMessages.dropUntyped,
              hall]
        | false =>
          by_cases hpos : users.length > 0 <;>
            simp [SelectMessages.step, SelectMessages.stepMain, SelectMessages.dropUntyped,
              hpos]
      | cons v rest =>
        cases hv : asUser v with
        | none =>
          left
          simp [SelectMessages.step, SelectMessages.stepMain, SelectMessages.dropUntyped, hv]
        | some u =>
          right
          by_cases hlt : users.length + 1 < B <;>
            simp [SelectMessages.step, SelectMessages.stepMain, SelectMessages.dropUntyped,
              hv, hlt]

theorem checkSpam_dropUntyped_stepTask (K : Nat) (HasSpam : Nat → MsgID → Option Bool)
    (i : Nat) (t : CheckSpam.Task) (s : CheckSpam.State) :
    CheckSpam.dropUntyped (CheckSpam.stepTask K HasSpam i t s)
      = CheckSpam.stepTask K HasSpam i t (CheckSpam.dropUntyped s) := by
  obtain ⟨k, msgID, pc⟩ := t
  cases pc with
  | acquire =>
    simp only [CheckSpam.stepTask]
    have : (CheckSpam.dropUntyped s).sem = s.sem := rfl
    rw [this]
    split <;> rfl
  | call =>
    simp only [CheckSpam.stepTask]
    cases HasSpam k msgID <;> rfl
  | _ => rfl

theorem checkSpam_dropUntyped_forward (K : Nat) (HasSpam : Nat → MsgID → Option Bool)
    (who : Nat) (s : CheckSpam.State) :
    (CheckSpam.dropUntyped (CheckSpam.step K HasSpam who s) = CheckSpam.dropUntyped s ∧
      (CheckSpam.step K HasSpam who s).input.length < s.input.length) ∨
    CheckSpam.dropUntyped (CheckSpam.step K HasSpam who s)
      = CheckSpam.step K HasSpam who (CheckSpam.dropUntyped s) := by
  cases who with
  | succ i =>
    right
    simp only [CheckSpam.step]
    have : (CheckSpam.dropUntyped s).tasks = s.tasks := rfl
    rw [this]
    cases s.tasks[i]? with
    | none => rfl
    | some t => exact checkSpam_dropUntyped_stepTask K HasSpam i t s
  | zero =>
    obtain ⟨input, tasks, sem, out, calls, returned⟩ := s
    cases returned with
    | true => right; rfl
    | false =>
      cases input with
      | nil =>
        right
        by_cases hall : (tasks.all fun t => decide (t.pc = CheckSpam.PC.done)) = true <;>
          simp [CheckSpam.step, CheckSpam.stepMain, CheckSpam.dropUntyped, hall]
      | cons v rest =>
        cases hv : asMsgID v with
        | none =>
          left
          simp [CheckSpam.step, CheckSpam.stepMain, CheckSpam.dropUntyped, hv]
        | some e =>
          right
          simp [CheckSpam.step, CheckSpam.stepMain, CheckSpam.dropUntyped, hv]

theorem combineResults_filter (input : List Value) :
    CombineResults (input.filter (fun v => (asMsgData v).isSome)) = CombineResults input := by
  have : (input.filter (fun v => (asMsgData v).isSome)).filterMap asMsgData
      = input.filterMap asMsgData := by
    induction input with
    | nil => rfl
    | cons v rest ih =>
      cases hv : asMsgData v <;> simp [List.filter_cons, List.filterMap_cons, hv, ih]
  simp only [CombineResults, sortedMessages, receivedMessages, this]

theorem selectUsers_untyped_equiv (GetUser : Nat → String → User) (input : List Value) :
    (∀ sched, ∃ sched', SelectUsers.run GetUser sched'
        (input.filter (fun v => (asString v).isSome))
      = SelectUsers.dropUntyped (SelectUsers.run GetUser sched input)) ∧
    (∀ sched', ∃ sched, SelectUsers.dropUntyped (SelectUsers.run GetUser sched input)
      = SelectUsers.run GetUser sched' (input.filter (fun v => (asString v).isSome))) := by
  refine ⟨fun sched => ?_, fun sched' => ?_⟩
  · exact sim_forward (SelectUsers.step GetUser) SelectUsers.dropUntyped
      (fun who s => (selectUsers_dropUntyped_forward GetUser who s).imp (fun h => h.1) id)
      sched (SelectUsers.init input)
  · exact sim_backward (SelectUsers.step GetUser) SelectUsers.dropUntyped
      (fun who s => sim_backward_step (SelectUsers.step GetUser) SelectUsers.dropUntyped
        (fun s => s.input.length) (selectUsers_dropUntyped_forward GetUser) who _ s le_rfl)
      sched' (SelectUsers.init input)

theorem selectMessages_untyped_equiv (B : Nat)
    (GetMessages : Nat → List User → Option (List MsgID)) (input : List Value) :
    (∀ sched, ∃ sched', SelectMessages.run B GetMessages sched'
        (input.filter (fun v => (asUser v).isSome))
      = SelectMessages.dropUntyped (SelectMessages.run B GetMessages sched input)) ∧
    (∀ sched', ∃ sched,
      SelectMessages.dropUntyped (SelectMessages.run B GetMessages sched input)
      = SelectMessages.run B GetMessages sched' (input.filter (fun v => (asUser v).isSome))) := by
  refine ⟨fun sched => ?_, fun sched' => ?_⟩
  · exact sim_forward (SelectMessages.step B GetMessages) SelectMessages.dropUntyped
      (fun who s =>
        (selectMessages_dropUntyped_forward B GetMessages who s).imp (fun h => h.1) id)
      sched (SelectMessages.init input)
  · exact sim_backward (SelectMessages.step B GetMessages) SelectMessages.dropUntyped
      (fun who s => sim_backward_step (SelectMessages.step B GetMessages)
        SelectMessages.dropUntyped (fun s => s.input.length)
        (selectMessages_dropUntyped_forward B GetMessages) who _ s le_rfl)
      sched' (SelectMessages.init input)

theorem checkSpam_untyped_equiv (K : Nat) (HasSpam : Nat → MsgID → Option Bool)
    (input : List Value) :
    (∀ sched, ∃ sched', CheckSpam.run K HasSpam sched'
        (input.filter (fun v => (asMsgID v).isSome))
      = CheckSpam.dropUntyped (CheckSpam.run K HasSpam sched input)) ∧
    (∀ sched', ∃ sched, CheckSpam.dropUntyped (CheckSpam.run K HasSpam sched input)
      = CheckSpam.run K HasSpam sched' (input.filter (fun v => (asMsgID v).isSome))) := by
  refine ⟨fun sched => ?_, fun sched' => ?_⟩
  · exact sim_forward (CheckSpam.step K HasSpam) CheckSpam.dropUntyped
      (fun who s => (checkSpam_dropUntyped_forward K HasSpam who s).imp (fun h => h.1) id)
      sched (CheckSpam.init input)
  · exact sim_backward (CheckSpam.step K HasSpam) CheckSpam.dropUntyped
      (fun who s => sim_backward_step (CheckSpam.step K HasSpam) CheckSpam.dropUntyped
        (fun s => s.input.length) (checkSpam_dropUntyped_forward K HasSpam) who _ s le_rfl)
      sched' (CheckSpam.init input)

/-- C13: in each of the four stages a received value whose dynamic type is not the one
the stage asserts is skipped, nothing is emitted for it and the stage goes on. For
`SelectUsers`, `SelectMessages` and `CheckSpam` every run on an input sequence is
matched by a run on the subsequence of correctly typed values, and conversely, with
the same values sent on `out`, the same external calls and the same return status;
`CombineResults` computes the same report on both. -/
theorem wrong_type_skipped (GetUser : Nat → String → User) (B : Nat)
    (GetMessages : Nat → List User → Option (List MsgID)) (K : Nat)
    (HasSpam : Nat → MsgID → Option Bool) (input : List Value) :
    ((∀ sched, ∃ sched',
        (SelectUsers.run GetUser sched' (input.filter (fun v => (asString v).isSome))).out
          = (SelectUsers.run GetUser sched input).out ∧
        (SelectUsers.run GetUser sched' (input.filter (fun v => (asString v).isSome))).calls
          = (SelectUsers.run GetUser sched input).calls ∧
        (SelectUsers.run GetUser sched' (input.filter (fun v => (asString v).isSome))).returned
          = (SelectUsers.run GetUser sched input).returned) ∧
      (∀ sched', ∃ sched,
        (SelectUsers.run GetUser sched input).out
          = (SelectUsers.run GetUser sched' (input.filter (fun v => (asString v).isSome))).out ∧
        (SelectUsers.run GetUser sched input).calls
          = (SelectUsers.run GetUser sched'
              (input.filter (fun v => (asString v).isSome))).calls ∧
        (SelectUsers.run GetUser sched input).returned
          = (SelectUsers.run GetUser sched'
              (input.filter (fun v => (asString v).isSome))).returned)) ∧
    ((∀ sched, ∃ sched',
        (SelectMessages.run B GetMessages sched'
            (input.filter (fun v => (asUser v).isSome))).out
          = (SelectMessages.run B GetMessages sched input).out ∧
        (SelectMessages.run B GetMessages sched'
            (input.filter (fun v => (asUser v).isSome))).calls
          = (SelectMessages.run B GetMessages sched input).calls ∧
        (SelectMessages.run B GetMessages sched'
            (input.filter (fun v => (asUser v).isSome))).returned
          = (SelectMessages.run B GetMessages sched input).returned) ∧
      (∀ sched', ∃ sched,
        (SelectMessages.run B GetMessages sched input).out
          = (SelectMessages.run B GetMessages sched'
              (input.filter (fun v => (asUser v).isSome))).out ∧
        (SelectMessages.run B GetMessages sched input).calls
          = (SelectMessages.run B GetMessages sched'
              (input.filter (fun v => (asUser v).isSome))).calls ∧
        (SelectMessages.run B GetMessages sched input).returned
          = (SelectMessages.run B GetMessages sched'
              (input.filter (fun v => (asUser v).isSome))).returned)) ∧
    ((∀ sched, ∃ sched',
        (CheckSpam.run K HasSpam sched' (input.filter (fun v => (asMsgID v).isSome))).out
          = (CheckSpam.run K HasSpam sched input).out ∧
        (CheckSpam.run K HasSpam sched' (input.filter (fun v => (asMsgID v).isSome))).calls
          = (CheckSpam.run K HasSpam sched input).calls ∧
        (CheckSpam.run K HasSpam sched' (input.filter (fun v => (asMsgID v).isSome))).returned
          = (CheckSpam.run K HasSpam sched input).returned) ∧
      (∀ sched', ∃ sched,
        (CheckSpam.run K HasSpam sched input).out
          = (CheckSpam.run K HasSpam sched' (input.filter (fun v => (asMsgID v).isSome))).out ∧
        (CheckSpam.run K HasSpam sched input).calls
          = (CheckSpam.run K HasSpam sched'
              (input.filter (fun v => (asMsgID v).isSome))).calls ∧
        (CheckSpam.run K HasSpam sched input).returned
          = (CheckSpam.run K HasSpam sched'
              (input.filter (fun v => (asMsgID v).isSome))).returned)) ∧
    CombineResults (input.filter (fun v => (asMsgData v).isSome)) = CombineResults input := by
  obtain ⟨hu1, hu2⟩ := selectUsers_untyped_equiv GetUser input
  obtain ⟨hm1, hm2⟩ := selectMessages_untyped_equiv B GetMessages input
  obtain ⟨hs1, hs2⟩ := checkSpam_untyped_equiv K HasSpam input
  refine ⟨⟨fun sched => ?_, fun sched' => ?_⟩, ⟨fun sched => ?_, fun sched' => ?_⟩,
    ⟨fun sched => ?_, fun sched' => ?_⟩, combineResults_filter input⟩
  · obtain ⟨sched', h⟩ := hu1 sched
    exact ⟨sched', by rw [h]; exact ⟨rfl, rfl, rfl⟩⟩
  · obtain ⟨sched, h⟩ := hu2 sched'
    exact ⟨sched, by rw [← h]; exact ⟨rfl, rfl, rfl⟩⟩
  · obtain ⟨sched', h⟩ := hm1 sched
    exact ⟨sched', by rw [h]; exact ⟨rfl, rfl, rfl⟩⟩
  · obtain ⟨sched, h⟩ := hm2 sched'
    exact ⟨sched, by rw [← h]; exact ⟨rfl, rfl, rfl⟩⟩
  · obtain ⟨sched', h⟩ := hs1 sched
    exact ⟨sched', by rw [h]; exact ⟨rfl, rfl, rfl⟩⟩
  · obtain ⟨sched, h⟩ := hs2 sched'
    exact ⟨sched, by rw [← h]; exact ⟨rfl, rfl, rfl⟩⟩

/-! ## Theorems: the composed stages -/

theorem receivedMessages_eq (out : List Value) :
    receivedMessages out = out.filterMap asMsgData := rfl

theorem classified_three_length (HasSpam : Nat → MsgID → Option Bool) (a b c : MsgID)
    (hfail : [HasSpam 0 a, HasSpam 1 b, HasSpam 2 c].countP (fun o => o.isNone) = 1) :
    (CheckSpam.classified HasSpam [.msgID a, .msgID b, .msgID c]).length = 2 := by
  simp only [CheckSpam.classified, List.filterMap_cons, asMsgID, List.filterMap_nil, List.enum,
    List.enumFrom_cons, List.enumFrom_nil, List.map_cons, List.map_nil, List.flatten_cons,
    List.flatten_nil, CheckSpam.verdict]
  cases h0 : HasSpam 0 a <;> cases h1 : HasSpam 1 b <;> cases h2 : HasSpam 2 c <;>
    simp [h0, h1, h2, List.countP_cons] at hfail ⊢

/-- C9: three message ids of which the classifier fails on exactly one: under every
interleaving, once `CheckSpam` has returned, `CombineResults` on what it emitted
produces a report of exactly two lines, the lines of the two successfully classified
ids, in sorted order (spam first, then ascending id); with a semaphore of capacity at
least one every partial run can be continued until `CheckSpam` returns. The outcome of
the call for the `i`-th received id is `HasSpam i id`. -/
theorem failure_isolation (K : Nat) (HasSpam : Nat → MsgID → Option Bool) (a b c : MsgID)
    (sched : List Nat)
    (hfail : [HasSpam 0 a, HasSpam 1 b, HasSpam 2 c].countP (fun o => o.isNone) = 1) :
    (1 ≤ K → ∃ more, (CheckSpam.run K HasSpam (sched ++ more)
        [.msgID a, .msgID b, .msgID c]).returned = true) ∧
    ((CheckSpam.run K HasSpam sched [.msgID a, .msgID b, .msgID c]).returned = true →
      ∃ x y : MsgData,
        CombineResults (CheckSpam.run K HasSpam sched [.msgID a, .msgID b, .msgID c]).out
          = [Value.str (reportLine x), Value.str (reportLine y)] ∧
        [x, y].Perm ([(0, a), (1, b), (2, c)].filterMap
          (fun p => (HasSpam p.1 p.2).map (fun r => (⟨p.2, r⟩ : MsgData)))) ∧
        ((x.HasSpam = true ∧ y.HasSpam = false) ∨ (x.HasSpam = y.HasSpam ∧ x.ID ≤ y.ID))) := by
  refine ⟨fun hK => CheckSpam.checkSpam_can_return K HasSpam _ hK sched, fun hret => ?_⟩
  obtain ⟨-, hperm, -⟩ := CheckSpam.checkSpam_final K HasSpam _ _
    (CheckSpam.checkSpam_inv_run K HasSpam sched [.msgID a, .msgID b, .msgID c]) hret
  have hsorted := sortedMessages_perm
    (CheckSpam.run K HasSpam sched [.msgID a, .msgID b, .msgID c]).out
  rw [receivedMessages_eq] at hsorted
  have hboth := hsorted.trans hperm
  have hlen := hboth.length_eq
  rw [classified_three_length HasSpam a b c hfail] at hlen
  have hpw := sortedMessages_pairwise
    (CheckSpam.run K HasSpam sched [.msgID a, .msgID b, .msgID c]).out
  have hcl := CheckSpam.classified_eq_filterMap HasSpam [.msgID a, .msgID b, .msgID c]
  simp only [List.filterMap_cons, asMsgID, List.filterMap_nil, List.enum, List.enumFrom_cons,
    List.enumFrom_nil] at hcl
  unfold CombineResults
  generalize sortedMessages (CheckSpam.run K HasSpam sched [.msgID a, .msgID b, .msgID c]).out
    = l at hboth hlen hpw
  match l, hlen with
  | [x, y], _ =>
    refine ⟨x, y, rfl, ?_, ?_⟩
    · rw [hcl] at hboth
      simpa using hboth
    · exact List.rel_of_pairwise_cons hpw (List.mem_singleton_self y)

set_option maxRecDepth 100000 in
/-- Witness of C9: ids 10, 12 and 11, the classification of 12 fails. -/
theorem failure_isolation_witness :
    1 ≤ 2 ∧
    [CheckSpam.sampleHasSpam 0 10, CheckSpam.sampleHasSpam 1 12,
      CheckSpam.sampleHasSpam 2 11].countP (fun o => o.isNone) = 1 ∧
    (CheckSpam.run 2 CheckSpam.sampleHasSpam CheckSpam.sampleSched
      [.msgID 10, .msgID 12, .msgID 11]).returned = true ∧
    CombineResults (CheckSpam.run 2 CheckSpam.sampleHasSpam CheckSpam.sampleSched
      [.msgID 10, .msgID 12, .msgID 11]).out = [Value.str "true 11", Value.str "false 10"] ∧
    (∃ x y : MsgData,
        CombineResults (CheckSpam.run 2 CheckSpam.sampleHasSpam CheckSpam.sampleSched
          [.msgID 10, .msgID 12, .msgID 11]).out
          = [Value.str (reportLine x), Value.str (reportLine y)] ∧
        [x, y].Perm ([(0, 10), (1, 12), (2, 11)].filterMap
          (fun p => (CheckSpam.sampleHasSpam p.1 p.2).map (fun r => (⟨p.2, r⟩ : MsgData)))) ∧
        ((x.HasSpam = true ∧ y.HasSpam = false) ∨ (x.HasSpam = y.HasSpam ∧ x.ID ≤ y.ID))) :=
  ⟨by decide, by decide, by decide, by decide,
    (failure_isolation 2 CheckSpam.sampleHasSpam 10 12 11 CheckSpam.sampleSched
      (by decide)).2 (by decide)⟩

theorem classified_length_of_success (HasSpam : Nat → MsgID → Option Bool)
    (hS : ∀ k m, (HasSpam k m).isSome = true) (input : List Value) :
    (CheckSpam.classified HasSpam input).length = (input.filterMap asMsgID).length := by
  rw [CheckSpam.classified_eq_filterMap, ← List.enum_length (l := input.filterMap asMsgID)]
  generalize (input.filterMap asMsgID).enum = l
  induction l with
  | nil => rfl
  | cons p l ih =>
    obtain ⟨r, hr⟩ := Option.isSome_iff_exists.1 (hS p.1 p.2)
    simp [List.filterMap_cons, hr, ih]

theorem pipeline_can_complete (sv : Services) (B K : Nat) (hK : 1 ≤ K) (emails : List Value) :
    ∃ sc, Pipeline.completed sv B K sc emails = true := by
  obtain ⟨m1, h1⟩ := SelectUsers.selectUsers_can_return sv.GetUser emails []
  obtain ⟨m2, h2⟩ := SelectMessages.selectMessages_can_return B sv.GetMessages
    (SelectUsers.run sv.GetUser m1 emails).out []
  obtain ⟨m3, h3⟩ := CheckSpam.checkSpam_can_return K sv.HasSpam
    (SelectMessages.run B sv.GetMessages m2 (SelectUsers.run sv.GetUser m1 emails).out).out
    hK []
  simp only [List.nil_append] at h1 h2 h3
  exact ⟨⟨m1, m2, m3⟩, by
    simp [Pipeline.completed, Pipeline.usersState, Pipeline.msgsState, Pipeline.spamState,
      h1, h2, h3]⟩

theorem pipeline_report_length_eq (sv : Services) (B K : Nat) (emails : List Value)
    (sc : Schedules) (hS : ∀ k m, (sv.HasSpam k m).isSome = true)
    (hdone : Pipeline.completed sv B K sc emails = true) :
    (Pipeline.report sv B K sc emails).length = (Pipeline.bulkIds sv B sc emails).length := by
  simp only [Pipeline.completed, Bool.and_eq_true] at hdone
  obtain ⟨⟨-, h2⟩, h3⟩ := hdone
  obtain ⟨-, hids, -⟩ := SelectMessages.selectMessages_final_ids B sv.GetMessages _ _
    (SelectMessages.selectMessages_inv_run B sv.GetMessages sc.msgs
      (Pipeline.usersState sv sc emails).out) h2
  obtain ⟨-, hrecs, -⟩ := CheckSpam.checkSpam_final K sv.HasSpam _ _
    (CheckSpam.checkSpam_inv_run K sv.HasSpam sc.spam (Pipeline.msgsState sv B sc emails).out)
    h3
  have hlen : (Pipeline.report sv B K sc emails).length
      = ((Pipeline.spamState sv B K sc emails).out.filterMap asMsgData).length := by
    simp [Pipeline.report, CombineResults, (sortedMessages_perm _).length_eq,
      receivedMessages_eq]
  rw [hlen, Pipeline.bulkIds]
  have := hrecs.length_eq
  rw [classified_length_of_success sv.HasSpam hS] at this
  exact this.trans hids.length_eq

set_option maxRecDepth 100000 in
/-- Counterexample to C10 as stated: every call succeeds, the one bulk lookup returns
message 7 twice, and the report has two lines although one distinct id was returned. -/
theorem report_length_distinct_counterexample :
    Pipeline.completed Pipeline.dupServices 2 1 Pipeline.dupSchedules [.str "a@x"] = true ∧
    (∀ k b, (Pipeline.dupServices.GetMessages k b).isSome = true) ∧
    (∀ k m, (Pipeline.dupServices.HasSpam k m).isSome = true) ∧
    Pipeline.bulkIds Pipeline.dupServices 2 Pipeline.dupSchedules [.str "a@x"] = [7, 7] ∧
    Pipeline.report Pipeline.dupServices 2 1 Pipeline.dupSchedules [.str "a@x"]
      = [Value.str "false 7", Value.str "false 7"] ∧
    (Pipeline.report Pipeline.dupServices 2 1 Pipeline.dupSchedules [.str "a@x"]).length
      ≠ (Pipeline.bulkIds Pipeline.dupServices 2 Pipeline.dupSchedules
          [.str "a@x"]).dedup.length :=
  ⟨by decide, fun _ _ => rfl, fun _ _ => rfl, by decide, by decide, by decide⟩

/-- C10, amended: on every input on which every external call succeeds, and for every
interleaving in which the three concurrent stages return, the number of report lines
equals the number of message ids returned by all the bulk lookups, counted with
multiplicity; it is the number of distinct ids whenever no id is returned twice. With
a semaphore of capacity at least one such an interleaving exists. -/
theorem report_length_total (sv : Services) (B K : Nat) (emails : List Value)
    (_hM : ∀ k b, (sv.GetMessages k b).isSome = true)
    (hS : ∀ k m, (sv.HasSpam k m).isSome = true) :
    (1 ≤ K → ∃ sc, Pipeline.completed sv B K sc emails = true) ∧
    ∀ sc, Pipeline.completed sv B K sc emails = true →
      (Pipeline.report sv B K sc emails).length = (Pipeline.bulkIds sv B sc emails).length ∧
      ((Pipeline.bulkIds sv B sc emails).Nodup →
        (Pipeline.report sv B K sc emails).length
          = (Pipeline.bulkIds sv B sc emails).dedup.length) := by
  refine ⟨fun hK => pipeline_can_complete sv B K hK emails, fun sc hdone => ?_⟩
  have h := pipeline_report_length_eq sv B K emails sc hS hdone
  exact ⟨h, fun hnd => by rw [hnd.dedup]; exact h⟩

set_option maxRecDepth 100000 in
/-- Witness of the amended C10 on the run with the repeated id. -/
theorem report_length_total_witness :
    1 ≤ 1 ∧ (∀ k b, (Pipeline.dupServices.GetMessages k b).isSome = true) ∧
    (∀ k m, (Pipeline.dupServices.HasSpam k m).isSome = true) ∧
    Pipeline.completed Pipeline.dupServices 2 1 Pipeline.dupSchedules [.str "a@x"] = true ∧
    (Pipeline.report Pipeline.dupServices 2 1 Pipeline.dupSchedules [.str "a@x"]).length
      = (Pipeline.bulkIds Pipeline.dupServices 2 Pipeline.dupSchedules [.str "a@x"]).length :=
  ⟨by decide, fun _ _ => rfl, fun _ _ => rfl, by decide,
    ((report_length_total Pipeline.dupServices 2 1 [.str "a@x"]
      (fun _ _ => rfl) (fun _ _ => rfl)).2 Pipeline.dupSchedules (by decide)).1⟩

/-! ## Theorems: the end-to-end example -/

theorem users_perm_pair (us : List User) (U1 U2 : User) (hU : U1.ID ≠ U2.ID)
    (hnd : (us.map User.ID).Nodup)
    (hids : ∀ id, id ∈ us.map User.ID ↔ id ∈ [U1, U2, U1].map User.ID)
    (hsub : ∀ u ∈ us, u ∈ [U1, U2, U1]) : us.Perm [U1, U2] := by
  have hne : U1 ≠ U2 := fun h => hU (by rw [h])
  have hmem : ∀ u ∈ us, u = U1 ∨ u = U2 := by
    intro u hu
    have := hsub u hu
    simp only [List.mem_cons, List.mem_singleton, List.not_mem_nil, or_false] at this
    tauto
  have hback : ∀ (V W : User), V.ID ≠ W.ID → (V = U1 ∧ W = U2 ∨ V = U2 ∧ W = U1) →
      V ∈ us := by
    intro V W hVW hcase
    have hin : V.ID ∈ [U1, U2, U1].map User.ID := by
      rcases hcase with ⟨rfl, -⟩ | ⟨rfl, -⟩ <;> simp
    obtain ⟨u', hu', hid⟩ := List.mem_map.1 ((hids V.ID).2 hin)
    have hu'' := hmem u' hu'
    rcases hcase with ⟨rfl, rfl⟩ | ⟨rfl, rfl⟩
    · rcases hu'' with rfl | rfl
      · exact hu'
      · exact absurd hid.symm hVW
    · rcases hu'' with rfl | rfl
      · exact absurd hid.symm hVW
      · exact hu'
  refine (List.perm_ext_iff_of_nodup (List.Nodup.of_map _ hnd) (by simp [hne])).2 (fun u => ?_)
  simp only [List.mem_cons, List.mem_singleton, List.not_mem_nil, or_false]
  constructor
  · exact hmem u
  · rintro (rfl | rfl)
    · exact hback _ _ hU (Or.inl ⟨rfl, rfl⟩)
    · exact hback _ _ (Ne.symm hU) (Or.inr ⟨rfl, rfl⟩)

theorem bulk_flatten_perm (GetMessages : Nat → List User → Option (List MsgID))
    (f : User → List MsgID) (P : User → Prop)
    (hM : ∀ k batch, (∀ u ∈ batch, P u) →
      ∃ ids, GetMessages k batch = some ids ∧ ids.Perm (batch.flatMap f))
    (l : List (Nat × List User)) (hl : ∀ c ∈ l, ∀ u ∈ c.2, P u) :
    ((l.filterMap (fun c => GetMessages c.1 c.2)).flatten).Perm
      ((l.map (fun c => c.2)).flatten.flatMap f) := by
  induction l with
  | nil => simp
  | cons c l ih =>
    obtain ⟨ids, hids, hperm⟩ := hM c.1 c.2 (hl c (by simp))
    simp only [List.filterMap_cons, hids, List.flatten_cons, List.map_cons,
      List.flatMap_append]
    exact hperm.append (ih (fun c' hc' => hl c' (List.mem_cons_of_mem _ hc')))

theorem verdicts_of_example (HasSpam : Nat → MsgID → Option Bool)
    (h10 : ∀ k, HasSpam k 10 = some false) (h11 : ∀ k, HasSpam k 11 = some true)
    (h12 : ∀ k, HasSpam k 12 = some false) (l : List (Nat × MsgID))
    (hl : ∀ p ∈ l, p.2 = 10 ∨ p.2 = 11 ∨ p.2 = 12) :
    (l.map (fun p => CheckSpam.verdict HasSpam p.1 p.2)).flatten
      = (l.map Prod.snd).map (fun m => (⟨m, decide (m = 11)⟩ : MsgData)) := by
  induction l with
  | nil => rfl
  | cons p l ih =>
    obtain ⟨k, m⟩ := p
    have := hl (k, m) (by simp)
    simp only [List.map_cons, List.flatten_cons,
      ih (fun p' hp' => hl p' (List.mem_cons_of_mem _ hp'))]
    rcases this with h | h | h <;> simp only at h <;> subst h <;>
      simp [CheckSpam.verdict, h10, h11, h12]

theorem example_report (out : List Value)
    (h : (out.filterMap asMsgData).Perm
      ([10, 11, 12].map (fun m => (⟨m, decide (m = 11)⟩ : MsgData)))) :
    CombineResults out = [Value.str "true 11", Value.str "false 10", Value.str "false 12"] := by
  have := combineResults_congr out
    [.msgData ⟨10, false⟩, .msgData ⟨11, true⟩, .msgData ⟨12, false⟩] h
  rw [this]
  decide

theorem example_users (GetUser : Nat → String → User) (U1 U2 : User) (hU : U1.ID ≠ U2.ID)
    (ha : ∀ k, GetUser k "a@x" = U1) (hb : ∀ k, GetUser k "b@x" = U2) (sched : List Nat)
    (hret : (SelectUsers.run GetUser sched [.str "a@x", .str "b@x", .str "a@x"]).returned
      = true) :
    ((SelectUsers.run GetUser sched [.str "a@x", .str "b@x", .str "a@x"]).out.filterMap
      asUser).Perm [U1, U2] := by
  have hinv := SelectUsers.selectUsers_inv_run GetUser sched
    [.str "a@x", .str "b@x", .str "a@x"]
  obtain ⟨-, hids, hsub⟩ := SelectUsers.selectUsers_final _ _ _ hinv hret
  have hnd := SelectUsers.selectUsers_out_nodup _ _ _ hinv
  have hres : SelectUsers.resolved GetUser [.str "a@x", .str "b@x", .str "a@x"]
      = [U1, U2, U1] := by
    simp [SelectUsers.resolved, asString, List.enum, List.enumFrom, ha, hb]
  rw [hres] at hids hsub
  exact users_perm_pair _ U1 U2 hU hnd hids hsub

theorem example_messages (B : Nat) (GetMessages : Nat → List User → Option (List MsgID))
    (U1 U2 : User) (hne : U2 ≠ U1)
    (hM : ∀ k batch, (∀ u ∈ batch, u = U1 ∨ u = U2) →
      ∃ ids, GetMessages k batch = some ids ∧
        ids.Perm (batch.flatMap (fun u => if u = U1 then [10, 11] else [12])))
    (input : List Value) (hus : (input.filterMap asUser).Perm [U1, U2]) (sched : List Nat)
    (hret : (SelectMessages.run B GetMessages sched input).returned = true) :
    ((SelectMessages.run B GetMessages sched input).out.filterMap asMsgID).Perm
      [10, 11, 12] := by
  have hinv := SelectMessages.selectMessages_inv_run B GetMessages sched input
  obtain ⟨-, hperm, hcalls⟩ := SelectMessages.selectMessages_final_ids _ _ _ _ hinv hret
  obtain ⟨hfl, -⟩ := hinv.ret hret
  have hba := hinv.batches
  have hin := (hinv.drained hfl).1
  generalize SelectMessages.run B GetMessages sched input = s at *
  simp only [hin, hfl, if_true, List.filterMap_nil, List.append_nil] at hba
  have hsnd : (s.calls.map (fun c => c.2)).Perm (s.tasks.map (fun t => t.batch)) := by
    have := hcalls.map (fun c => c.2)
    simpa [List.map_map, Function.comp_def] using this
  have hflat := hsnd.flatten
  rw [hba] at hflat
  have hP : ∀ c ∈ s.calls, ∀ u ∈ c.2, u = U1 ∨ u = U2 := by
    intro c hc u hu
    have hmem : u ∈ (s.calls.map (fun c => c.2)).flatten :=
      List.mem_flatten.2 ⟨c.2, List.mem_map_of_mem _ hc, hu⟩
    have := hus.mem_iff.1 (hflat.mem_iff.1 hmem)
    simpa using this
  have hbulk := bulk_flatten_perm GetMessages
    (fun u => if u = U1 then [10, 11] else [12]) (fun u => u = U1 ∨ u = U2) hM _ hP
  refine (hperm.trans hbulk).trans ?_
  refine ((hflat.trans hus).flatMap_right _).trans ?_
  simp [hne]

theorem example_verdicts (K : Nat) (HasSpam : Nat → MsgID → Option Bool)
    (h10 : ∀ k, HasSpam k 10 = some false) (h11 : ∀ k, HasSpam k 11 = some true)
    (h12 : ∀ k, HasSpam k 12 = some false)
    (input : List Value) (hids : (input.filterMap asMsgID).Perm [10, 11, 12])
    (sched : List Nat) (hret : (CheckSpam.run K HasSpam sched input).returned = true) :
    ((CheckSpam.run K HasSpam sched input).out.filterMap asMsgData).Perm
      ([10, 11, 12].map (fun m => (⟨m, decide (m = 11)⟩ : MsgData))) := by
  have hinv := CheckSpam.checkSpam_inv_run K HasSpam sched input
  obtain ⟨-, hperm, -⟩ := CheckSpam.checkSpam_final _ _ _ _ hinv hret
  have hcl : CheckSpam.classified HasSpam input
      = (input.filterMap asMsgID).map (fun m => (⟨m, decide (m = 11)⟩ : MsgData)) := by
    unfold CheckSpam.classified
    rw [verdicts_of_example HasSpam h10 h11 h12, List.enum_map_snd]
    intro p hp
    have hm : p.2 ∈ input.filterMap asMsgID := by
      rw [← List.enum_map_snd (input.filterMap asMsgID)]
      exact List.mem_map_of_mem _ hp
    simpa using hids.mem_iff.1 hm
  rw [hcl] at hperm
  exact hperm.trans (hids.map _)

/-- C11: the end-to-end example. The e-mails `a@x`, `b@x`, `a@x` are received, `a@x`
resolves to user `U1` and `b@x` to a different user `U2`, every bulk lookup on a batch
of these users returns ids 10 and 11 for `U1` and 12 for `U2`, and the classifier
answers `true` for 11 and `false` for 10 and 12. Then for every batch size, every
semaphore capacity and every interleaving in which the three concurrent stages return,
the report is `true 11`, `false 10`, `false 12`; with a semaphore of capacity at least
one such an interleaving exists. -/
theorem end_to_end_example (sv : Services) (B K : Nat) (U1 U2 : User)
    (hU : U1.ID ≠ U2.ID)
    (ha : ∀ k, sv.GetUser k "a@x" = U1) (hb : ∀ k, sv.GetUser k "b@x" = U2)
    (hM : ∀ k batch, (∀ u ∈ batch, u = U1 ∨ u = U2) →
      ∃ ids, sv.GetMessages k batch = some ids ∧
        ids.Perm (batch.flatMap (fun u => if u = U1 then [10, 11] else [12])))
    (h10 : ∀ k, sv.HasSpam k 10 = some false) (h11 : ∀ k, sv.HasSpam k 11 = some true)
    (h12 : ∀ k, sv.HasSpam k 12 = some false) :
    (1 ≤ K → ∃ sc, Pipeline.completed sv B K sc
      [.str "a@x", .str "b@x", .str "a@x"] = true) ∧
    ∀ sc, Pipeline.completed sv B K sc [.str "a@x", .str "b@x", .str "a@x"] = true →
      Pipeline.report sv B K sc [.str "a@x", .str "b@x", .str "a@x"]
        = [Value.str "true 11", Value.str "false 10", Value.str "false 12"] := by
  refine ⟨fun hK => pipeline_can_complete sv B K hK _, fun sc hdone => ?_⟩
  simp only [Pipeline.completed, Bool.and_eq_true] at hdone
  obtain ⟨⟨h1, h2⟩, h3⟩ := hdone
  have hne : U2 ≠ U1 := fun h => hU (by rw [h])
  have hus := example_users sv.GetUser U1 U2 hU ha hb sc.users h1
  have hids := example_messages B sv.GetMessages U1 U2 hne hM _ hus sc.msgs h2
  have hrecs := example_verdicts K sv.HasSpam h10 h11 h12 _ hids sc.spam h3
  exact example_report _ hrecs

set_option maxRecDepth 100000 in
/-- Witness of C11: batch size 1, semaphore capacity 2 and an interleaving in which
user 2 is forwarded first and message 11 is classified first. -/
theorem end_to_end_example_witness :
    (Pipeline.usersState Pipeline.exampleServices Pipeline.exampleSchedules
      [.str "a@x", .str "b@x", .str "a@x"]).out
      = [Value.user ⟨2, "b@x"⟩, Value.user ⟨1, "a@x"⟩] ∧
    Pipeline.completed Pipeline.exampleServices 1 2 Pipeline.exampleSchedules
      [.str "a@x", .str "b@x", .str "a@x"] = true ∧
    Pipeline.report Pipeline.exampleServices 1 2 Pipeline.exampleSchedules
      [.str "a@x", .str "b@x", .str "a@x"]
      = [Value.str "true 11", Value.str "false 10", Value.str "false 12"] :=
  ⟨by decide, by decide,
    (end_to_end_example Pipeline.exampleServices 1 2 ⟨1, "a@x"⟩ ⟨2, "b@x"⟩ (by decide)
      (fun _ => rfl) (fun _ => rfl)
      (fun _ batch h => ⟨_, rfl, List.Perm.refl _⟩)
      (fun _ => rfl) (fun _ => rfl) (fun _ => rfl)).2 Pipeline.exampleSchedules (by decide)⟩

/-! ## Theorems: termination of a run -/

theorem classified_length_le (HasSpam : Nat → MsgID → Option Bool) (input : List Value) :
    (CheckSpam.classified HasSpam input).length ≤ (input.filterMap asMsgID).length := by
  rw [CheckSpam.classified_eq_filterMap,
    ← List.enum_length (l := input.filterMap asMsgID)]
  exact List.length_filterMap_le _ _

theorem pipeline_report_length_le (sv : Services) (B K : Nat) (emails : List Value)
    (sc : Schedules) (hdone : Pipeline.completed sv B K sc emails = true) :
    (Pipeline.report sv B K sc emails).length
      ≤ ((Pipeline.msgsState sv B sc emails).out.filterMap asMsgID).length := by
  simp only [Pipeline.completed, Bool.and_eq_true] at hdone
  obtain ⟨-, h3⟩ := hdone
  obtain ⟨-, hrecs, -⟩ := CheckSpam.checkSpam_final K sv.HasSpam _ _
    (CheckSpam.checkSpam_inv_run K sv.HasSpam sc.spam (Pipeline.msgsState sv B sc emails).out)
    h3
  have hlen : (Pipeline.report sv B K sc emails).length
      = ((Pipeline.spamState sv B K sc emails).out.filterMap asMsgData).length := by
    simp [Pipeline.report, CombineResults, (sortedMessages_perm _).length_eq,
      receivedMessages_eq]
  rw [hlen]
  have := hrecs.length_eq
  have hle := classified_length_le sv.HasSpam (Pipeline.msgsState sv B sc emails).out
  change ((Pipeline.spamState sv B K sc emails).out.filterMap asMsgData).length = _ at this
  omega

/-- Counterexample to C17 as stated: in `RunPipeline` on the four stages no goroutine
receives from the channel the terminal stage `CombineResults` sends on, and with a
single record received `CombineResults` stays blocked in its first send: it never
returns, whatever the number of statements performed. -/
theorem terminal_stage_blocks :
    (RunPipeline.wire ["SelectUsers", "SelectMessages", "CheckSpam", "CombineResults"]).1.map
        (fun b => b.out)
      = [RunPipeline.Chan.made 0, RunPipeline.Chan.made 1, RunPipeline.Chan.made 2,
          RunPipeline.Chan.made 3] ∧
    RunPipeline.hasReader
      (RunPipeline.wire ["SelectUsers", "SelectMessages", "CheckSpam", "CombineResults"]).1
      (RunPipeline.Chan.made 3) = false ∧
    ∀ n, (CombineStage.run (RunPipeline.hasReader
      (RunPipeline.wire ["SelectUsers", "SelectMessages", "CheckSpam", "CombineResults"]).1
      (RunPipeline.Chan.made 3)) n [.msgData ⟨7, false⟩]).phase
        ≠ CombineStage.Phase.returned := by
  refine ⟨by decide, by decide, fun n => ?_⟩
  have h : RunPipeline.hasReader
      (RunPipeline.wire ["SelectUsers", "SelectMessages", "CheckSpam", "CombineResults"]).1
      (RunPipeline.Chan.made 3) = false := by decide
  rw [h]
  exact CombineStage.combineStage_blocked _ (by decide) n

/-- C17, amended: for every finite input and every outcome of the external calls, when
the semaphore has capacity at least one and every value a stage sends is received, the
run terminates: every partial run of `SelectUsers`, `SelectMessages` and `CheckSpam` can
be continued until the stage returns, an interleaving in which all three return exists,
the report then has at most as many lines as message ids were looked up, and
`CombineResults` returns after sending its whole report. When nobody receives from its
`out`, as for the terminal stage of `RunPipeline`, `CombineResults` never returns once
it has received a record. -/
theorem pipeline_terminates (sv : Services) (B K : Nat) (input : List Value)
    (sched : List Nat) :
    (∃ more, (SelectUsers.run sv.GetUser (sched ++ more) input).returned = true) ∧
    (∃ more, (SelectMessages.run B sv.GetMessages (sched ++ more) input).returned = true) ∧
    (1 ≤ K → ∃ more, (CheckSpam.run K sv.HasSpam (sched ++ more) input).returned = true) ∧
    (1 ≤ K → ∃ sc, Pipeline.completed sv B K sc input = true) ∧
    (∀ sc, Pipeline.completed sv B K sc input = true →
      (Pipeline.report sv B K sc input).length
        ≤ ((Pipeline.msgsState sv B sc input).out.filterMap asMsgID).length) ∧
    (∃ n, (CombineStage.run true n input).phase = CombineStage.Phase.returned ∧
      (CombineStage.run true n input).out = CombineResults input) ∧
    (receivedMessages input ≠ [] →
      ∀ n, (CombineStage.run false n input).phase ≠ CombineStage.Phase.returned) :=
  ⟨SelectUsers.selectUsers_can_return sv.GetUser input sched,
    SelectMessages.selectMessages_can_return B sv.GetMessages input sched,
    fun hK => CheckSpam.checkSpam_can_return K sv.HasSpam input hK sched,
    fun hK => pipeline_can_complete sv B K hK input,
    fun sc hdone => pipeline_report_length_le sv B K input sc hdone,
    CombineStage.combineStage_completes input,
    fun hne n => CombineStage.combineStage_blocked input hne n⟩

set_option maxRecDepth 100000 in
/-- Witness of the amended C17 on the end-to-end example. -/
theorem pipeline_terminates_witness :
    Pipeline.completed Pipeline.exampleServices 1 2 Pipeline.exampleSchedules
      [.str "a@x", .str "b@x", .str "a@x"] = true ∧
    (Pipeline.report Pipeline.exampleServices 1 2 Pipeline.exampleSchedules
        [.str "a@x", .str "b@x", .str "a@x"]).length
      ≤ ((Pipeline.msgsState Pipeline.exampleServices 1 Pipeline.exampleSchedules
          [.str "a@x", .str "b@x", .str "a@x"]).out.filterMap asMsgID).length ∧
    (∃ sc, Pipeline.completed Pipeline.exampleServices 1 2 sc
      [.str "a@x", .str "b@x", .str "a@x"] = true) :=
  ⟨by decide,
    (pipeline_terminates Pipeline.exampleServices 1 2 [.str "a@x", .str "b@x", .str "a@x"]
      []).2.2.2.2.1 Pipeline.exampleSchedules (by decide),
    (pipeline_terminates Pipeline.exampleServices 1 2 [.str "a@x", .str "b@x", .str "a@x"]
      []).2.2.2.1 (by decide)⟩

end Spammer

/-! # Theorems: search server -/

namespace SearchServer

theorem wrapInt_of_range (x : Int) (h1 : -(2 ^ 63) ≤ x) (h2 : x < 2 ^ 63) : wrapInt x = x := by
  unfold wrapInt
  rw [Int.emod_eq_of_lt (by omega) (by omega)]
  omega

theorem sign_not_neg_iff {κ : Type} [LinearOrder κ] (x y : κ) :
    ¬ ((if y < x then (-1 : Int) else if y = x then 0 else 1) < 0) ↔ x ≤ y := by
  by_cases h : y < x
  · simp [h]
  · by_cases h' : y = x
    · simp [h']
    · simp [h, h', not_lt.1 h]

theorem neg_sign_not_neg_iff {κ : Type} [LinearOrder κ] (x y : κ) :
    ¬ (-(if y < x then (-1 : Int) else if y = x then 0 else 1) < 0) ↔ y ≤ x := by
  by_cases h : y < x
  · simp [h, le_of_lt h]
  · by_cases h' : y = x
    · simp [h']
    · have hlt : x < y := lt_of_le_of_ne (not_lt.1 h) (Ne.symm h')
      simp [h, h', not_le.2 hlt]

theorem stringsCompare_not_neg_iff (x y : String) :
    ¬ (stringsCompare y x < 0) ↔ x ≤ y := by
  unfold stringsCompare
  by_cases h : y.data < x.data
  · rw [if_pos h]
    have hlt : y < x := String.lt_iff_toList_lt.2 h
    exact ⟨fun hh => absurd (by decide) hh, fun hle => absurd hlt (not_lt.2 hle)⟩
  · rw [if_neg h]
    have hnlt : ¬ y < x := fun hlt => h (String.lt_iff_toList_lt.1 hlt)
    refine ⟨fun _ => not_lt.1 hnlt, fun _ => ?_⟩
    split <;> decide

theorem neg_stringsCompare_not_neg_iff (x y : String) :
    ¬ (-stringsCompare y x < 0) ↔ y ≤ x := by
  unfold stringsCompare
  by_cases h : y.data < x.data
  · rw [if_pos h]
    have hlt : y < x := String.lt_iff_toList_lt.2 h
    exact ⟨fun _ => le_of_lt hlt, fun _ => by decide⟩
  · rw [if_neg h]
    have hnlt : ¬ y < x := fun hlt => h (String.lt_iff_toList_lt.1 hlt)
    by_cases h' : y = x
    · rw [if_pos h']
      exact ⟨fun _ => le_of_eq h', fun _ => by decide⟩
    · rw [if_neg h']
      have hlt : x < y := lt_of_le_of_ne (not_lt.1 hnlt) (Ne.symm h')
      exact ⟨fun hh => absurd (by decide) hh, fun hle => absurd hlt (not_lt.2 hle)⟩

theorem cmpLE_compareUsers_iff (c : Consts) (orderField : String) (orderBy : Int)
    (a b : UserXMLData) :
    Spammer.cmpLE (compareUsers c orderField orderBy) a b ↔
      if orderBy = c.OrderByDesc then fieldLE orderField b a else fieldLE orderField a b := by
  unfold Spammer.cmpLE compareUsers fieldLE
  by_cases hd : orderBy = c.OrderByDesc
  · rw [if_pos hd, if_pos hd]
    by_cases hi : orderField = ID
    · rw [if_pos hi, if_pos hi]
      exact neg_sign_not_neg_iff a.ID b.ID
    · rw [if_neg hi, if_neg hi]
      by_cases ha : orderField = Age
      · rw [if_pos ha, if_pos ha]
        exact neg_sign_not_neg_iff a.Age b.Age
      · rw [if_neg ha, if_neg ha]
        exact neg_stringsCompare_not_neg_iff (fullName a) (fullName b)
  · rw [if_neg hd, if_neg hd]
    by_cases hi : orderField = ID
    · rw [if_pos hi, if_pos hi]
      exact sign_not_neg_iff a.ID b.ID
    · rw [if_neg hi, if_neg hi]
      by_cases ha : orderField = Age
      · rw [if_pos ha, if_pos ha]
        exact sign_not_neg_iff a.Age b.Age
      · rw [if_neg ha, if_neg ha]
        exact stringsCompare_not_neg_iff (fullName a) (fullName b)

theorem fieldLE_total (orderField : String) (a b : UserXMLData) :
    fieldLE orderField a b ∨ fieldLE orderField b a := by
  unfold fieldLE
  split
  · exact le_total _ _
  · split
    · exact le_total _ _
    · exact le_total _ _

theorem fieldLE_trans (orderField : String) (a b d : UserXMLData)
    (h1 : fieldLE orderField a b) (h2 : fieldLE orderField b d) : fieldLE orderField a d := by
  unfold fieldLE at *
  split
  · rename_i h
    simp only [h, if_true] at h1 h2
    exact le_trans h1 h2
  · rename_i h
    split
    · rename_i h'
      simp only [h, h', if_true, if_false] at h1 h2
      exact le_trans h1 h2
    · rename_i h'
      simp only [h, h', if_false] at h1 h2
      exact le_trans h1 h2

instance (c : Consts) (orderField : String) (orderBy : Int) :
    IsTotal UserXMLData (Spammer.cmpLE (compareUsers c orderField orderBy)) where
  total a b := by
    simp only [cmpLE_compareUsers_iff]
    split
    · exact (fieldLE_total orderField a b).symm
    · exact fieldLE_total orderField a b

instance (c : Consts) (orderField : String) (orderBy : Int) :
    IsTrans UserXMLData (Spammer.cmpLE (compareUsers c orderField orderBy)) where
  trans a b d := by
    simp only [cmpLE_compareUsers_iff]
    split
    · exact fun h1 h2 => fieldLE_trans orderField d b a h2 h1
    · exact fun h1 h2 => fieldLE_trans orderField a b d h1 h2

theorem compareUsers_strictWeak (c : Consts) (orderField : String) (orderBy : Int) :
    StrictWeakOrdering (compareUsers c orderField orderBy) := by
  refine ⟨fun a b h => ?_, fun a b d h => ?_⟩
  · rcases (inferInstance : IsTotal UserXMLData
        (Spammer.cmpLE (compareUsers c orderField orderBy))).total a b with h1 | h1
    · exact h1 h.2
    · exact h1 h.1
  · by_contra hn
    rw [not_or] at hn
    exact (inferInstance : IsTrans UserXMLData
      (Spammer.cmpLE (compareUsers c orderField orderBy))).trans d b a hn.2 hn.1 h

theorem stableSort_sortsBy :
    SortsBy (stableSort : (α → α → Int) → List α → List α) := by
  intro cmp l hsw
  unfold stableSort
  haveI : IsTotal α (Spammer.cmpLE cmp) :=
    ⟨fun a b => by
      by_cases h : cmp b a < 0
      · exact Or.inr (fun h2 => hsw.1 a b ⟨h2, h⟩)
      · exact Or.inl h⟩
  haveI : IsTrans α (Spammer.cmpLE cmp) :=
    ⟨fun a b d h1 h2 h3 => (hsw.2 d b a h3).elim h2 h1⟩
  exact ⟨List.perm_insertionSort _ _, List.sorted_insertionSort _ _⟩

theorem slicesSortFunc_spec (pdqsort : (α → α → Int) → List α → List α)
    (hsort : SortsBy pdqsort) : SortsBy (slicesSortFunc pdqsort) := by
  intro cmp l hsw
  unfold slicesSortFunc
  split
  · exact stableSort_sortsBy cmp l hsw
  · exact hsort cmp l hsw

theorem slicesSortFunc_short (p q : (α → α → Int) → List α → List α) (cmp : α → α → Int)
    (l : List α) (h : l.length ≤ 12) : slicesSortFunc p cmp l = slicesSortFunc q cmp l := by
  unfold slicesSortFunc
  rw [if_pos h, if_pos h]

theorem orderUsers_short (c : Consts)
    (p q : (UserXMLData → UserXMLData → Int) → List UserXMLData → List UserXMLData)
    (users : List UserXMLData) (orderField : String) (orderBy : Int)
    (h : users.length ≤ 12) :
    OrderUsers c p users orderField orderBy = OrderUsers c q users orderField orderBy := by
  unfold OrderUsers
  rw [slicesSortFunc_short p q _ _ h]

theorem applyQuery_short (c : Consts)
    (p q : (UserXMLData → UserXMLData → Int) → List UserXMLData → List UserXMLData)
    (request : SearchRequest) (users : List UserXMLData) (h : users.length ≤ 12) :
    ApplyQueryToUsers c p request users = ApplyQueryToUsers c q request users := by
  have hq : (queryUsers request users).length ≤ 12 := by
    unfold queryUsers
    split
    · exact (List.length_filter_le _ _).trans h
    · exact h
  unfold ApplyQueryToUsers orderedUsers
  rw [orderUsers_short c p q _ _ _ hq]

theorem orderUsers_perm (c : Consts)
    (pdqsort : (UserXMLData → UserXMLData → Int) → List UserXMLData → List UserXMLData)
    (hsort : SortsBy pdqsort) (users : List UserXMLData) (orderField : String)
    (orderBy : Int) : (OrderUsers c pdqsort users orderField orderBy).Perm users := by
  unfold OrderUsers
  split
  · exact List.Perm.refl _
  · exact (slicesSortFunc_spec pdqsort hsort _ users (compareUsers_strictWeak _ _ _)).1

theorem orderUsers_sorted (c : Consts)
    (pdqsort : (UserXMLData → UserXMLData → Int) → List UserXMLData → List UserXMLData)
    (hsort : SortsBy pdqsort) (users : List UserXMLData) (orderField : String)
    (orderBy : Int) (h : orderBy ≠ c.OrderByAsIs) :
    (OrderUsers c pdqsort users orderField orderBy).Pairwise
      (fun a b => if orderBy = c.OrderByDesc then fieldLE orderField b a
        else fieldLE orderField a b) := by
  unfold OrderUsers
  rw [if_neg h]
  exact (slicesSortFunc_spec pdqsort hsort _ users (compareUsers_strictWeak _ _ _)).2.imp
    (fun h => (cmpLE_compareUsers_iff c orderField orderBy _ _).1 h)

/-- C19: `OrderUsers` leaves the list unchanged when `orderBy` is `OrderByAsIs`. For
`OrderByAsc` and `OrderByDesc` the result is a permutation of the list in which every
element and every later one are in order on the order field: on `ID` for the field
`"Id"`, on `Age` for `"Age"`, and on the text `FirstName + " " + LastName` for every
other field; non-decreasing for `OrderByAsc`, non-increasing for `OrderByDesc`. The
order of users that tie on the field is left open, as `slices.SortFunc` is not stable;
`hsort` is the documented contract of its routine for slices of more than 12
elements, and the three constants are distinct. -/
theorem orderUsers_spec (c : Consts)
    (pdqsort : (UserXMLData → UserXMLData → Int) → List UserXMLData → List UserXMLData)
    (users : List UserXMLData) (orderField : String) (hsort : SortsBy pdqsort)
    (hAsc : c.OrderByAsc ≠ c.OrderByAsIs) (hDesc : c.OrderByDesc ≠ c.OrderByAsIs)
    (hAD : c.OrderByAsc ≠ c.OrderByDesc) :
    OrderUsers c pdqsort users orderField c.OrderByAsIs = users ∧
    (OrderUsers c pdqsort users orderField c.OrderByAsc).Perm users ∧
    (OrderUsers c pdqsort users orderField c.OrderByDesc).Perm users ∧
    (orderField = "Id" →
      (OrderUsers c pdqsort users orderField c.OrderByAsc).Pairwise
        (fun a b => a.ID ≤ b.ID) ∧
      (OrderUsers c pdqsort users orderField c.OrderByDesc).Pairwise
        (fun a b => b.ID ≤ a.ID)) ∧
    (orderField = "Age" →
      (OrderUsers c pdqsort users orderField c.OrderByAsc).Pairwise
        (fun a b => a.Age ≤ b.Age) ∧
      (OrderUsers c pdqsort users orderField c.OrderByDesc).Pairwise
        (fun a b => b.Age ≤ a.Age)) ∧
    (orderField ≠ "Id" → orderField ≠ "Age" →
      (OrderUsers c pdqsort users orderField c.OrderByAsc).Pairwise
        (fun a b => a.FirstName ++ " " ++ a.LastName ≤ b.FirstName ++ " " ++ b.LastName) ∧
      (OrderUsers c pdqsort users orderField c.OrderByDesc).Pairwise
        (fun a b => b.FirstName ++ " " ++ b.LastName ≤ a.FirstName ++ " " ++ a.LastName)) := by
  have hasc := orderUsers_sorted c pdqsort hsort users orderField c.OrderByAsc hAsc
  have hdesc := orderUsers_sorted c pdqsort hsort users orderField c.OrderByDesc hDesc
  simp only [if_neg hAD] at hasc
  simp only [if_true] at hdesc
  have hID : ID = "Id" := rfl
  have hAge : Age = "Age" := rfl
  refine ⟨by simp [OrderUsers], orderUsers_perm _ _ hsort _ _ _, orderUsers_perm _ _ hsort _ _ _,
    fun hf => ?_, fun hf => ?_, fun h1 h2 => ?_⟩
  · have e : ∀ a b, fieldLE orderField a b ↔ a.ID ≤ b.ID := fun a b => by
      unfold fieldLE
      rw [if_pos (hf.trans hID.symm)]
    exact ⟨hasc.imp (fun h => (e _ _).1 h), hdesc.imp (fun h => (e _ _).1 h)⟩
  · have hne : orderField ≠ ID := by
      rw [hf, hID]
      decide
    have e : ∀ a b, fieldLE orderField a b ↔ a.Age ≤ b.Age := fun a b => by
      unfold fieldLE
      rw [if_neg hne, if_pos (hf.trans hAge.symm)]
    exact ⟨hasc.imp (fun h => (e _ _).1 h), hdesc.imp (fun h => (e _ _).1 h)⟩
  · have e : ∀ a b, fieldLE orderField a b ↔
        a.FirstName ++ " " ++ a.LastName ≤ b.FirstName ++ " " ++ b.LastName := fun a b => by
      unfold fieldLE
      rw [if_neg (hID ▸ h1), if_neg (hAge ▸ h2)]
    exact ⟨hasc.imp (fun h => (e _ _).1 h), hdesc.imp (fun h => (e _ _).1 h)⟩

theorem orderedUsers_length (c : Consts)
    (pdqsort : (UserXMLData → UserXMLData → Int) → List UserXMLData → List UserXMLData)
    (hsort : SortsBy pdqsort) (request : SearchRequest) (users : List UserXMLData) :
    (orderedUsers c pdqsort request users).length = (queryUsers request users).length :=
  (orderUsers_perm c pdqsort hsort _ _ _).length_eq

/-- The page `ApplyQueryToUsers` returns while `Offset + Limit` stays in the range of
`int`: the `limit` values from position `offset` of the filtered and ordered list,
clipped at its end, where `limit` is its length when the request has `LimitNotSet`. -/
theorem applyQuery_page_in_range (c : Consts)
    (pdqsort : (UserXMLData → UserXMLData → Int) → List UserXMLData → List UserXMLData)
    (request : SearchRequest)
    (users : List UserXMLData) (hl : 0 ≤ effectiveLimit request users)
    (ho : 0 ≤ request.Offset)
    (hsum : request.Offset + effectiveLimit request users ≤ MaxInt) :
    ApplyQueryToUsers c pdqsort request users =
      some (((orderedUsers c pdqsort request users).drop request.Offset.toNat).take
        (effectiveLimit request users).toNat) := by
  unfold ApplyQueryToUsers
  simp only
  generalize orderedUsers c pdqsort request users = L
  generalize effectiveLimit request users = limit at hl hsum
  generalize request.Offset = offset at ho hsum
  have hw : wrapInt (offset + limit) = offset + limit := by
    apply wrapInt_of_range
    · omega
    · unfold MaxInt at hsum
      omega
  rw [hw]
  obtain ⟨o, rfl⟩ := Int.eq_ofNat_of_zero_le ho
  obtain ⟨l, rfl⟩ := Int.eq_ofNat_of_zero_le hl
  simp only [Int.toNat_ofNat]
  by_cases h1 : (o : Int) < L.length ∧ (o : Int) + (l : Int) ≤ L.length
  · rw [if_pos h1]
    unfold slice
    rw [if_pos ⟨by omega, by omega, h1.2⟩]
    have : ((o : Int) + (l : Int) - (o : Int)).toNat = l := by omega
    rw [this, Int.toNat_ofNat]
  · rw [if_neg h1]
    by_cases h2 : (o : Int) < L.length
    · rw [if_pos h2]
      unfold slice
      rw [if_pos ⟨by omega, by omega, le_refl _⟩]
      have hlen : (L.drop o).length = L.length - o := List.length_drop o L
      have e1 : ((L.length : Int) - (o : Int)).toNat = L.length - o := by omega
      rw [Int.toNat_ofNat, e1, List.take_of_length_le (by omega),
        List.take_of_length_le (by omega)]
    · rw [if_neg h2]
      have : L.drop o = [] := List.drop_eq_nil_of_le (by omega)
      rw [this, List.take_nil]

/-- With `LimitNotSet` and an offset within `0 .. MaxInt - len`, the page is everything
from `offset` on. -/
theorem applyQuery_limit_not_set (c : Consts)
    (pdqsort : (UserXMLData → UserXMLData → Int) → List UserXMLData → List UserXMLData)
    (hsort : SortsBy pdqsort) (request : SearchRequest)
    (users : List UserXMLData) (hlim : request.Limit = LimitNotSet)
    (ho : 0 ≤ request.Offset)
    (hsum : request.Offset + (queryUsers request users).length ≤ MaxInt) :
    ApplyQueryToUsers c pdqsort request users =
      some ((orderedUsers c pdqsort request users).drop request.Offset.toNat) := by
  have he : effectiveLimit request users = ((queryUsers request users).length : Int) := by
    unfold effectiveLimit
    rw [if_pos hlim]
  rw [applyQuery_page_in_range c pdqsort request users (by rw [he]; omega) ho
    (by rw [he]; exact hsum), he, Int.toNat_ofNat, List.take_of_length_le]
  rw [List.length_drop, orderedUsers_length c pdqsort hsort]
  omega

/-- C18: the page of `ApplyQueryToUsers` fails for `limit >= 0` and `offset >= 0` whose
sum leaves the range of `int`. With three users, offset 1 and limit 9223372036854775807
the sum wraps to the least `int`, the first test of server.go:114 holds and the slice
expression `queryUsers[1:-9223372036854775808]` panics, where the page
`take(limit, drop(offset, L))` is the users 1 and 2; no sorting takes place, so this is
so whatever the library's sorting routine. -/
theorem applyQuery_overflow_panics :
    (0 : Int) ≤ MaxInt ∧
    wrapInt (1 + MaxInt) = MinInt ∧
    (∀ pdqsort, ApplyQueryToUsers sampleConsts pdqsort
      ⟨MaxInt, 1, "", ID, sampleConsts.OrderByAsIs⟩ sampleUsers = none) ∧
    (∀ pdqsort, (((orderedUsers sampleConsts pdqsort
      ⟨MaxInt, 1, "", ID, sampleConsts.OrderByAsIs⟩ sampleUsers).drop 1).take
        MaxInt.toNat).map (fun u => u.ID) = [1, 2]) := by
  refine ⟨by decide, by decide, fun pdqsort => ?_, fun pdqsort => ?_⟩
  · rw [applyQuery_short sampleConsts pdqsort (fun _ l => l) _ _ (by decide)]
    decide
  · have : orderedUsers sampleConsts pdqsort ⟨MaxInt, 1, "", ID, sampleConsts.OrderByAsIs⟩
        sampleUsers = orderedUsers sampleConsts (fun _ l => l)
          ⟨MaxInt, 1, "", ID, sampleConsts.OrderByAsIs⟩ sampleUsers :=
      orderUsers_short _ _ _ _ _ _ (by decide)
    rw [this]
    decide

theorem processQueryParams_cases (c : Consts) (encodeOk : Bool) (q : QueryParams) :
    (((q.order_field ≠ "" ∧ q.order_field ≠ Name ∧ q.order_field ≠ ID ∧
          q.order_field ≠ Age) ∨
        (q.order_by ≠ "" ∧ ∀ n, Atoi q.order_by = some n →
          n ≠ c.OrderByAsc ∧ n ≠ c.OrderByAsIs ∧ n ≠ c.OrderByDesc) ∨
        (q.limit ≠ "" ∧ Atoi q.limit = none) ∨
        (q.offset ≠ "" ∧ Atoi q.offset = none)) ∧
      ∃ text, ProccesQueryParams c encodeOk q = badRequest encodeOk text) ∨
    (¬ ((q.order_field ≠ "" ∧ q.order_field ≠ Name ∧ q.order_field ≠ ID ∧
          q.order_field ≠ Age) ∨
        (q.order_by ≠ "" ∧ ∀ n, Atoi q.order_by = some n →
          n ≠ c.OrderByAsc ∧ n ≠ c.OrderByAsIs ∧ n ≠ c.OrderByDesc) ∨
        (q.limit ≠ "" ∧ Atoi q.limit = none) ∨
        (q.offset ≠ "" ∧ Atoi q.offset = none)) ∧
      ∃ order limit offset,
        (if q.order_by = "" then order = 0 else Atoi q.order_by = some order) ∧
        (if q.limit = "" then limit = LimitNotSet else Atoi q.limit = some limit) ∧
        (if q.offset = "" then offset = 0 else Atoi q.offset = some offset) ∧
        ProccesQueryParams c encodeOk q =
          { status := none, errorText := none,
            result := Except.ok
              { Limit := limit, Offset := offset, Query := q.query,
                OrderField := if q.order_field = "" then Name else q.order_field,
                OrderBy := order } }) := by
  unfold ProccesQueryParams
  simp only []
  by_cases h1 : ((if q.order_field = "" then Name else q.order_field) ≠ Name ∧
      (if q.order_field = "" then Name else q.order_field) ≠ ID ∧
      (if q.order_field = "" then Name else q.order_field) ≠ Age)
  · rw [if_pos h1]
    have hb : q.order_field ≠ "" ∧ q.order_field ≠ Name ∧ q.order_field ≠ ID ∧
        q.order_field ≠ Age := by
      by_cases hf : q.order_field = ""
      · rw [if_pos hf] at h1
        exact absurd rfl h1.1
      · rw [if_neg hf] at h1
        exact ⟨hf, h1⟩
    exact Or.inl ⟨Or.inl hb, _, rfl⟩
  · rw [if_neg h1]
    have hnb : ¬ (q.order_field ≠ "" ∧ q.order_field ≠ Name ∧ q.order_field ≠ ID ∧
        q.order_field ≠ Age) := by
      intro hb
      apply h1
      rw [if_neg hb.1]
      exact hb.2
    by_cases hob : q.order_by = "" <;> by_cases hl : q.limit = "" <;>
      by_cases ho : q.offset = "" <;>
      simp only [hob, hl, ho, hnb, ne_eq, not_true_eq_false, not_false_eq_true, if_false,
        false_and, if_true, true_and, false_or, or_false] <;>
      cases hA : Atoi q.order_by <;> cases hB : Atoi q.limit <;> cases hC : Atoi q.offset <;>
      simp <;> split_ifs <;> simp_all [badRequest] <;> assumption


theorem digit_of_isDigit (c : Char) (h : c.isDigit = true) :
    c.toNat - 48 < 10 ∧ Char.ofNat (48 + (c.toNat - 48)) = c := by
  have h' : 48 ≤ c.toNat ∧ c.toNat ≤ 57 := by
    simp only [Char.isDigit, Bool.and_eq_true, decide_eq_true_eq] at h
    obtain ⟨h1, h2⟩ := h
    exact ⟨h1, h2⟩
  refine ⟨by omega, ?_⟩
  have : 48 + (c.toNat - 48) = c.toNat := by omega
  rw [this, Char.ofNat_toNat]

theorem foldl_digits (ds : List Nat) (h : ∀ d ∈ ds, d < 10) :
    (ds.map (fun d => Char.ofNat (48 + d))).foldl (fun n d => 10 * n + (d.toNat - 48)) 0
      = Nat.ofDigits 10 ds.reverse := by
  induction ds using List.reverseRecOn with
  | nil => rfl
  | append_singleton l d ih =>
    have hd : d < 10 := h d (by simp)
    have ht : (Char.ofNat (48 + d)).toNat = 48 + d := Spammer.digitChar_toNat d hd
    rw [List.map_append, List.foldl_append, ih (fun x hx => h x (by simp [hx]))]
    simp only [List.map_cons, List.map_nil, List.foldl_cons, List.foldl_nil, ht,
      List.reverse_append, List.reverse_cons, List.reverse_nil, List.nil_append,
      List.singleton_append, Nat.ofDigits_cons]
    omega

theorem parseDigits_iff (cs : List Char) (v : Nat) :
    parseDigits cs = some v ↔
      ∃ ds : List Nat, ds ≠ [] ∧ (∀ d ∈ ds, d < 10) ∧
        cs = ds.map (fun d => Char.ofNat (48 + d)) ∧ v = Nat.ofDigits 10 ds.reverse := by
  constructor
  · intro h
    cases cs with
    | nil => cases h
    | cons c rest =>
      simp only [parseDigits] at h
      split at h
      · rename_i hall
        have hall' : ∀ x ∈ c :: rest, x.isDigit = true := by
          simpa using hall
        refine ⟨(c :: rest).map (fun x => x.toNat - 48), by simp, ?_, ?_, ?_⟩
        · intro d hd
          obtain ⟨x, hx, rfl⟩ := List.mem_map.1 hd
          exact (digit_of_isDigit x (hall' x hx)).1
        · rw [List.map_map]
          symm
          conv_rhs => rw [← List.map_id (c :: rest)]
          exact List.map_congr_left (fun x hx => (digit_of_isDigit x (hall' x hx)).2)
        · have hv : v = (c :: rest).foldl (fun n d => 10 * n + (d.toNat - 48)) 0 := by
            simpa using h.symm
          rw [hv, ← foldl_digits _ (by
            intro d hd
            obtain ⟨x, hx, rfl⟩ := List.mem_map.1 hd
            exact (digit_of_isDigit x (hall' x hx)).1)]
          congr 1
          rw [List.map_map]
          conv_lhs => rw [← List.map_id (c :: rest)]
          exact List.map_congr_left (fun x hx => ((digit_of_isDigit x (hall' x hx)).2).symm)
      · cases h
  · rintro ⟨ds, hne, hlt, rfl, rfl⟩
    cases ds with
    | nil => exact absurd rfl hne
    | cons d rest =>
      have hall : ((d :: rest).map (fun d => Char.ofNat (48 + d))).all Char.isDigit = true := by
        rw [List.all_eq_true]
        intro x hx
        obtain ⟨y, hy, rfl⟩ := List.mem_map.1 hx
        exact Spammer.digitChar_isDigit y (hlt y hy)
      have := foldl_digits (d :: rest) hlt
      simp only [List.map_cons] at hall this ⊢
      simp only [parseDigits, hall, if_true, this]

theorem digitChar_ne_sign (d : Nat) (h : d < 10) :
    Char.ofNat (48 + d) ≠ '-' ∧ Char.ofNat (48 + d) ≠ '+' := by
  have ht : (Char.ofNat (48 + d)).toNat = 48 + d := Spammer.digitChar_toNat d h
  constructor
  · intro e
    rw [e] at ht
    have : ('-' : Char).toNat = 45 := rfl
    omega
  · intro e
    rw [e] at ht
    have : ('+' : Char).toNat = 43 := rfl
    omega

theorem atoi_branch_nonneg (x : Nat) (n : Int) (hval : n = (x : Int))
    (h1 : (x : Int) < 2 ^ 63) :
    (if (x : Int) < 2 ^ 63 then some (x : Int) else none) = some n := by
  rw [if_pos h1, hval]

theorem atoi_branch_neg (x : Nat) (n : Int) (hval : n = -(x : Int))
    (h1 : (x : Int) ≤ 2 ^ 63) :
    (if (x : Int) ≤ 2 ^ 63 then some (-(x : Int)) else none) = some n := by
  rw [if_pos h1, hval]

theorem atoi_iff (s : String) (n : Int) : Atoi s = some n ↔ IntOf s n := by
  have hM : MaxInt = 2 ^ 63 - 1 := rfl
  have hm : MinInt = -(2 ^ 63) := rfl
  have hc : ('+' : Char) ≠ '-' := by decide
  have hplus : ¬ (['+'] = ['-']) := fun h => hc (List.cons.inj h).1
  have hnil : ¬ (([] : List Char) = ['-']) := fun h => List.noConfusion h
  unfold Atoi IntOf DecimalOf
  split
  · rename_i ds hs
    constructor
    · intro h
      obtain ⟨v, hv, hn⟩ := Option.bind_eq_some.1 h
      split at hn
      · rename_i hle
        simp only [Option.some.injEq] at hn
        obtain ⟨digits, hne, hlt, rfl, rfl⟩ := (parseDigits_iff ds v).1 hv
        refine ⟨⟨['-'], digits, Or.inr (Or.inr rfl), hne, hlt, by rw [hs]; rfl, ?_⟩, ?_, ?_⟩
        · rw [if_pos rfl, ← hn]
          omega
        · omega
        · omega
      · cases hn
    · rintro ⟨⟨sign, digits, hsign, hne, hlt, hdata, hval⟩, hlo, hhi⟩
      rw [hs] at hdata
      obtain ⟨d0, rest, rfl⟩ := List.exists_cons_of_ne_nil hne
      rcases hsign with rfl | rfl | rfl
      · simp only [List.nil_append, List.map_cons, List.cons.injEq] at hdata
        exact absurd hdata.1.symm (digitChar_ne_sign d0 (hlt d0 (by simp))).1
      · simp only [List.singleton_append, List.cons.injEq] at hdata
        exact absurd hdata.1 (by decide)
      · simp only [List.singleton_append, List.cons.injEq, true_and] at hdata
        rw [if_pos rfl] at hval
        have hp := (parseDigits_iff ds _).2 ⟨d0 :: rest, hne, hlt, hdata, rfl⟩
        rw [hp, Option.some_bind]
        exact atoi_branch_neg _ _ (by omega) (by omega)
  · rename_i ds hs
    constructor
    · intro h
      obtain ⟨v, hv, hn⟩ := Option.bind_eq_some.1 h
      split at hn
      · rename_i hle
        simp only [Option.some.injEq] at hn
        obtain ⟨digits, hne, hlt, rfl, rfl⟩ := (parseDigits_iff ds v).1 hv
        refine ⟨⟨['+'], digits, Or.inr (Or.inl rfl), hne, hlt, by rw [hs]; rfl, ?_⟩, ?_, ?_⟩
        · rw [if_neg hplus, ← hn]
          omega
        · omega
        · omega
      · cases hn
    · rintro ⟨⟨sign, digits, hsign, hne, hlt, hdata, hval⟩, hlo, hhi⟩
      rw [hs] at hdata
      obtain ⟨d0, rest, rfl⟩ := List.exists_cons_of_ne_nil hne
      rcases hsign with rfl | rfl | rfl
      · simp only [List.nil_append, List.map_cons, List.cons.injEq] at hdata
        exact absurd hdata.1.symm (digitChar_ne_sign d0 (hlt d0 (by simp))).2
      · simp only [List.singleton_append, List.cons.injEq, true_and] at hdata
        rw [if_neg hplus] at hval
        have hp := (parseDigits_iff ds _).2 ⟨d0 :: rest, hne, hlt, hdata, rfl⟩
        rw [hp, Option.some_bind]
        exact atoi_branch_nonneg _ _ (by omega) (by omega)
      · simp only [List.singleton_append, List.cons.injEq] at hdata
        exact absurd hdata.1 (by decide)
  · rename_i h1 h2
    constructor
    · intro h
      obtain ⟨v, hv, hn⟩ := Option.bind_eq_some.1 h
      split at hn
      · rename_i hle
        simp only [Option.some.injEq] at hn
        obtain ⟨digits, hne, hlt, hd, rfl⟩ := (parseDigits_iff _ v).1 hv
        refine ⟨⟨[], digits, Or.inl rfl, hne, hlt, hd, ?_⟩, ?_, ?_⟩
        · rw [if_neg hnil, ← hn]
          omega
        · omega
        · omega
      · cases hn
    · rintro ⟨⟨sign, digits, hsign, hne, hlt, hdata, hval⟩, hlo, hhi⟩
      rcases hsign with rfl | rfl | rfl
      · rw [if_neg hnil] at hval
        have hp := (parseDigits_iff s.data _).2 ⟨digits, hne, hlt, hdata, rfl⟩
        rw [hp, Option.some_bind]
        exact atoi_branch_nonneg _ _ (by omega) (by omega)
      · exact absurd hdata (h2 _)
      · exact absurd hdata (h1 _)

theorem intOf_unique (s : String) (n m : Int) (hn : IntOf s n) (hm : IntOf s m) : n = m := by
  have h := (atoi_iff s n).2 hn
  rw [(atoi_iff s m).2 hm] at h
  exact (Option.some.inj h).symm

theorem atoi_none_iff (s : String) : Atoi s = none ↔ ¬ ∃ n, IntOf s n := by
  constructor
  · rintro h ⟨n, hn⟩
    rw [(atoi_iff s n).2 hn] at h
    cases h
  · intro h
    cases hA : Atoi s with
    | none => rfl
    | some n => exact absurd ⟨n, (atoi_iff s n).1 hA⟩ h

/-- C20: `ProccesQueryParams` returns an error exactly when `order_field` is non-empty
and none of `"Name"`, `"Id"`, `"Age"`, or `order_by` is non-empty and not the decimal
notation of an `int` equal to `OrderByAsc`, `OrderByAsIs` or `OrderByDesc`, or `limit`
or `offset` is non-empty and not the decimal notation of an `int`; it then answers 400
Bad Request. Otherwise it writes no status and returns the request whose `OrderBy`,
`Limit` and `Offset` are the integers the parameters denote, with `"Name"`, 0,
`LimitNotSet` and 0 for the absent `order_field`, `order_by`, `limit` and `offset`. -/
theorem processQueryParams_spec (c : Consts) (encodeOk : Bool) (q : QueryParams) :
    ((∃ e, (ProccesQueryParams c encodeOk q).result = Except.error e) ↔
      ((q.order_field ≠ "" ∧ q.order_field ≠ "Name" ∧ q.order_field ≠ "Id" ∧
          q.order_field ≠ "Age") ∨
        (q.order_by ≠ "" ∧ ¬ ∃ n, IntOf q.order_by n ∧
          (n = c.OrderByAsc ∨ n = c.OrderByAsIs ∨ n = c.OrderByDesc)) ∨
        (q.limit ≠ "" ∧ ¬ ∃ n, IntOf q.limit n) ∨
        (q.offset ≠ "" ∧ ¬ ∃ n, IntOf q.offset n))) ∧
    ((∃ e, (ProccesQueryParams c encodeOk q).result = Except.error e) →
      (ProccesQueryParams c encodeOk q).status = some 400) ∧
    ((¬ ∃ e, (ProccesQueryParams c encodeOk q).result = Except.error e) →
      (ProccesQueryParams c encodeOk q).status = none ∧
      ∃ order limit offset,
        (if q.order_by = "" then order = 0 else IntOf q.order_by order) ∧
        (if q.limit = "" then limit = -1 else IntOf q.limit limit) ∧
        (if q.offset = "" then offset = 0 else IntOf q.offset offset) ∧
        (ProccesQueryParams c encodeOk q).result = Except.ok
          { Limit := limit, Offset := offset, Query := q.query,
            OrderField := if q.order_field = "" then "Name" else q.order_field,
            OrderBy := order }) := by
  have hconv :
      ((q.order_field ≠ "" ∧ q.order_field ≠ Name ∧ q.order_field ≠ ID ∧
          q.order_field ≠ Age) ∨
        (q.order_by ≠ "" ∧ ∀ n, Atoi q.order_by = some n →
          n ≠ c.OrderByAsc ∧ n ≠ c.OrderByAsIs ∧ n ≠ c.OrderByDesc) ∨
        (q.limit ≠ "" ∧ Atoi q.limit = none) ∨
        (q.offset ≠ "" ∧ Atoi q.offset = none)) ↔
      ((q.order_field ≠ "" ∧ q.order_field ≠ "Name" ∧ q.order_field ≠ "Id" ∧
          q.order_field ≠ "Age") ∨
        (q.order_by ≠ "" ∧ ¬ ∃ n, IntOf q.order_by n ∧
          (n = c.OrderByAsc ∨ n = c.OrderByAsIs ∨ n = c.OrderByDesc)) ∨
        (q.limit ≠ "" ∧ ¬ ∃ n, IntOf q.limit n) ∨
        (q.offset ≠ "" ∧ ¬ ∃ n, IntOf q.offset n)) := by
    have e1 : (∀ n, Atoi q.order_by = some n →
          n ≠ c.OrderByAsc ∧ n ≠ c.OrderByAsIs ∧ n ≠ c.OrderByDesc) ↔
        ¬ ∃ n, IntOf q.order_by n ∧
          (n = c.OrderByAsc ∨ n = c.OrderByAsIs ∨ n = c.OrderByDesc) := by
      constructor
      · rintro h ⟨n, hn, hv⟩
        obtain ⟨h1, h2, h3⟩ := h n ((atoi_iff _ n).2 hn)
        rcases hv with hv | hv | hv
        · exact h1 hv
        · exact h2 hv
        · exact h3 hv
      · intro h n hn
        refine ⟨fun hv => h ⟨n, (atoi_iff _ n).1 hn, Or.inl hv⟩,
          fun hv => h ⟨n, (atoi_iff _ n).1 hn, Or.inr (Or.inl hv)⟩,
          fun hv => h ⟨n, (atoi_iff _ n).1 hn, Or.inr (Or.inr hv)⟩⟩
    rw [e1, atoi_none_iff, atoi_none_iff]
    rfl
  rcases processQueryParams_cases c encodeOk q with
    ⟨hb, text, hP⟩ | ⟨hnb, order, limit, offset, h1, h2, h3, hP⟩
  · rw [hP]
    have he : ∃ e, (badRequest encodeOk text).result = Except.error e := by
      unfold badRequest
      cases encodeOk
      · exact ⟨_, rfl⟩
      · exact ⟨_, rfl⟩
    exact ⟨⟨fun _ => hconv.1 hb, fun _ => he⟩, fun _ => rfl, fun hne => absurd he hne⟩
  · rw [hP]
    refine ⟨⟨?_, fun h => absurd (hconv.2 h) hnb⟩, ?_,
      fun _ => ⟨rfl, order, limit, offset, ?_, ?_, ?_, rfl⟩⟩
    · rintro ⟨e, he⟩
      cases he
    · rintro ⟨e, he⟩
      cases he
    · split
      · rename_i h
        rw [if_pos h] at h1
        exact h1
      · rename_i h
        rw [if_neg h] at h1
        exact (atoi_iff _ _).1 h1
    · split
      · rename_i h
        rw [if_pos h] at h2
        exact h2
      · rename_i h
        rw [if_neg h] at h2
        exact (atoi_iff _ _).1 h2
    · split
      · rename_i h
        rw [if_pos h] at h3
        exact h3
      · rename_i h
        rw [if_neg h] at h3
        exact (atoi_iff _ _).1 h3

/-- C20 on sample queries: `limit=10&offset=33` is accepted with the values 10 and 33
and the defaults; `limit=abc`, `offset=1.5`, `order_by=1000`, `order_by=x` and
`order_field=Salary` are answered with 400; `"10"` denotes 10, `"-7"` denotes -7 and
`"abc"` denotes no integer. -/
theorem processQueryParams_spec_witness :
    (ProccesQueryParams sampleConsts true ⟨"", "", "10", "33", ""⟩).status = none ∧
    (match (ProccesQueryParams sampleConsts true ⟨"", "", "10", "33", ""⟩).result with
      | Except.ok r => some (r.Limit, r.Offset, r.Query, r.OrderField, r.OrderBy)
      | Except.error _ => none) = some (10, 33, "", "Name", 0) ∧
    (match (ProccesQueryParams sampleConsts true ⟨"Age", "-1", "", "", "an"⟩).result with
      | Except.ok r => some (r.Limit, r.Offset, r.Query, r.OrderField, r.OrderBy)
      | Except.error _ => none) = some (-1, 0, "an", "Age", -1) ∧
    (ProccesQueryParams sampleConsts true ⟨"", "", "abc", "", ""⟩).status = some 400 ∧
    (ProccesQueryParams sampleConsts true ⟨"", "", "", "1.5", ""⟩).status = some 400 ∧
    (ProccesQueryParams sampleConsts true ⟨"", "1000", "", "", ""⟩).status = some 400 ∧
    (ProccesQueryParams sampleConsts true ⟨"", "x", "", "", ""⟩).status = some 400 ∧
    (ProccesQueryParams sampleConsts true ⟨"Salary", "", "", "", ""⟩).status = some 400 ∧
    IntOf "10" 10 ∧ IntOf "-7" (-7) ∧ (¬ ∃ n, IntOf "abc" n) ∧
    ((("" : String) ≠ "" ∧ ("" : String) ≠ "Name" ∧ ("" : String) ≠ "Id" ∧
        ("" : String) ≠ "Age") ∨
      (("" : String) ≠ "" ∧ ¬ ∃ n, IntOf "" n ∧
        (n = sampleConsts.OrderByAsc ∨ n = sampleConsts.OrderByAsIs ∨
          n = sampleConsts.OrderByDesc)) ∨
      (("abc" : String) ≠ "" ∧ ¬ ∃ n, IntOf "abc" n) ∨
      (("" : String) ≠ "" ∧ ¬ ∃ n, IntOf "" n)) :=
  ⟨by decide, by decide, by decide, by decide, by decide, by decide, by decide, by decide,
    (atoi_iff "10" 10).1 (by decide), (atoi_iff "-7" (-7)).1 (by decide),
    (atoi_none_iff "abc").1 (by decide),
    (processQueryParams_spec sampleConsts true ⟨"", "", "abc", "", ""⟩).1.1
      ⟨ParamError.errQueryError, rfl⟩⟩

/-- Witness of C19 at the three sample users: ordered by name they are Boyd Wolf,
Brooks Aguilar, Hilda Mayer, ascending, and the reverse, descending; ordered by `Age`
they are the users 1, 0, 2. -/
theorem orderUsers_spec_witness :
    SortsBy (stableSort : (UserXMLData → UserXMLData → Int) → List UserXMLData →
      List UserXMLData) ∧
    sampleConsts.OrderByAsc ≠ sampleConsts.OrderByAsIs ∧
    sampleConsts.OrderByDesc ≠ sampleConsts.OrderByAsIs ∧
    sampleConsts.OrderByAsc ≠ sampleConsts.OrderByDesc ∧
    (OrderUsers sampleConsts stableSort sampleUsers "Name" sampleConsts.OrderByAsc).map
        (fun u => u.FirstName ++ " " ++ u.LastName)
      = ["Boyd Wolf", "Brooks Aguilar", "Hilda Mayer"] ∧
    (OrderUsers sampleConsts stableSort sampleUsers "Name" sampleConsts.OrderByDesc).map
        (fun u => u.FirstName ++ " " ++ u.LastName)
      = ["Hilda Mayer", "Brooks Aguilar", "Boyd Wolf"] ∧
    (OrderUsers sampleConsts stableSort sampleUsers "Age" sampleConsts.OrderByAsc).map
        (fun u => u.ID) = [1, 0, 2] ∧
    (OrderUsers sampleConsts stableSort sampleUsers "Id" sampleConsts.OrderByDesc).map
        (fun u => u.ID) = [2, 1, 0] ∧
    ((OrderUsers sampleConsts stableSort sampleUsers "Name" sampleConsts.OrderByAsc).Pairwise
        (fun a b => a.FirstName ++ " " ++ a.LastName ≤ b.FirstName ++ " " ++ b.LastName) ∧
      (OrderUsers sampleConsts stableSort sampleUsers "Name" sampleConsts.OrderByDesc).Pairwise
        (fun a b => b.FirstName ++ " " ++ b.LastName ≤ a.FirstName ++ " " ++ a.LastName)) :=
  ⟨stableSort_sortsBy, by decide, by decide, by decide, by decide, by decide, by decide,
    by decide,
    (orderUsers_spec sampleConsts stableSort sampleUsers "Name" stableSort_sortsBy
      (by decide) (by decide) (by decide)).2.2.2.2.2 (by decide) (by decide)⟩

end SearchServer

/-! # Theorems: the semaphore of `CheckSpam` -/

namespace Spammer

namespace CheckSpam

theorem checkSpam_unfinished_le (K : Nat) (HasSpam : Nat → MsgID → Option Bool)
    (input0 : List Value) (s : State) (h : Inv K HasSpam input0 s) :
    unfinished s ≤ (input0.filterMap asMsgID).length := by
  have hid := congrArg List.length h.idents
  simp only [List.length_append, List.length_map, List.enumFrom_length,
    List.enum_length] at hid
  have := List.countP_le_length (fun t => decide (t.pc ≠ PC.done)) (l := s.tasks)
  unfold unfinished
  omega

theorem checkSpam_stepMain_sem (s : State) :
    (stepMain s).sem = s.sem ∧
    (stepMain s).tasks.countP (fun t => holdsSlot t.pc)
      = s.tasks.countP (fun t => holdsSlot t.pc) := by
  unfold stepMain
  split
  · exact ⟨rfl, rfl⟩
  · split
    · split
      · refine ⟨rfl, ?_⟩
        simp [List.countP_append, holdsSlot]
      · exact ⟨rfl, rfl⟩
    · split
      · exact ⟨rfl, rfl⟩
      · exact ⟨rfl, rfl⟩

theorem checkSpam_spawn_all (K : Nat) (HasSpam : Nat → MsgID → Option Bool) :
    ∀ (input : List Value) (s : State), s.returned = false → s.input = input →
      unfinished (runSched (step K HasSpam) (List.replicate input.length 0) s)
        = unfinished s + (input.filterMap asMsgID).length := by
  intro input
  induction input with
  | nil =>
    intro s _ _
    simp [runSched]
  | cons v rest ih =>
    intro s hret hin
    have hstep : step K HasSpam 0 s = stepMain s := rfl
    simp only [List.length_cons, List.replicate_succ, runSched, List.foldl_cons, hstep]
    have key := ih (stepMain s)
    simp only [runSched] at key
    cases hv : asMsgID v with
    | none =>
      have e : stepMain s = { s with input := rest } := by
        unfold stepMain
        simp [hret, hin, hv]
      rw [key (by rw [e]; exact hret) (by rw [e]), List.filterMap_cons, hv, e]
      rfl
    | some m =>
      have e : stepMain s
          = { s with input := rest, tasks := s.tasks ++ [⟨s.tasks.length, m, .acquire⟩] } := by
        unfold stepMain
        simp [hret, hin, hv]
      rw [key (by rw [e]; exact hret) (by rw [e]), List.filterMap_cons, hv, e]
      simp only [unfinished, List.countP_append, List.length_cons]
      simp
      omega

set_option maxRecDepth 100000 in
/-- Counterexample to C22 as stated: with capacity `K = 1`, after `CheckSpam` has
received three message ids it has spawned three classification goroutines, none of
which has finished, while `sem` is still empty: no slot was acquired before a spawn and
the unfinished goroutines outnumber `K`. -/
theorem checkSpam_spawned_exceed_capacity :
    unfinished (run 1 sampleHasSpam [0, 0, 0] sampleIds) = 3 ∧
    (run 1 sampleHasSpam [0, 0, 0] sampleIds).sem = 0 ∧
    ¬ unfinished (run 1 sampleHasSpam [0, 0, 0] sampleIds) ≤ 1 := by
  decide

/-- C22, amended: `CheckSpam` spawns the classification goroutine first and the
goroutine acquires the slot itself (spammer.go:135-139). A statement of the stage
goroutine changes neither `sem` nor the number of goroutines holding a slot; at every
point of every run the goroutines holding a slot number at most `K`, while the spawned
and unfinished goroutines are bounded only by the number of message ids received, a
bound that is reached when the stage goroutine runs alone. -/
theorem checkSpam_acquire_after_spawn (K : Nat) (HasSpam : Nat → MsgID → Option Bool)
    (input : List Value) (sched : List Nat) :
    (∀ s : State, (stepMain s).sem = s.sem ∧
      (stepMain s).tasks.countP (fun t => holdsSlot t.pc)
        = s.tasks.countP (fun t => holdsSlot t.pc)) ∧
    (run K HasSpam sched input).tasks.countP (fun t => holdsSlot t.pc) ≤ K ∧
    unfinished (run K HasSpam sched input) ≤ (input.filterMap asMsgID).length ∧
    unfinished (run K HasSpam (List.replicate input.length 0) input)
      = (input.filterMap asMsgID).length := by
  have h := checkSpam_inv_run K HasSpam sched input
  refine ⟨checkSpam_stepMain_sem, ?_, checkSpam_unfinished_le K HasSpam input _ h, ?_⟩
  · have hs := h.slots
    have hb := h.bound
    omega
  · have := checkSpam_spawn_all K HasSpam input (init input) rfl rfl
    unfold run
    rw [this]
    simp [unfinished, init]

/-- C23: at every point of every run of `CheckSpam` the number of elements held in
`sem` equals the number of classification goroutines between their acquire and their
deferred release, whether `HasSpam` succeeded or failed; when `CheckSpam` has returned
no slot is held; and with capacity at least one every partial run can be continued
until it returns with `sem` empty. -/
theorem checkSpam_slots_released (K : Nat) (HasSpam : Nat → MsgID → Option Bool)
    (input : List Value) (sched : List Nat) :
    (run K HasSpam sched input).sem
      = (run K HasSpam sched input).tasks.countP (fun t => holdsSlot t.pc) ∧
    ((run K HasSpam sched input).returned = true → (run K HasSpam sched input).sem = 0) ∧
    (1 ≤ K → ∃ more, (run K HasSpam (sched ++ more) input).returned = true ∧
      (run K HasSpam (sched ++ more) input).sem = 0) := by
  have hret : ∀ sc, (run K HasSpam sc input).returned = true →
      (run K HasSpam sc input).sem = 0 := by
    intro sc hr
    have h := checkSpam_inv_run K HasSpam sc input
    obtain ⟨-, hdone⟩ := h.ret hr
    rw [h.slots, List.countP_eq_zero]
    intro t ht
    rw [hdone t ht]
    decide
  refine ⟨(checkSpam_inv_run K HasSpam sched input).slots, hret sched, fun hK => ?_⟩
  obtain ⟨more, hm⟩ := checkSpam_can_return K HasSpam input hK sched
  exact ⟨more, hm, hret _ hm⟩

set_option maxRecDepth 100000 in
/-- Witness of C23: three ids under capacity 2, the classification of message 12
failing; a slot is held in the middle of the run and none at its end. -/
theorem checkSpam_slots_released_witness :
    (run 2 sampleHasSpam sampleSched sampleIds).returned = true ∧
    (run 2 sampleHasSpam (sampleSched.take 8) sampleIds).sem = 2 ∧
    (run 2 sampleHasSpam sampleSched sampleIds).sem = 0 :=
  ⟨by decide, by decide,
    (checkSpam_slots_released 2 sampleHasSpam sampleIds sampleSched).2.1 (by decide)⟩

end CheckSpam

end Spammer

/-! # Theorems: external calls and batches -/

namespace Spammer

theorem ordinals_nodup {β : Type} (ks : List (Nat × β)) (n : Nat) (rest l : List β)
    (h : ks ++ List.enumFrom n rest = l.enum) : (ks.map Prod.fst).Nodup := by
  have h2 := congrArg (List.map Prod.fst) h
  rw [List.map_append, List.enum_map_fst] at h2
  have hn : (ks.map Prod.fst ++ (List.enumFrom n rest).map Prod.fst).Nodup := by
    rw [h2]
    exact List.nodup_range _
  exact hn.of_append_left

theorem calls_ordinals_nodup {τ β : Type} (tasks : List τ) (key : τ → Nat × β)
    (p : τ → Bool) (calls : List (Nat × β))
    (hlog : calls.Perm ((tasks.filter p).map key))
    (hk : ((tasks.map key).map Prod.fst).Nodup) : (calls.map Prod.fst).Nodup := by
  refine ((hlog.map Prod.fst).nodup_iff).2 ?_
  exact hk.sublist (((List.filter_sublist tasks).map key).map Prod.fst)

theorem selectUsers_final_calls (GetUser : Nat → String → User) (input0 : List Value)
    (s : SelectUsers.State) (h : SelectUsers.Inv GetUser input0 s)
    (hret : s.returned = true) : s.calls.Perm (input0.filterMap asString).enum := by
  obtain ⟨hin, hdone⟩ := h.ret hret
  have hid := h.idents
  simp only [hin, List.filterMap_nil, List.enumFrom_nil, List.append_nil] at hid
  have := h.logged
  rwa [List.filter_eq_self.2 (fun t ht => by rw [hdone t ht]; rfl), hid] at this

/-- C24: no external call is retried. In every run each goroutine makes at most one
call (the ordinals of the callers in the call log are distinct), and when the stage has
returned the calls are exactly: one `GetUser` call per string received by
`SelectUsers`, duplicates included; one `GetMessages` call per batch `SelectMessages`
formed; one `HasSpam` call per message id received by `CheckSpam`. The calls are logged
before their outcome is inspected, so a failed call counts like a successful one. -/
theorem external_calls_once (sv : Services) (B K : Nat) (input : List Value)
    (sched : List Nat) :
    (((SelectUsers.run sv.GetUser sched input).calls.map Prod.fst).Nodup ∧
      ((SelectUsers.run sv.GetUser sched input).returned = true →
        (SelectUsers.run sv.GetUser sched input).calls.Perm
          (input.filterMap asString).enum)) ∧
    (((SelectMessages.run B sv.GetMessages sched input).calls.map Prod.fst).Nodup ∧
      ((SelectMessages.run B sv.GetMessages sched input).returned = true →
        (SelectMessages.run B sv.GetMessages sched input).calls.Perm
          ((SelectMessages.run B sv.GetMessages sched input).tasks.map
            (fun t => (t.k, t.batch))))) ∧
    (((CheckSpam.run K sv.HasSpam sched input).calls.map Prod.fst).Nodup ∧
      ((CheckSpam.run K sv.HasSpam sched input).returned = true →
        (CheckSpam.run K sv.HasSpam sched input).calls.Perm
          (input.filterMap asMsgID).enum)) := by
  have hu := SelectUsers.selectUsers_inv_run sv.GetUser sched input
  have hm := SelectMessages.selectMessages_inv_run B sv.GetMessages sched input
  have hc := CheckSpam.checkSpam_inv_run K sv.HasSpam sched input
  refine ⟨⟨?_, fun hret => selectUsers_final_calls sv.GetUser input _ hu hret⟩,
    ⟨?_, fun hret =>
      (SelectMessages.selectMessages_final_ids B sv.GetMessages input _ hm hret).2.2⟩,
    ⟨?_, fun hret => (CheckSpam.checkSpam_final K sv.HasSpam input _ hc hret).2.2⟩⟩
  · exact calls_ordinals_nodup _ (fun t : SelectUsers.Task => (t.k, t.email)) _ _ hu.logged
      (ordinals_nodup _ _ _ _ hu.idents)
  · refine calls_ordinals_nodup _ (fun t : SelectMessages.Task => (t.k, t.batch)) _ _ hm.logged ?_
    rw [List.map_map]
    have := hm.ks
    simp only [Function.comp_def]
    rw [this]
    exact List.nodup_range _
  · exact calls_ordinals_nodup _ (fun t : CheckSpam.Task => (t.k, t.msgID)) _ _ hc.logged
      (ordinals_nodup _ _ _ _ hc.idents)

set_option maxRecDepth 100000 in
/-- Witness of C24 on the sample runs: four strings with a repeated e-mail give four
`GetUser` calls, seven users in batches of three give three `GetMessages` calls, three
message ids give three `HasSpam` calls, the failing one included. -/
theorem external_calls_once_witness :
    (SelectUsers.run SelectUsers.sampleGetUser SelectUsers.sampleSched
      SelectUsers.sampleEmails).returned = true ∧
    (SelectUsers.run SelectUsers.sampleGetUser SelectUsers.sampleSched
      SelectUsers.sampleEmails).calls.length = 4 ∧
    (SelectMessages.run 3 SelectMessages.sampleGetMessages SelectMessages.sampleSched
      SelectMessages.sampleUsers).calls.length = 3 ∧
    (CheckSpam.run 2 CheckSpam.sampleHasSpam CheckSpam.sampleSched
      CheckSpam.sampleIds).calls.length = 3 ∧
    (SelectUsers.run SelectUsers.sampleGetUser SelectUsers.sampleSched
      SelectUsers.sampleEmails).calls.Perm
        (SelectUsers.sampleEmails.filterMap asString).enum :=
  ⟨by decide, by decide, by decide, by decide,
    (external_calls_once ⟨SelectUsers.sampleGetUser, SelectMessages.sampleGetMessages,
      CheckSpam.sampleHasSpam⟩ 3 2 SelectUsers.sampleEmails
      SelectUsers.sampleSched).1.2 (by decide)⟩

namespace SelectMessages

/-- C27: for every sequence of received users and every batch size, the batches
`SelectMessages` forms, in the order they are formed (the order of the workers'
ordinals), concatenate to the received user sequence. At every point of every run the
batches formed so far, then the buffer, then the users still to be received make up
the received sequence, so resetting the buffer loses and duplicates nothing; every
partial run can be continued until the stage returns; and when it has returned the
concatenated batches are the whole sequence, and the `GetMessages` calls made are
these batches, one call each. -/
theorem selectMessages_batches_concat (B : Nat)
    (GetMessages : Nat → List User → Option (List MsgID)) (input : List Value)
    (sched : List Nat) :
    (((run B GetMessages sched input).tasks.map (fun t => t.batch)).flatten ++
        (if (run B GetMessages sched input).flushed then []
          else (run B GetMessages sched input).users) ++
        (run B GetMessages sched input).input.filterMap asUser
      = input.filterMap asUser) ∧
    (run B GetMessages sched input).tasks.map (fun t => t.k)
      = List.range (run B GetMessages sched input).tasks.length ∧
    (∃ more, (run B GetMessages (sched ++ more) input).returned = true) ∧
    ((run B GetMessages sched input).returned = true →
      ((run B GetMessages sched input).tasks.map (fun t => t.batch)).flatten
        = input.filterMap asUser ∧
      (run B GetMessages sched input).calls.Perm
        ((run B GetMessages sched input).tasks.map (fun t => (t.k, t.batch)))) := by
  have h := selectMessages_inv_run B GetMessages sched input
  refine ⟨h.batches, h.ks, selectMessages_can_return B GetMessages input sched,
    fun hret => ⟨?_, (selectMessages_final_ids B GetMessages input _ h hret).2.2⟩⟩
  obtain ⟨hfl, -⟩ := h.ret hret
  obtain ⟨hin, -⟩ := h.drained hfl
  have := h.batches
  simpa [hfl, hin] using this

set_option maxRecDepth 100000 in
/-- Witness of C27: seven users in batches of three. -/
theorem selectMessages_batches_concat_witness :
    (run 3 sampleGetMessages sampleSched sampleUsers).returned = true ∧
    (run 3 sampleGetMessages sampleSched sampleUsers).tasks.map (fun t => t.batch.map User.ID)
      = [[1, 2, 3], [4, 5, 6], [7]] ∧
    ((run 3 sampleGetMessages sampleSched sampleUsers).tasks.map (fun t => t.batch)).flatten
      = sampleUsers.filterMap asUser :=
  ⟨by decide, by decide,
    ((selectMessages_batches_concat 3 sampleGetMessages sampleUsers sampleSched).2.2.2
      (by decide)).1⟩

end SelectMessages

end Spammer

/-! # Theorems: the channels between the stages and the comparator -/

namespace Spammer

namespace RunPipeline

theorem handoff_step_inv (who : Nat) (h : Handoff) (values : List Value)
    (hb : h.buffer = []) (hv : h.received ++ h.toSend = values) :
    (handoffStep chanCapacity who h).buffer = [] ∧
    (handoffStep chanCapacity who h).received ++ (handoffStep chanCapacity who h).toSend
      = values := by
  obtain ⟨toSend, buffer, receiving, received⟩ := h
  simp only at hb hv
  subst hb
  cases who with
  | zero =>
    cases toSend with
    | nil => exact ⟨rfl, hv⟩
    | cons v rest =>
      cases receiving with
      | false => exact ⟨rfl, hv⟩
      | true =>
        refine ⟨rfl, ?_⟩
        show (received ++ [v]) ++ rest = values
        rw [← hv]
        simp
  | succ n => exact ⟨rfl, hv⟩

theorem handoff_run_inv (values : List Value) (sched : List Nat) :
    (runSched (handoffStep chanCapacity) sched (handoff values)).buffer = [] ∧
    (runSched (handoffStep chanCapacity) sched (handoff values)).received ++
      (runSched (handoffStep chanCapacity) sched (handoff values)).toSend = values :=
  runSched_invariant (handoffStep chanCapacity)
    (fun h => h.buffer = [] ∧ h.received ++ h.toSend = values)
    (fun who h hh => handoff_step_inv who h values hh.1 hh.2) sched (handoff values)
    ⟨rfl, rfl⟩

theorem handoff_alternate (values : List Value) :
    ∀ (received : List Value),
      (runSched (handoffStep chanCapacity) ((List.replicate values.length [1, 0]).flatten)
        ⟨values, [], false, received⟩) = ⟨[], [], false, received ++ values⟩ := by
  induction values with
  | nil =>
    intro received
    simp [runSched]
  | cons v rest ih =>
    intro received
    have e : runSched (handoffStep chanCapacity) [1, 0] ⟨v :: rest, [], false, received⟩
        = ⟨rest, [], false, received ++ [v]⟩ := rfl
    simp only [List.length_cons, List.replicate_succ, List.flatten_cons]
    rw [runSched_append, e, ih]
    simp

/-- Counterexample to C25 as stated: on a channel made by `RunPipeline` the very first
send of a stage blocks when the downstream stage is not receiving, although no value
is waiting to be received: however often the sender is scheduled, nothing is sent. -/
theorem handoff_first_send_blocks :
    sendStep chanCapacity (handoff [.str "a@x", .str "b@x"]) = handoff [.str "a@x", .str "b@x"] ∧
    runSched (handoffStep chanCapacity) [0, 0, 0, 0] (handoff [.str "a@x", .str "b@x"])
      = handoff [.str "a@x", .str "b@x"] ∧
    (runSched (handoffStep chanCapacity) [0, 0, 0, 0]
      (handoff [.str "a@x", .str "b@x"])).buffer.length = 0 := by
  decide

/-- C25, amended: the channels `RunPipeline` creates between stages are unbuffered.
At every point of every interleaving of two adjacent stages no value is held in the
channel, the values received followed by the values still to be sent are the values
of the upstream stage in order, and a pending send is blocked exactly while the
downstream stage is not receiving; when the stages take turns every value is handed
over. -/
theorem handoff_unbuffered (values : List Value) (sched : List Nat) :
    (runSched (handoffStep chanCapacity) sched (handoff values)).buffer = [] ∧
    (runSched (handoffStep chanCapacity) sched (handoff values)).received ++
      (runSched (handoffStep chanCapacity) sched (handoff values)).toSend = values ∧
    ((runSched (handoffStep chanCapacity) sched (handoff values)).toSend ≠ [] →
      (sendBlocked chanCapacity (runSched (handoffStep chanCapacity) sched (handoff values)) ↔
        (runSched (handoffStep chanCapacity) sched (handoff values)).receiving = false)) ∧
    (runSched (handoffStep chanCapacity) ((List.replicate values.length [1, 0]).flatten)
      (handoff values)).received = values := by
  obtain ⟨hb, hv⟩ := handoff_run_inv values sched
  refine ⟨hb, hv, fun hne => ?_, ?_⟩
  · generalize runSched (handoffStep chanCapacity) sched (handoff values) = h at hb hne
    obtain ⟨toSend, buffer, receiving, received⟩ := h
    simp only at hb hne
    subst hb
    cases toSend with
    | nil => exact absurd rfl hne
    | cons v rest =>
      cases receiving with
      | false => exact ⟨fun _ => rfl, fun _ => ⟨hne, rfl⟩⟩
      | true =>
        refine ⟨fun hbl => ?_, fun hf => by cases hf⟩
        have := congrArg (fun x => x.toSend.length) hbl.2
        simp [sendStep] at this
  · have := handoff_alternate values []
    unfold handoff
    rw [this]
    rfl

end RunPipeline

theorem cmpMsgData_self (a : MsgData) : cmpMsgData a a = 1 := by
  simp [cmpMsgData]

theorem cmpMsgData_neg_of_ne (a b : MsgData) (h : a ≠ b) :
    cmpMsgData a b = -cmpMsgData b a := by
  obtain ⟨ia, sa⟩ := a
  obtain ⟨ib, sb⟩ := b
  have hne : sa = sb → ia ≠ ib := by
    rintro rfl rfl
    exact h rfl
  unfold cmpMsgData
  cases sa <;> cases sb <;> simp at hne ⊢
  all_goals
    unfold MsgID at *
    by_cases h1 : ia < ib
    · have h2 : ¬ ib < ia := by omega
      simp [h1, h2]
    · have h2 : ib < ia := by omega
      simp [h1, h2]

/-- C26: the comparator of `CombineResults` never returns 0. On two records with the
same `HasSpam` and the same `ID` it returns 1 in both directions, so
`cmp(a, b) = -cmp(b, a)` fails and `cmp(a, b)` is not 0, where the claim says 0. -/
theorem cmpMsgData_equal_records :
    cmpMsgData ⟨7, false⟩ ⟨7, false⟩ = 1 ∧
    -cmpMsgData ⟨7, false⟩ ⟨7, false⟩ = -1 ∧
    cmpMsgData ⟨7, false⟩ ⟨7, false⟩ ≠ -cmpMsgData ⟨7, false⟩ ⟨7, false⟩ ∧
    cmpMsgData ⟨7, false⟩ ⟨7, false⟩ ≠ 0 := by
  decide

end Spammer

/-! # Theorems: note store -/

namespace NoteStore

theorem exec_append (calls : List Call) (c : Call) :
    exec (calls ++ [c]) = apply (exec calls) c := by
  simp [exec, List.foldl_append]

theorem creates_append (calls : List Call) (c : Call) :
    creates (calls ++ [c]) = creates calls + (if isCreate c = true then 1 else 0) := by
  simp [creates, List.countP_append, List.countP_cons]

theorem apply_lastID (repo : Repo) (c : Call) (h : isCreate c = false) :
    (apply repo c).lastID = repo.lastID := by
  cases c with
  | get id => rfl
  | create text created updated => cases h
  | update id text now =>
    show (UpdateNote repo id text now).1.lastID = repo.lastID
    unfold UpdateNote
    split <;> rfl
  | delete id =>
    show (DeleteNote repo id).1.lastID = repo.lastID
    unfold DeleteNote
    split <;> rfl

theorem createNote_id (repo : Repo) (text : String) (created updated : Nat) (n : Nat)
    (hl : repo.lastID = if n = 0 then 0 else (n : Int) + 1)
    (hn : (n : Int) + 1 < 2 ^ 63) :
    (CreateNote repo text created updated).2.ID = (n : Int) + 1 ∧
    ((n : Int) + 2 < 2 ^ 63 →
      (CreateNote repo text created updated).1.lastID = (n : Int) + 2) := by
  have h1 : SearchServer.wrapInt (0 + 1) = 1 := by decide
  unfold CreateNote
  simp only
  by_cases h0 : n = 0
  · subst h0
    simp only [if_true] at hl
    rw [hl, if_pos rfl, h1]
    refine ⟨by simp, fun _ => ?_⟩
    decide
  · rw [if_neg h0] at hl
    have hne : repo.lastID ≠ 0 := by omega
    rw [if_neg hne, hl]
    refine ⟨rfl, fun h2 => ?_⟩
    rw [SearchServer.wrapInt_of_range _ (by omega) (by omega)]
    omega

theorem exec_lastID (calls : List Call) (h : (creates calls : Int) + 1 < 2 ^ 63) :
    (exec calls).lastID = if creates calls = 0 then 0 else (creates calls : Int) + 1 := by
  induction calls using List.reverseRecOn with
  | nil => rfl
  | append_singleton l c ih =>
    rw [exec_append]
    rw [creates_append] at h ⊢
    cases hc : isCreate c with
    | false =>
      rw [hc] at h
      simp only [Bool.false_eq_true, if_false, add_zero] at h ⊢
      rw [apply_lastID _ _ hc]
      exact ih h
    | true =>
      rw [hc] at h
      simp only [if_true] at h ⊢
      push_cast at h
      obtain ⟨text, created, updated, rfl⟩ : ∃ t a b, c = Call.create t a b := by
        cases c <;> simp [isCreate] at hc
        exact ⟨_, _, _, rfl⟩
      have := (createNote_id (exec l) text created updated (creates l) (ih (by omega))
        (by omega)).2 (by omega)
      show (CreateNote (exec l) text created updated).1.lastID = _
      rw [this, if_neg (by omega)]
      push_cast
      omega

/-- C21: in a repository made by `NewMemoryRepo`, after any calls of `GetNote`,
`CreateNote`, `UpdateNote` and `DeleteNote` of which `k - 1` are `CreateNote` calls, the
next `CreateNote`, the `k`-th, returns a note with ID `k` and the given text, for every
`k` in the range of `int`; so the first one returns ID 1. The note is then what
`GetNote` returns under that ID, and no earlier `CreateNote` returned the same ID,
whatever was deleted in between. -/
theorem createNote_kth_id (calls : List Call) (text : String) (created updated : Nat)
    (hk : (creates calls : Int) + 1 ≤ SearchServer.MaxInt) :
    (CreateNote (exec calls) text created updated).2.ID = (creates calls : Int) + 1 ∧
    (CreateNote (exec calls) text created updated).2.Text = text ∧
    (creates calls = 0 → (CreateNote (exec calls) text created updated).2.ID = 1) ∧
    GetNote (CreateNote (exec calls) text created updated).1 ((creates calls : Int) + 1)
      = some (CreateNote (exec calls) text created updated).2 ∧
    (∀ pre more text0 created0 updated0,
      calls = pre ++ Call.create text0 created0 updated0 :: more →
      (CreateNote (exec pre) text0 created0 updated0).2.ID
        ≠ (CreateNote (exec calls) text created updated).2.ID) := by
  have hM : SearchServer.MaxInt = 2 ^ 63 - 1 := rfl
  have hid : ∀ (cs : List Call) t a b, (creates cs : Int) + 1 < 2 ^ 63 →
      (CreateNote (exec cs) t a b).2.ID = (creates cs : Int) + 1 := fun cs t a b h =>
    (createNote_id (exec cs) t a b (creates cs) (exec_lastID cs h) h).1
  have hthis := hid calls text created updated (by omega)
  refine ⟨hthis, rfl, fun h0 => by rw [hthis, h0]; rfl, ?_, ?_⟩
  · have e : (CreateNote (exec calls) text created updated).1.data
        ((CreateNote (exec calls) text created updated).2.ID)
        = some (CreateNote (exec calls) text created updated).2 := by
      simp [CreateNote]
    rw [hthis] at e
    exact e
  · intro pre more text0 created0 updated0 hc
    have hcr : creates calls = creates pre + 1 + creates more := by
      rw [hc]
      simp [creates, List.countP_append, List.countP_cons, isCreate]
      omega
    rw [hthis, hid pre text0 created0 updated0 (by omega), hcr]
    push_cast
    omega

/-- Witness of C21: a create, the deletion of note 1 and two more calls; the second
create returns ID 2, and ID 1 stays free. -/
theorem createNote_kth_id_witness :
    (creates [Call.create "first" 1 1, Call.delete 1, Call.get 1, Call.update 7 "x" 2] : Int)
      + 1 ≤ SearchServer.MaxInt ∧
    (CreateNote (exec [Call.create "first" 1 1, Call.delete 1, Call.get 1,
      Call.update 7 "x" 2]) "Test Note" 3 3).2.ID = 2 ∧
    (CreateNote NewMemoryRepo "Test Note" 0 0).2.ID = 1 ∧
    GetNote (CreateNote (exec [Call.create "first" 1 1, Call.delete 1, Call.get 1,
      Call.update 7 "x" 2]) "Test Note" 3 3).1 1 = none :=
  ⟨by decide,
    (createNote_kth_id [Call.create "first" 1 1, Call.delete 1, Call.get 1,
      Call.update 7 "x" 2] "Test Note" 3 3 (by decide)).1,
    by decide, by decide⟩

end NoteStore

/-! # Theorems: post repository -/

namespace RedditPost

theorem wrapInt_add_left (a b : Int) :
    SearchServer.wrapInt (SearchServer.wrapInt a + b) = SearchServer.wrapInt (a + b) := by
  unfold SearchServer.wrapInt
  omega

theorem wrapInt_add_right (a b : Int) :
    SearchServer.wrapInt (a + SearchServer.wrapInt b) = SearchServer.wrapInt (a + b) := by
  unfold SearchServer.wrapInt
  omega

theorem wrapInt_sub_left (a b : Int) :
    SearchServer.wrapInt (SearchServer.wrapInt a - b) = SearchServer.wrapInt (a - b) := by
  unfold SearchServer.wrapInt
  omega

theorem findVote_none (userID : String) (vs : List Vote) (i : Nat)
    (h : findVote userID vs i = none) : userID ∉ vs.map (fun v => v.User) := by
  induction vs generalizing i with
  | nil => simp
  | cons v rest ih =>
    unfold findVote at h
    by_cases hv : v.User = userID
    · rw [if_pos hv] at h
      cases h
    · rw [if_neg hv] at h
      simp only [List.map_cons, List.mem_cons, not_or]
      exact ⟨fun e => hv e.symm, ih _ h⟩

theorem findVote_some (userID : String) (vs : List Vote) (i j : Nat) (ev : Int)
    (h : findVote userID vs i = some (j, ev)) :
    ∃ k, j = i + k ∧ vs[k]? = some ⟨userID, ev⟩ := by
  induction vs generalizing i with
  | nil => cases h
  | cons v rest ih =>
    unfold findVote at h
    by_cases hv : v.User = userID
    · rw [if_pos hv] at h
      simp only [Option.some.injEq, Prod.mk.injEq] at h
      refine ⟨0, by omega, ?_⟩
      obtain ⟨u, w⟩ := v
      simp only at hv h
      simp [hv, h.2]
    · rw [if_neg hv] at h
      obtain ⟨k, hk, hget⟩ := ih _ h
      exact ⟨k + 1, by omega, by simpa using hget⟩

theorem findVote_zero (userID : String) (vs : List Vote) (j : Nat) (ev : Int)
    (h : findVote userID vs 0 = some (j, ev)) : vs[j]? = some ⟨userID, ev⟩ := by
  obtain ⟨k, hk, hget⟩ := findVote_some userID vs 0 j ev h
  have : j = k := by omega
  rw [this]
  exact hget

theorem voteSum_append (vs : List Vote) (v : Vote) :
    voteSum (vs ++ [v]) = voteSum vs + v.Vote := by
  simp [voteSum]

theorem voteSum_eraseIdx (vs : List Vote) (k : Nat) (v : Vote) (h : vs[k]? = some v) :
    voteSum (vs.eraseIdx k) = voteSum vs - v.Vote := by
  induction vs generalizing k with
  | nil => simp at h
  | cons w rest ih =>
    cases k with
    | zero =>
      simp only [List.getElem?_cons_zero, Option.some.injEq] at h
      subst h
      simp [voteSum]
    | succ k =>
      simp only [List.getElem?_cons_succ] at h
      have := ih k h
      simp only [voteSum, List.eraseIdx_cons_succ, List.map_cons, List.sum_cons] at this ⊢
      omega

theorem voteSum_modify (vs : List Vote) (k : Nat) (v : Vote) (d : Int)
    (h : vs[k]? = some v) :
    voteSum (vs.modify (fun v => { v with Vote := d }) k) = voteSum vs - v.Vote + d := by
  induction vs generalizing k with
  | nil => simp at h
  | cons w rest ih =>
    cases k with
    | zero =>
      simp only [List.getElem?_cons_zero, Option.some.injEq] at h
      subst h
      simp [voteSum, List.modify]
      omega
    | succ k =>
      simp only [List.getElem?_cons_succ] at h
      have := ih k h
      simp only [voteSum, List.modify_succ_cons, List.map_cons, List.sum_cons] at this ⊢
      omega

theorem users_modify (vs : List Vote) (k : Nat) (d : Int) :
    (vs.modify (fun v => { v with Vote := d }) k).map (fun v => v.User)
      = vs.map (fun v => v.User) := by
  induction vs generalizing k with
  | nil => cases k <;> rfl
  | cons w rest ih =>
    cases k with
    | zero => simp [List.modify]
    | succ k => simp [List.modify_succ_cons, ih]

theorem mem_modify (vs : List Vote) (k : Nat) (d : Int) (x : Vote)
    (h : x ∈ vs.modify (fun v => { v with Vote := d }) k) : x ∈ vs ∨ x.Vote = d := by
  induction vs generalizing k with
  | nil => cases k <;> cases h
  | cons w rest ih =>
    cases k with
    | zero =>
      simp only [List.modify, List.modifyTailIdx, List.modifyHead, List.mem_cons] at h
      rcases h with h | h
      · exact Or.inr (by rw [h])
      · exact Or.inl (List.mem_cons_of_mem _ h)
    | succ k =>
      simp only [List.modify_succ_cons, List.mem_cons] at h
      rcases h with h | h
      · exact Or.inl (by rw [h]; exact List.mem_cons_self _ _)
      · rcases ih k h with h' | h'
        · exact Or.inl (List.mem_cons_of_mem _ h')
        · exact Or.inr h'

theorem upvotePercentage_eq (vs : List Vote) :
    upvotePercentage vs =
      (if vs = [] then 0
        else ((vs.countP (fun v => decide (v.Vote = VoteUp)) * 100 / vs.length : Nat) : Int)) := by
  unfold upvotePercentage
  cases vs with
  | nil => rfl
  | cons v rest => simp

theorem consistent_finish (q : Post) (hs : q.Score = SearchServer.wrapInt (voteSum q.Votes))
    (hn : (q.Votes.map (fun v => v.User)).Nodup) (hz : ∀ v ∈ q.Votes, v.Vote ≠ VoteNone)
    (hp : q.UpvotePercentage = upvotePercentage q.Votes) : Consistent q :=
  ⟨hs, hn, hz, hp.trans (upvotePercentage_eq q.Votes)⟩

theorem lookup_some (repo : Repo) (postID userID : String) (p : Post)
    (hp : repo.data postID = some p) :
    ∃ f, lookup repo postID userID = some f ∧ f.post = p ∧
      ((f.existingIndex = none ∧ userID ∉ p.Votes.map (fun v => v.User)) ∨
        ∃ j, f.existingIndex = some j ∧ p.Votes[j]? = some ⟨userID, f.existingVote⟩) := by
  unfold lookup
  rw [hp]
  simp only
  cases hf : findVote userID p.Votes 0 with
  | none => exact ⟨_, rfl, rfl, Or.inl ⟨rfl, findVote_none _ _ _ hf⟩⟩
  | some je =>
    obtain ⟨j, ev⟩ := je
    exact ⟨_, rfl, rfl, Or.inr ⟨j, rfl, findVote_zero userID p.Votes j ev hf⟩⟩

theorem update_other (repo : Repo) (postID userID : String) (d : Int) (f : Found)
    (out : Repo × Except VoteError Post) (h : update repo postID userID d f = some out)
    (id : String) (hid : id ≠ postID) : out.1.data id = repo.data id := by
  unfold update at h
  simp only at h
  split at h
  · split at h
    · cases h
      rfl
    · split at h
      · cases h
      · cases h
        simp [hid]
  · split at h
    · split at h
      · cases h
      · split at h
        · cases h
          simp [hid]
        · cases h
    · split at h
      · cases h
        rfl
      · split at h
        · cases h
        · split at h
          · cases h
            simp [hid]
          · cases h

theorem update_error (repo : Repo) (postID userID : String) (d : Int) (f : Found)
    (r : Repo) (e : VoteError) (h : update repo postID userID d f = some (r, Except.error e)) :
    r = repo := by
  unfold update at h
  simp only at h
  split at h
  · split at h
    · cases h
    · split at h
      · cases h
      · cases h
  · split at h
    · split at h
      · cases h
      · split at h
        · cases h
        · cases h
    · split at h
      · cases h
        rfl
      · split at h
        · cases h
        · split at h
          · cases h
          · cases h

theorem votePost_other (repo : Repo) (postID userID : String) (d : Int)
    (out : Repo × Except VoteError Post) (h : VotePost repo postID userID d = some out)
    (id : String) (hid : id ≠ postID) : out.1.data id = repo.data id := by
  unfold VotePost at h
  split at h
  · cases h
    rfl
  · exact update_other _ _ _ _ _ _ h id hid

theorem votePost_error (repo : Repo) (postID userID : String) (d : Int) (r : Repo)
    (e : VoteError) (h : VotePost repo postID userID d = some (r, Except.error e)) :
    r = repo := by
  unfold VotePost at h
  split at h
  · cases h
    rfl
  · exact update_error _ _ _ _ _ _ _ h

theorem votePost_missing (repo : Repo) (postID userID : String) (d : Int)
    (hp : repo.data postID = none) :
    VotePost repo postID userID d = some (repo, Except.error VoteError.ErrSourceNotFound) := by
  unfold VotePost lookup
  rw [hp]

theorem votePost_post (repo : Repo) (postID userID : String) (d : Int) (p : Post)
    (hp : repo.data postID = some p) (hc : Consistent p) :
    ∃ out q, VotePost repo postID userID d = some out ∧ out.1.data postID = some q ∧
      Consistent q := by
  obtain ⟨hs, hn, hz, hpc⟩ := hc
  obtain ⟨f, hf, hfp, hcase⟩ := lookup_some repo postID userID p hp
  unfold VotePost
  rw [hf]
  simp only
  unfold update
  simp only
  rcases hcase with ⟨hnone, hnot⟩ | ⟨j, hsome, hget⟩
  · rw [hnone]
    simp only
    by_cases hd : d = VoteNone
    · rw [if_pos hd]
      exact ⟨_, p, rfl, hp, hs, hn, hz, hpc⟩
    · rw [if_neg hd, hp]
      refine ⟨_, _, rfl, if_pos rfl, consistent_finish _ ?_ ?_ ?_ rfl⟩
      · show SearchServer.wrapInt (p.Score + d)
          = SearchServer.wrapInt (voteSum (p.Votes ++ [⟨userID, d⟩]))
        rw [voteSum_append, hs, wrapInt_add_left]
      · show ((p.Votes ++ [(⟨userID, d⟩ : Vote)]).map (fun v => v.User)).Nodup
        rw [List.map_append, List.nodup_append]
        refine ⟨hn, List.nodup_singleton _, ?_⟩
        intro u hu hu'
        simp only [List.map_cons, List.map_nil, List.mem_singleton] at hu'
        subst hu'
        exact hnot hu
      · intro v hv
        change v ∈ p.Votes ++ [(⟨userID, d⟩ : Vote)] at hv
        rcases List.mem_append.1 hv with h | h
        · exact hz v h
        · simp only [List.mem_singleton] at h
          rw [h]
          exact hd
  · have hj : j < p.Votes.length := by
      rcases Nat.lt_or_ge j p.Votes.length with h | h
      · exact h
      · rw [List.getElem?_eq_none h] at hget
        cases hget
    rw [hsome]
    simp only
    by_cases hd : d = VoteNone
    · rw [if_pos hd, hp]
      simp only
      rw [if_pos hj]
      refine ⟨_, _, rfl, if_pos rfl, consistent_finish _ ?_ ?_ ?_ rfl⟩
      · show SearchServer.wrapInt (p.Score - f.existingVote)
          = SearchServer.wrapInt (voteSum (p.Votes.eraseIdx j))
        rw [voteSum_eraseIdx _ _ _ hget, hs, wrapInt_sub_left]
      · show ((p.Votes.eraseIdx j).map (fun v => v.User)).Nodup
        exact hn.sublist ((List.eraseIdx_sublist _ _).map _)
      · intro v hv
        exact hz v ((List.eraseIdx_sublist _ _).subset hv)
    · rw [if_neg hd]
      by_cases he : d = f.existingVote
      · rw [if_pos he]
        exact ⟨_, p, rfl, hp, hs, hn, hz, hpc⟩
      · rw [if_neg he, hp]
        simp only
        rw [if_pos hj]
        refine ⟨_, _, rfl, if_pos rfl, consistent_finish _ ?_ ?_ ?_ rfl⟩
        · show SearchServer.wrapInt (p.Score + SearchServer.wrapInt (d - f.existingVote))
            = SearchServer.wrapInt
              (voteSum (p.Votes.modify (fun v => { v with Vote := d }) j))
          rw [voteSum_modify _ _ _ _ hget, hs, wrapInt_add_right, wrapInt_add_left]
          congr 1
          simp only
          omega
        · show ((p.Votes.modify (fun v => { v with Vote := d }) j).map
            (fun v => v.User)).Nodup
          rw [users_modify]
          exact hn
        · intro v hv
          rcases mem_modify _ _ _ _ hv with h | h
          · exact hz v h
          · rw [h]
            exact hd

theorem votePost_returns (repo : Repo) (postID userID : String) (d : Int) :
    ∃ out, VotePost repo postID userID d = some out := by
  cases hp : repo.data postID with
  | none => exact ⟨_, votePost_missing repo postID userID d hp⟩
  | some p =>
    obtain ⟨f, hf, -, hcase⟩ := lookup_some repo postID userID p hp
    unfold VotePost
    rw [hf]
    simp only
    unfold update
    simp only
    rcases hcase with ⟨hnone, -⟩ | ⟨j, hsome, hget⟩
    · rw [hnone]
      simp only
      split
      · exact ⟨_, rfl⟩
      · rw [hp]
        exact ⟨_, rfl⟩
    · have hj : j < p.Votes.length := by
        rcases Nat.lt_or_ge j p.Votes.length with h | h
        · exact h
        · rw [List.getElem?_eq_none h] at hget
          cases hget
      rw [hsome]
      simp only
      split
      · rw [hp]
        simp only
        rw [if_pos hj]
        exact ⟨_, rfl⟩
      · split
        · exact ⟨_, rfl⟩
        · rw [hp]
          simp only
          rw [if_pos hj]
          exact ⟨_, rfl⟩

theorem votes_post (id : String) (calls : List VoteCall) :
    ∀ (repo : Repo) (p : Post), repo.data id = some p → Consistent p →
      ∃ r q, votes repo calls = some r ∧ r.data id = some q ∧ Consistent q := by
  induction calls with
  | nil => exact fun repo p hp hc => ⟨repo, p, rfl, hp, hc⟩
  | cons c rest ih =>
    intro repo p hp hc
    unfold votes
    by_cases h : id = c.postID
    · subst h
      obtain ⟨out, q, hout, hq, hcq⟩ := votePost_post repo _ c.userID c.voteDirection p hp hc
      rw [hout]
      exact ih _ q hq hcq
    · obtain ⟨out, hout⟩ := votePost_returns repo c.postID c.userID c.voteDirection
      rw [hout]
      exact ih _ p (by rw [votePost_other _ _ _ _ _ hout _ h]; exact hp) hc

theorem add_post (repo : Repo) (postData : DataPost) (login userID id created : String) :
    ∃ p, Add repo postData login userID (some id) created
        = ((Add repo postData login userID (some id) created).1, some p) ∧
      p.ID = id ∧ p.Score = 1 ∧ p.Votes = [⟨userID, 1⟩] ∧ p.UpvotePercentage = 100 ∧
      (Add repo postData login userID (some id) created).1.data id = some p ∧
      Consistent p := by
  refine ⟨_, rfl, rfl, rfl, rfl, rfl, ?_, ?_⟩
  · simp [Add]
  · refine consistent_finish _ ?_ (by simp) ?_ ?_
    · show (1 : Int) = SearchServer.wrapInt (voteSum [⟨userID, 1⟩])
      have : voteSum [⟨userID, 1⟩] = 1 := by simp [voteSum]
      rw [this]
      decide
    · intro v hv
      change v ∈ [(⟨userID, 1⟩ : Vote)] at hv
      simp only [List.mem_singleton] at hv
      rw [hv]
      show (1 : Int) ≠ 0
      decide
    · show (100 : Int) = upvotePercentage [⟨userID, 1⟩]
      simp [upvotePercentage, VoteUp]

/-- Counterexample to C28 as stated: a post is added by `u1` and `u2` votes with the
direction 9223372036854775807. The addition on `Score` wraps around: `Score` is
-9223372036854775808, while the `Vote` values 1 and 9223372036854775807 sum to
9223372036854775808. -/
theorem votePost_score_wraps :
    ((votes (Add NewMemoryRepo ⟨"music", "text", "title", "", "body"⟩ "alice" "u1"
        (some "p1") "2024-01-01T00:00:00Z").1
        [⟨"p1", "u2", SearchServer.MaxInt⟩]).bind (fun r => r.data "p1")).map
          (fun p => (p.Score, p.Votes))
      = some (SearchServer.MinInt, [⟨"u1", 1⟩, ⟨"u2", SearchServer.MaxInt⟩]) ∧
    voteSum [⟨"u1", 1⟩, ⟨"u2", SearchServer.MaxInt⟩] = 2 ^ 63 ∧
    SearchServer.MinInt ≠ voteSum [⟨"u1", 1⟩, ⟨"u2", SearchServer.MaxInt⟩] := by
  decide

/-- Why C28 is amended to calls that do not overlap: `VotePost` releases the read lock
(repo.go:209) before it takes the write lock (repo.go:227). When two calls of `u2` with
direction 1 both perform their first part before either performs its second part, both
find no vote of `u2` and both append one: `Votes` then holds two entries of `u2`. -/
theorem votePost_overlap_duplicates :
    ((votesOverlapping (Add NewMemoryRepo ⟨"music", "text", "title", "", "body"⟩ "alice"
        "u1" (some "p1") "2024-01-01T00:00:00Z").1 "p1" "u2" 1).bind
          (fun r => r.data "p1")).map (fun p => (p.Score, p.Votes))
      = some (3, [⟨"u1", 1⟩, ⟨"u2", 1⟩, ⟨"u2", 1⟩]) ∧
    ¬ ([("u1" : String), "u2", "u2"]).Nodup := by
  decide

/-- C28, amended: every post created by `Add` and then modified by any sequence of
`VotePost` calls that do not overlap (each call returns before the next one begins),
with any vote directions, has a `Score` equal to the sum of the `Vote` values in
`Votes` in `int` arithmetic, that is reduced modulo `2 ^ 64` into the range of `int`,
and equal to the sum itself whenever the sum lies in that range; `Votes` holds at most
one entry per user and no entry with value `VoteNone`; and `UpvotePercentage` is the
number of `VoteUp` entries times 100 divided by the length of `Votes`, or 0 when
`Votes` is empty. Every such call returns, and one that returns an error leaves the
repository unchanged. -/
theorem votePost_invariants (repo : Repo) (postData : DataPost)
    (login userID id created : String) (calls : List VoteCall) :
    (∃ r p, votes (Add repo postData login userID (some id) created).1 calls = some r ∧
      r.data id = some p ∧
      p.Score = SearchServer.wrapInt (voteSum p.Votes) ∧
      (SearchServer.MinInt ≤ voteSum p.Votes → voteSum p.Votes ≤ SearchServer.MaxInt →
        p.Score = voteSum p.Votes) ∧
      (p.Votes.map (fun v => v.User)).Nodup ∧
      (∀ v ∈ p.Votes, v.Vote ≠ VoteNone) ∧
      p.UpvotePercentage =
        (if p.Votes = [] then 0
          else ((p.Votes.countP (fun v => decide (v.Vote = VoteUp)) * 100 / p.Votes.length :
            Nat) : Int))) ∧
    (∀ (r : Repo) (postID uid : String) (d : Int),
      ∃ out, VotePost r postID uid d = some out) ∧
    (∀ (r r1 : Repo) (postID uid : String) (d : Int) (e : VoteError),
      VotePost r postID uid d = some (r1, Except.error e) → r1 = r) := by
  refine ⟨?_, votePost_returns, fun r r1 postID uid d e h => votePost_error r postID uid d r1 e h⟩
  obtain ⟨p0, -, -, -, -, -, hdata, hc0⟩ := add_post repo postData login userID id created
  obtain ⟨r, p, hr, hp, hs, hn, hz, hpc⟩ := votes_post id calls _ p0 hdata hc0
  refine ⟨r, p, hr, hp, hs, fun h1 h2 => ?_, hn, hz, hpc⟩
  rw [hs]
  have hM : SearchServer.MaxInt = 2 ^ 63 - 1 := rfl
  have hm : SearchServer.MinInt = -(2 ^ 63) := rfl
  exact SearchServer.wrapInt_of_range _ (by omega) (by omega)

/-- The amended C28 on a sample run: `u2` votes up, `u3` votes down, `u2` withdraws the
vote, `u3` votes down again (refused) and then 5, a vote on an unknown post. -/
theorem votePost_sample :
    ((votes (Add NewMemoryRepo ⟨"music", "text", "title", "", "body"⟩ "alice" "u1"
        (some "p1") "2024-01-01T00:00:00Z").1
        [⟨"p1", "u2", 1⟩, ⟨"p1", "u3", -1⟩, ⟨"p1", "u2", 0⟩, ⟨"p1", "u3", -1⟩,
          ⟨"p1", "u3", 5⟩, ⟨"p9", "u3", 1⟩]).bind (fun r => r.data "p1")).map
        (fun p => (p.Score, p.Votes, p.UpvotePercentage))
      = some (6, [⟨"u1", 1⟩, ⟨"u3", 5⟩], 50) ∧
    (match ((votes (Add NewMemoryRepo ⟨"music", "text", "title", "", "body"⟩ "alice"
        "u1" (some "p1") "2024-01-01T00:00:00Z").1 [⟨"p1", "u3", -1⟩]).bind
          (fun r => VotePost r "p1" "u3" (-1))).map (fun out => out.2) with
      | some (Except.error e) => some e
      | _ => none) = some VoteError.ErrAlreadyVoted ∧
    (match (VotePost NewMemoryRepo "p9" "u3" 1).map (fun out => out.2) with
      | some (Except.error e) => some e
      | _ => none) = some VoteError.ErrSourceNotFound := by
  decide

end RedditPost

/-! # Theorems: requests out of range -/

namespace SearchServer

/-- C29: `ApplyQueryToUsers` is not total on the requests `ProccesQueryParams` produces.
The query `order_field=Id&limit=2&offset=-1` is accepted and yields offset -1; on three
users both tests of server.go:114 hold and the slice expression `queryUsers[-1:1]`
panics. The query `limit=-2&offset=2` yields limit -2, and `queryUsers[2:0]` panics. -/
theorem applyQuery_negative_panics :
    (match (ProccesQueryParams sampleConsts true ⟨"Id", "", "2", "-1", ""⟩).result with
      | Except.ok r => some (r.Limit, r.Offset, r.OrderField, r.OrderBy)
      | Except.error _ => none) = some (2, -1, ID, sampleConsts.OrderByAsIs) ∧
    (∀ pdqsort, ApplyQueryToUsers sampleConsts pdqsort
      ⟨2, -1, "", ID, sampleConsts.OrderByAsIs⟩ sampleUsers = none) ∧
    (match (ProccesQueryParams sampleConsts true ⟨"Id", "", "-2", "2", ""⟩).result with
      | Except.ok r => some (r.Limit, r.Offset, r.OrderField, r.OrderBy)
      | Except.error _ => none) = some (-2, 2, ID, sampleConsts.OrderByAsIs) ∧
    (∀ pdqsort, ApplyQueryToUsers sampleConsts pdqsort
      ⟨-2, 2, "", ID, sampleConsts.OrderByAsIs⟩ sampleUsers = none) := by
  refine ⟨by decide, fun pdqsort => ?_, by decide, fun pdqsort => ?_⟩
  · rw [applyQuery_short sampleConsts pdqsort (fun _ l => l) _ _ (by decide)]
    decide
  · rw [applyQuery_short sampleConsts pdqsort (fun _ l => l) _ _ (by decide)]
    decide

end SearchServer

/-! # Theorems: the sort of `CombineResults` under any sorting routine -/

namespace Spammer

theorem cmpMsgData_strictWeak : SearchServer.StrictWeakOrdering cmpMsgData := by
  refine ⟨fun a b h => ?_, fun a b d h => ?_⟩
  · rcases (inferInstance : IsTotal MsgData (cmpLE cmpMsgData)).total a b with h1 | h1
    · exact h1 h.2
    · exact h1 h.1
  · by_contra hn
    rw [not_or] at hn
    exact (inferInstance : IsTrans MsgData (cmpLE cmpMsgData)).trans d b a hn.2 hn.1 h

/-- The list `SortFunc cmpMsgData` returns is the one every sorting routine that meets
the library's contract returns, stable or not, on slices of any length: under
`cmpMsgData` only equal records tie. -/
theorem sortFunc_cmpMsgData_any (sort : (MsgData → MsgData → Int) → List MsgData → List MsgData)
    (hsort : SearchServer.SortsBy sort) (l : List MsgData) :
    SearchServer.slicesSortFunc sort cmpMsgData l = SortFunc cmpMsgData l := by
  obtain ⟨hp, hs⟩ := SearchServer.slicesSortFunc_spec sort hsort cmpMsgData l
    cmpMsgData_strictWeak
  exact List.eq_of_perm_of_sorted (hp.trans (List.perm_insertionSort _ _).symm) hs
    (List.sorted_insertionSort _ _)

end Spammer
